import Mathlib

/-!
# Delta + Huffman codec of `Source.cpp`

A shallow embedding of the codec in `Source.cpp` (`Node`, `MinHeap`,
`HuffmanCompressor::compress`, `HuffmanCompressor::decompress`) together with
the properties the specification states about it.

Conventions of the embedding.

* A byte (`unsigned char`) is a `Nat` below 256; arithmetic on bytes is taken
  modulo 256 explicitly.
* `long long` and `int` values are `Int`; the frequencies and lengths that occur
  stay far below `2^63`, so no wrap-around is modelled for them.
* A `Node*` is a value of the inductive type `Node`; `Node.null` is `nullptr`.
* An array indexed by a symbol (`freqMap`, `codeMap`) is a function on `Nat`, of
  which only the slots `0..255` are ever used.
* Loops whose trip count is not syntactically bounded carry a fuel argument;
  the callers pass a fuel that is proved sufficient.
-/

namespace DSAProject

/-! ## 1. Utilities -/

/-- The characters of a NUL-terminated C string stored in a `char` array: the
characters before the first `'\0'`. -/
def cstr (s : List Nat) : List Nat :=
  s.takeWhile (fun c => c != 0)

/-- Embedding of `strLen`: the number of characters before the first `'\0'`. -/
def strLen (s : List Nat) : Nat :=
  (cstr s).length

/-- Embedding of `strCopy(dest, src)`: the characters of `src` up to its first
`'\0'` are copied to the front of `dest`, followed by a `'\0'`; the remaining
slots of `dest` keep their contents. -/
def strCopy (dest src : List Nat) : List Nat :=
  cstr src ++ 0 :: dest.drop (strLen src + 1)

/-! ## 2. Data structures -/

/-- A `Node*`: either `nullptr` or a pointer to a node with fields `ch`, `freq`,
`left`, `right`. -/
inductive Node where
  | null : Node
  | mk (ch : Nat) (freq : Int) (left right : Node) : Node
  deriving DecidableEq

namespace Node

/-- Field `freq` (never read through `nullptr` by the code). -/
def freq : Node → Int
  | null => 0
  | mk _ f _ _ => f

/-- Field `ch`. -/
def ch : Node → Nat
  | null => 0
  | mk c _ _ _ => c

/-- Field `left`. -/
def left : Node → Node
  | null => null
  | mk _ _ l _ => l

/-- Field `right`. -/
def right : Node → Node
  | null => null
  | mk _ _ _ r => r

/-- Test `p == nullptr`. -/
def isNull : Node → Bool
  | null => true
  | mk _ _ _ _ => false

/-- Embedding of `Node::isLeaf`: `!left && !right`. -/
def isLeaf : Node → Bool
  | null => false
  | mk _ _ l r => l.isNull && r.isNull

end Node

/-- Exchange of `array[i]` and `array[j]` through a temporary. -/
def swap (a : List Node) (i j : Nat) : List Node :=
  let temp := a.getD i Node.null
  (a.set i (a.getD j Node.null)).set j temp

/-- The `while (i > 0)` loop of `MinHeap::push` (sift-up from slot `i`). The
fuel bounds the number of iterations; `i` iterations always suffice. -/
def siftUp : Nat → List Node → Nat → List Node
  | 0, a, _ => a
  | fuel + 1, a, i =>
    if 0 < i then
      let parent := (i - 1) / 2
      if (a.getD i Node.null).freq < (a.getD parent Node.null).freq then
        siftUp fuel (swap a i parent) parent
      else a
    else a

/-- The `while (true)` loop of `MinHeap::pop` (sift-down from slot `i`). The
fuel bounds the number of iterations; `size - i` iterations always suffice. -/
def siftDown : Nat → List Node → Nat → List Node
  | 0, a, _ => a
  | fuel + 1, a, i =>
    let left := 2 * i + 1
    let right := 2 * i + 2
    let smallest := i
    let smallest :=
      if left < a.length ∧ (a.getD left Node.null).freq < (a.getD smallest Node.null).freq
      then left else smallest
    let smallest :=
      if right < a.length ∧ (a.getD right Node.null).freq < (a.getD smallest Node.null).freq
      then right else smallest
    if smallest ≠ i then siftDown fuel (swap a i smallest) smallest else a

/-- The `MinHeap` object: the slots `array[0 .. size-1]`; `size` is the length
of the list. Slots at and beyond `size` are never read by the code. -/
structure MinHeap where
  array : List Node
  deriving DecidableEq

namespace MinHeap

/-- Constructor `MinHeap()`: `size = 0`. -/
def empty : MinHeap := ⟨[]⟩

/-- Embedding of `getSize`. -/
def getSize (h : MinHeap) : Nat := h.array.length

/-- Embedding of `MinHeap::push`: store at `array[size]`, increment `size`,
sift up. -/
def push (h : MinHeap) (node : Node) : MinHeap :=
  let i := h.array.length
  ⟨siftUp i (h.array ++ [node]) i⟩

/-- Embedding of `MinHeap::pop`: returns `nullptr` on an empty heap, otherwise
the root, after moving the last slot to the root and sifting down. -/
def pop (h : MinHeap) : Node × MinHeap :=
  match h.array with
  | [] => (Node.null, h)
  | minNode :: rest =>
    let a := ((minNode :: rest).set 0 ((minNode :: rest).getD rest.length Node.null)).dropLast
    (minNode, ⟨siftDown a.length a 0⟩)

end MinHeap

/-! ## 3. Core logic -/

/-- The delta loop of `compress` (step 1) from index 1 on: `prev` is
`data[i-1]`; the subtraction is the `unsigned char` one, modulo 256. -/
def deltaForwardFrom (prev : Nat) : List Nat → List Nat
  | [] => []
  | x :: xs => (x + 256 - prev) % 256 :: deltaForwardFrom x xs

/-- Step 1 of `compress`: `deltaData[0] = data[0]`,
`deltaData[i] = data[i] - data[i-1]`. -/
def deltaForward : List Nat → List Nat
  | [] => []
  | x :: xs => x :: deltaForwardFrom x xs

/-- The inverse delta loop of `decompress` (step 2) from index 1 on: `prev` is
`originalData[i-1]`; the addition is the `unsigned char` one, modulo 256. -/
def deltaInverseFrom (prev : Nat) : List Nat → List Nat
  | [] => []
  | d :: ds => (prev + d) % 256 :: deltaInverseFrom ((prev + d) % 256) ds

/-- Step 2 of `decompress`: `originalData[0] = deltaData[0]`,
`originalData[i] = originalData[i-1] + deltaData[i]`. -/
def deltaInverse : List Nat → List Nat
  | [] => []
  | d :: ds => d :: deltaInverseFrom d ds

/-- Step 2 of `compress`: `freqMap` is zeroed, then `freqMap[deltaData[i]]++`
for every byte of the delta stream. -/
def countFreq (deltaData : List Nat) : Nat → Int :=
  deltaData.foldl (fun fm d => Function.update fm d (fm d + 1)) (fun _ => 0)

/-- The scan `for (i = 0; i < 256; i++) if (freqMap[i] > 0) pq.push(new Node(i, freqMap[i]))`
that fills the priority queue, started from the heap `pq`. -/
def pushLeaves (freqMap : Nat → Int) (pq : MinHeap) : MinHeap :=
  (List.range 256).foldl
    (fun pq i => if 0 < freqMap i then pq.push (Node.mk i (freqMap i) Node.null Node.null) else pq)
    pq

/-- The loop `while (pq.getSize() > 1)` of the tree build: pop two nodes, push
their parent. Each iteration lowers the size by one, so `size` iterations of
fuel suffice. -/
def mergeLoop : Nat → MinHeap → MinHeap
  | 0, pq => pq
  | fuel + 1, pq =>
    if 1 < pq.getSize then
      let (left, pq1) := pq.pop
      let (right, pq2) := pq1.pop
      mergeLoop fuel (pq2.push (Node.mk 0 (left.freq + right.freq) left right))
    else pq

/-- The tree build shared by `compress` (step 3) and `decompress`, from the
filled priority queue to `root`. -/
def buildFromHeap (pq : MinHeap) : Node :=
  if pq.getSize = 1 then
    let child := pq.pop.1
    Node.mk 0 child.freq child Node.null
  else
    (mergeLoop pq.getSize pq).pop.1

/-- Step 3 of `compress`: fill the queue from `freqMap`, build the tree. -/
def buildTree (freqMap : Nat → Int) : Node :=
  buildFromHeap (pushLeaves freqMap MinHeap.empty)

/-- Embedding of `generateCodes(node, currentCode, depth)`. The traversal
buffer `currentCode` is shared by all calls, so it is threaded through; the
result is the new `codeMap` and the new contents of the buffer. `'0'` is 48
and `'1'` is 49. -/
def generateCodes : Node → (Nat → List Nat) → List Nat → Nat → (Nat → List Nat) × List Nat
  | Node.null, codeMap, currentCode, _ => (codeMap, currentCode)
  | Node.mk ch f l r, codeMap, currentCode, depth =>
    let s1 : (Nat → List Nat) × List Nat :=
      if (Node.mk ch f l r).isLeaf then
        let cur := currentCode.set depth 0
        (Function.update codeMap ch (strCopy (codeMap ch) cur), cur)
      else (codeMap, currentCode)
    let s2 := generateCodes l s1.1 (s1.2.set depth 48) (depth + 1)
    generateCodes r s2.1 (s2.2.set depth 49) (depth + 1)

/-- The `w` low-order bytes of `n`, least significant first: the in-memory
representation of a `w`-byte unsigned integer on the little-endian target. -/
def leBytes : Nat → Nat → List Nat
  | 0, _ => []
  | w + 1, n => n % 256 :: leBytes w (n / 256)

/-- The bytes `out.write((char*)&x, w)` appends for a `w`-byte signed integer
`x` (two's complement, little-endian). -/
def writeInt (w : Nat) (x : Int) : List Nat :=
  leBytes w (x % (2 : Int) ^ (8 * w)).toNat

/-- The unsigned value of a little-endian byte string. -/
def ofLE : List Nat → Nat
  | [] => 0
  | b :: bs => b + 256 * ofLE bs

/-- The value of a `w`-byte two's complement integer with unsigned value `n`. -/
def toSigned (w : Nat) (n : Nat) : Int :=
  if n < 2 ^ (8 * w - 1) then (n : Int) else (n : Int) - (2 : Int) ^ (8 * w)

/-- The effect of `in.read((char*)&x, w)` on a `w`-byte signed integer when at
least `w` bytes remain: the value read and the rest of the stream. With fewer
bytes left the variable is not fully assigned; that case is outside the
embedding (`none`). -/
def readInt (w : Nat) (inp : List Nat) : Option (Int × List Nat) :=
  if inp.length < w then none
  else some (toSigned w (ofLE (inp.take w)), inp.drop w)

/-- The counting loop `for (i = 0; i < 256; i++) if (freqMap[i] > 0) mapSize++`. -/
def countMapSize (freqMap : Nat → Int) : Int :=
  (List.range 256).foldl (fun (m : Int) i => if 0 < freqMap i then m + 1 else m) 0

/-- The loop that writes one `(unsigned char, long long)` pair per symbol of
positive frequency, in ascending symbol order, appended to `out`. -/
def writeEntries (freqMap : Nat → Int) (out : List Nat) : List Nat :=
  (List.range 256).foldl
    (fun out i => if 0 < freqMap i then out ++ [i % 256] ++ writeInt 8 (freqMap i) else out)
    out

/-- State of the bit writer of `compress`: the bytes put to `out` so far,
`byteBuffer` and `bitCount`. -/
structure BitWriter where
  out : List Nat
  byteBuffer : Nat
  bitCount : Nat
  deriving DecidableEq

/-- Body of the loop over the characters of a code: set the bit for a `'1'`,
count it, and put the byte once eight bits are gathered. -/
def putBit (st : BitWriter) (c : Nat) : BitWriter :=
  let byteBuffer :=
    if c = 49 then (st.byteBuffer ||| (1 <<< (7 - st.bitCount))) % 256 else st.byteBuffer
  let bitCount := st.bitCount + 1
  if bitCount = 8 then ⟨st.out ++ [byteBuffer], 0, 0⟩
  else ⟨st.out, byteBuffer, bitCount⟩

/-- The loop `for (j = 0; code[j] != '\0'; j++)` over one row of `codeMap`. -/
def writeCode (st : BitWriter) (code : List Nat) : BitWriter :=
  (cstr code).foldl putBit st

/-- The loop over `deltaData` that writes the code of every delta byte. -/
def writeBits (codeMap : Nat → List Nat) (deltaData : List Nat) (st : BitWriter) : BitWriter :=
  deltaData.foldl (fun st ch => writeCode st (codeMap ch)) st

/-- The final `if (bitCount > 0) out.put(byteBuffer)`. -/
def flushBits (st : BitWriter) : List Nat :=
  if 0 < st.bitCount then st.out ++ [st.byteBuffer] else st.out

/-- The data members of a `HuffmanCompressor`. -/
structure HuffmanCompressor where
  freqMap : Nat → Int
  codeMap : Nat → List Nat
  root : Node

/-- Constructor `HuffmanCompressor()`: `root = nullptr` and `freqMap` zeroed;
`codeMap` is not initialised, `rows` gives its indeterminate contents. -/
def HuffmanCompressor.init (rows : Nat → List Nat) : HuffmanCompressor :=
  ⟨fun _ => 0, rows, Node.null⟩

/-- What a call of `compress` or `decompress` leaves behind: the value returned,
the contents of the output file (`none` when the file was never opened), and the
object's data members. -/
structure Outcome where
  result : Bool
  output : Option (List Nat)
  self : HuffmanCompressor

/-- The contents of a fresh array of `n` bytes that the code does not
initialise; `mem` gives the indeterminate value of each slot. -/
def uninit (mem : Nat → Nat) (n : Nat) : List Nat :=
  (List.range n).map mem

/-- Embedding of `HuffmanCompressor::compress`. `input` is the contents of the
input file (`none` when it cannot be opened); `mem` gives the indeterminate
initial contents of the local `buffer[256]`. -/
def compress (self : HuffmanCompressor) (mem : Nat → Nat) (input : Option (List Nat)) :
    Outcome :=
  match input with
  | none => ⟨false, none, self⟩
  | some data =>
    let fileSize : Int := data.length
    if fileSize = 0 then ⟨false, none, self⟩
    else
      let deltaData := deltaForward data
      let freqMap := countFreq deltaData
      let pq := pushLeaves freqMap MinHeap.empty
      let root := buildFromHeap pq
      let codeMap := (generateCodes root self.codeMap (uninit mem 256) 0).1
      let out := writeInt 4 (countMapSize freqMap)
      let out := writeEntries freqMap out
      let out := out ++ writeInt 8 fileSize
      let st := writeBits codeMap deltaData ⟨out, 0, 0⟩
      ⟨true, some (flushBits st), ⟨freqMap, codeMap, root⟩⟩

/-- The loop `for (i = 0; i < mapSize; i++)` of `decompress` that reads one
`(unsigned char, long long)` pair per iteration and stores `freqMap[ch] = freq`.
`none` when the stream ends inside the header. -/
def readEntries : Nat → (Nat → Int) → List Nat → Option ((Nat → Int) × List Nat)
  | 0, freqMap, inp => some (freqMap, inp)
  | n + 1, freqMap, inp =>
    match inp with
    | [] => none
    | ch :: rest =>
      match readInt 8 rest with
      | none => none
      | some (freq, rest1) => readEntries n (Function.update freqMap ch freq) rest1

/-- State of the decode loop of `decompress`: `curr`, the contents of
`deltaData`, and `charsDecoded`. -/
structure DecodeState where
  curr : Node
  deltaData : List Nat
  charsDecoded : Nat
  deriving DecidableEq

/-- Body of the bit loop of `decompress` after the `break` test: follow the
child selected by bit `i` of `byte`, and emit on a leaf. `none` when the child
followed is `nullptr`, which the code dereferences. -/
def decodeBit (root : Node) (byte i : Nat) (st : DecodeState) : Option DecodeState :=
  let bit := (byte >>> i) &&& 1
  let curr := if bit = 0 then st.curr.left else st.curr.right
  if curr.isNull then none
  else if curr.isLeaf then
    some ⟨root, st.deltaData.set st.charsDecoded curr.ch, st.charsDecoded + 1⟩
  else some ⟨curr, st.deltaData, st.charsDecoded⟩

/-- The loop `for (i = 7; i >= 0; i--)` over the bits of one byte; `is` lists the
values of `i` still to come. The loop is left as soon as
`charsDecoded >= totalChars`. -/
def decodeByte (root : Node) (totalChars : Nat) (byte : Nat) :
    List Nat → DecodeState → Option DecodeState
  | [], st => some st
  | i :: is, st =>
    if totalChars ≤ st.charsDecoded then some st
    else
      match decodeBit root byte i st with
      | none => none
      | some st1 => decodeByte root totalChars byte is st1

/-- The loop `while (in.get(byte))` over the payload bytes. -/
def decodeLoop (root : Node) (totalChars : Nat) : List Nat → DecodeState → Option DecodeState
  | [], st => some st
  | byte :: rest, st =>
    match decodeByte root totalChars byte [7, 6, 5, 4, 3, 2, 1, 0] st with
    | none => none
    | some st1 => decodeLoop root totalChars rest st1

/-- Embedding of `HuffmanCompressor::decompress`. `input` is the contents of the
input file (`none` when it cannot be opened); `mem` gives the indeterminate
initial contents of the array `deltaData`, which the code does not initialise.
The result is `none` where the C++ program has no defined outcome that the
embedding covers: a stream that ends inside the header, `totalChars <= 0` with a
non-empty queue, or a `nullptr` followed during the decode walk. -/
def decompress (self : HuffmanCompressor) (mem : Nat → Nat) (input : Option (List Nat)) :
    Option Outcome :=
  match input with
  | none => some ⟨false, none, self⟩
  | some bytes =>
    match readInt 4 bytes with
    | none => none
    | some (mapSize, rest) =>
      match readEntries mapSize.toNat (fun _ => 0) rest with
      | none => none
      | some (freqMap, rest1) =>
        match readInt 8 rest1 with
        | none => none
        | some (totalChars, payload) =>
          let pq := pushLeaves freqMap MinHeap.empty
          if pq.getSize = 0 then
            some ⟨false, none, ⟨freqMap, self.codeMap, Node.null⟩⟩
          else
            let root := buildFromHeap pq
            if totalChars ≤ 0 then none
            else
              let n := totalChars.toNat
              match decodeLoop root n payload ⟨root, uninit mem n, 0⟩ with
              | none => none
              | some st =>
                let originalData := deltaInverse st.deltaData
                some ⟨true, some originalData, ⟨freqMap, self.codeMap, root⟩⟩

/-! ## 4. Notions used to state the properties -/

/-- The symbols of positive frequency, in the ascending order in which every
scan `for (i = 0; i < 256; i++) if (freqMap[i] > 0)` of the code meets them. -/
def symbols (freqMap : Nat → Int) : List Nat :=
  (List.range 256).filter (fun i => decide (0 < freqMap i))


/-- The value of the local `smallest` of `MinHeap::pop` after its two tests, for
the array `a` and the slot `i`. -/
def smallestOf (a : List Node) (i : Nat) : Nat :=
  let s1 :=
    if 2 * i + 1 < a.length ∧ (a.getD (2 * i + 1) Node.null).freq < (a.getD i Node.null).freq
    then 2 * i + 1 else i
  if 2 * i + 2 < a.length ∧ (a.getD (2 * i + 2) Node.null).freq < (a.getD s1 Node.null).freq
  then 2 * i + 2 else s1

/-- The symbols at the leaves of a tree, from left to right. -/
def leaves : Node → List Nat
  | Node.null => []
  | Node.mk c f l r => if (Node.mk c f l r).isLeaf then [c] else leaves l ++ leaves r

/-- A full binary tree: not `nullptr`, and every node is either a leaf or has
two children that are full trees. -/
def Node.full : Node → Prop
  | Node.null => False
  | Node.mk _ _ l r => (l = Node.null ∧ r = Node.null) ∨ (l.full ∧ r.full)

/-- The height of a tree: the number of edges of a longest path from the root
down to a node. -/
def height : Node → Nat
  | Node.null => 0
  | Node.mk c f l r => if (Node.mk c f l r).isLeaf then 0 else 1 + max (height l) (height r)

/-- The root-to-leaf paths of a tree, left to right, each with the symbol of
its leaf; `false` is a step to `left`, `true` a step to `right`. -/
def codesOf : Node → List (Nat × List Bool)
  | Node.null => []
  | Node.mk c f l r =>
    if (Node.mk c f l r).isLeaf then [(c, [])]
    else (codesOf l).map (fun e => (e.1, false :: e.2))
      ++ (codesOf r).map (fun e => (e.1, true :: e.2))

/-- The leaf node `new Node((unsigned char)i, freqMap[i])` of symbol `i`. -/
def leafOf (freqMap : Nat → Int) (i : Nat) : Node :=
  Node.mk i (freqMap i) Node.null Node.null

/-- The invariant of the priority queue during the tree build: every stored
node is a full tree, and together the trees carry exactly the symbols `syms`. -/
def Forest (syms : List Nat) (pq : MinHeap) : Prop :=
  (∀ t ∈ pq.array, t.full) ∧ (pq.array.flatMap leaves).Perm syms

/-- One iteration of the merge loop: pop two nodes, push their parent. -/
def mergeStep (pq : MinHeap) : MinHeap :=
  pq.pop.2.pop.2.push
    (Node.mk 0 (pq.pop.1.freq + pq.pop.2.pop.1.freq) pq.pop.1 pq.pop.2.pop.1)


/-- The character `generateCodes` writes for a step: `'0'` (48) to the left,
`'1'` (49) to the right. -/
def bitChar (b : Bool) : Nat := if b then 49 else 48

/-- The bits of a byte in the order in which the decode loop of `decompress`
reads them: `(byte >> i) & 1` for `i = 7, 6, ..., 0`. -/
def byteBits (byte : Nat) : List Bool :=
  [7, 6, 5, 4, 3, 2, 1, 0].map (fun i => (byte >>> i) &&& 1 != 0)

/-- The invariant of the bit writer after the bits `bits` were written: fewer
than eight bits are pending, they sit in the high-order positions of
`byteBuffer` above zero bits, and the bytes put so far followed by the pending
bits spell `bits`. -/
def WriterInv (st : BitWriter) (bits : List Bool) : Prop :=
  st.bitCount < 8 ∧ st.byteBuffer < 256 ∧
    ∃ pending : List Bool, pending.length = st.bitCount
      ∧ byteBits st.byteBuffer = pending ++ List.replicate (8 - st.bitCount) false
      ∧ st.out.flatMap byteBits ++ pending = bits

/-- The body of the bit loop of `decompress` for a bit value `b` (`true` for 1):
`decodeBit` with the bit already extracted from the byte. -/
def stepBit (root : Node) (b : Bool) (st : DecodeState) : Option DecodeState :=
  let curr := if b then st.curr.right else st.curr.left
  if curr.isNull then none
  else if curr.isLeaf then
    some ⟨root, st.deltaData.set st.charsDecoded curr.ch, st.charsDecoded + 1⟩
  else some ⟨curr, st.deltaData, st.charsDecoded⟩

/-- The decode loop of `decompress` seen as a loop over the bits of the
payload, in reading order. -/
def decodeStream (root : Node) (totalChars : Nat) :
    List Bool → DecodeState → Option DecodeState
  | [], st => some st
  | b :: bs, st =>
    if totalChars ≤ st.charsDecoded then some st
    else
      match stepBit root b st with
      | none => none
      | some st1 => decodeStream root totalChars bs st1

/-- The array `buf` after the stores `buf[k] = ds[0]`, `buf[k+1] = ds[1]`, ... -/
def storeAt : List Nat → Nat → List Nat → List Nat
  | buf, _, [] => buf
  | buf, k, d :: ds => storeAt (buf.set k d) (k + 1) ds

/-- The code of symbol `s` in the tree `t`: the path to the first leaf that
carries `s` (empty when there is none). -/
def codeOf (t : Node) (s : Nat) : List Bool :=
  match (codesOf t).find? (fun e => e.1 == s) with
  | some e => e.2
  | none => []

/-- The bytes of one header entry: the symbol as `unsigned char`, then its
frequency as `long long`. -/
def entryBytes (freqMap : Nat → Int) (i : Nat) : List Nat :=
  i % 256 :: writeInt 8 (freqMap i)

/-- The container header for a frequency table and an original length:
`distinctSymbolCount`, the entries in ascending symbol order, `originalLength`. -/
def headerOf (freqMap : Nat → Int) (originalLength : Int) : List Nat :=
  writeInt 4 ((symbols freqMap).length : Int)
    ++ (symbols freqMap).flatMap (entryBytes freqMap)
    ++ writeInt 8 originalLength

/-- The packed payload: the bit writer of `compress` run, from its initial
state, over the codes that the tree `root` gives to the bytes of `deltaData`. -/
def payloadOf (root : Node) (deltaData : List Nat) : List Nat :=
  flushBits ((deltaData.flatMap (fun d => (codeOf root d).map bitChar)).foldl putBit ⟨[], 0, 0⟩)

/-- The container for the input `data`: header and payload, computed from the
input alone. -/
def containerOf (data : List Nat) : List Nat :=
  headerOf (countFreq (deltaForward data)) (data.length : Int)
    ++ payloadOf (buildTree (countFreq (deltaForward data))) (deltaForward data)

/-- The `(symbol, frequency)` entries of the header for a frequency table, in
the order in which `compress` writes them. -/
def entriesOf (freqMap : Nat → Int) : List (Nat × Int) :=
  (symbols freqMap).map (fun i => (i, freqMap i))

/-- The bytes of one `(symbol, frequency)` entry: one `unsigned char`, then one
`long long`. -/
def entryPairBytes (e : Nat × Int) : List Nat :=
  e.1 % 256 :: writeInt 8 e.2

/-- The slots of a 256-slot frequency table that hold a nonzero value. -/
def nonzeroEntries (freqMap : Nat → Int) : List Nat :=
  (List.range 256).filter (fun i => decide (freqMap i ≠ 0))

/-- The container that `compress` writes for nine bytes `5`, cut short by its
last payload byte: header `2, (0, 8), (5, 1), 9`, payload `0x7F` instead of
`0x7F 0x80`. -/
def truncatedContainer : List Nat :=
  [2, 0, 0, 0, 0, 8, 0, 0, 0, 0, 0, 0, 0, 5, 1, 0, 0, 0, 0, 0, 0, 0,
   9, 0, 0, 0, 0, 0, 0, 0, 127]

/-- The weight `array[k]->freq` of the node in slot `k`. -/
def key (a : List Node) (k : Nat) : Int :=
  (a.getD k Node.null).freq

/-- The heap order on the slots of the array: no node is lighter than the node
in its parent slot `(j - 1) / 2`. -/
def HeapOrdered (a : List Node) : Prop :=
  ∀ j, 0 < j → j < a.length → key a ((j - 1) / 2) ≤ key a j

/-- The states of a `MinHeap` that calls of `push` and `pop` can produce from
the state after construction, with `push` called only while fewer than 512
nodes are stored (the capacity of `array`). -/
inductive Reachable : MinHeap → Prop where
  | empty : Reachable MinHeap.empty
  | push (h : MinHeap) (node : Node) : Reachable h → h.getSize < 512 → Reachable (h.push node)
  | pop (h : MinHeap) : Reachable h → Reachable h.pop.2

/-- The state of the array inside the sift-up loop of `push` at slot `i`: the
heap order holds at every slot other than `i`, and the children of `i` are not
lighter than the parent of `i`. -/
def UpInv (a : List Node) (i : Nat) : Prop :=
  (∀ j, 0 < j → j < a.length → j ≠ i → key a ((j - 1) / 2) ≤ key a j)
    ∧ (∀ j, 0 < j → j < a.length → (j - 1) / 2 = i → 0 < i → key a ((i - 1) / 2) ≤ key a j)

/-- The state of the array inside the sift-down loop of `pop` at slot `i`: the
heap order holds at every slot whose parent is not `i`, and the children of `i`
are not lighter than the parent of `i`. -/
def DownInv (a : List Node) (i : Nat) : Prop :=
  (∀ j, 0 < j → j < a.length → (j - 1) / 2 ≠ i → key a ((j - 1) / 2) ≤ key a j)
    ∧ (∀ j, 0 < j → j < a.length → (j - 1) / 2 = i → 0 < i → key a ((i - 1) / 2) ≤ key a j)

/-- The heap after `push` was called for every node of `l` in turn, starting
from the heap `pq`. -/
def pushAll (pq : MinHeap) (l : List Node) : MinHeap :=
  l.foldl (fun pq node => pq.push node) pq

/-- The nodes returned by `n` successive calls of `pop`. -/
def popSeq : Nat → MinHeap → List Node
  | 0, _ => []
  | n + 1, h => h.pop.1 :: popSeq n h.pop.2

/-- The nodes of a tree: the root and, recursively, the nodes below it. -/
def subtrees : Node → List Node
  | Node.null => []
  | Node.mk c f l r => Node.mk c f l r :: (subtrees l ++ subtrees r)

/-- The weights of a tree agree with the table `fm`: a leaf weighs the
frequency of its symbol, every other node the sum of the weights of its
children (a missing child counting for nothing). -/
def Node.weighted (fm : Nat → Int) : Node → Prop
  | Node.null => True
  | Node.mk c f l r =>
    if (Node.mk c f l r).isLeaf then f = fm c
    else f = l.freq + r.freq ∧ l.weighted fm ∧ r.weighted fm

/-- A sample heap: nodes of weights 3, 1, 2 pushed, in this order, into the
empty heap. -/
def sampleHeap : MinHeap :=
  ((MinHeap.empty.push (Node.mk 3 3 Node.null Node.null)).push
    (Node.mk 1 1 Node.null Node.null)).push (Node.mk 2 2 Node.null Node.null)

/-- Three leaves of equal weight, for the symbols 1, 2, 3 in this order. -/
def equalLeaves : List Node :=
  [Node.mk 1 1 Node.null Node.null, Node.mk 2 1 Node.null Node.null,
   Node.mk 3 1 Node.null Node.null]

/-- The indices of `currentCode` that a call `generateCodes(node, currentCode,
depth)` writes, in the order of the writes: `depth` for the `'\0'` at a leaf,
`depth` for the `'0'`, the writes of the call on `left`, `depth` for the `'1'`,
the writes of the call on `right`. -/
def bufferWrites : Node → Nat → List Nat
  | Node.null, _ => []
  | Node.mk c f l r, depth =>
    (if (Node.mk c f l r).isLeaf then [depth] else [])
      ++ depth :: (bufferWrites l (depth + 1) ++ depth :: bufferWrites r (depth + 1))

/-- The heap sizes met by the scan that fills the queue: the size before each
of the remaining slots `is` is handled, and the size at the end. -/
def scanSizes (freqMap : Nat → Int) : List Nat → MinHeap → List Nat
  | [], pq => [pq.getSize]
  | i :: is, pq =>
    pq.getSize :: scanSizes freqMap is
      (if 0 < freqMap i then pq.push (Node.mk i (freqMap i) Node.null Node.null) else pq)

/-- The heap sizes met by the merge loop: at the loop test, after the first
`pop`, after the second `pop`, and so on through the following iterations. -/
def mergeSizes : Nat → MinHeap → List Nat
  | 0, pq => [pq.getSize]
  | fuel + 1, pq =>
    if 1 < pq.getSize then
      pq.getSize :: pq.pop.2.getSize :: pq.pop.2.pop.2.getSize
        :: mergeSizes fuel (mergeStep pq)
    else [pq.getSize]

/-- The heap sizes met during the whole tree build from a frequency table. -/
def buildSizes (freqMap : Nat → Int) : List Nat :=
  scanSizes freqMap (List.range 256) MinHeap.empty
    ++ mergeSizes (pushLeaves freqMap MinHeap.empty).getSize (pushLeaves freqMap MinHeap.empty)

/-- The body of the bit loop of `decompress` with the store into `deltaData`
checked: as `decodeBit`, but `none` also when `charsDecoded` is not an index of
the array. -/
def decodeBitSafe (root : Node) (byte i : Nat) (st : DecodeState) : Option DecodeState :=
  let bit := (byte >>> i) &&& 1
  let curr := if bit = 0 then st.curr.left else st.curr.right
  if curr.isNull then none
  else if curr.isLeaf then
    if st.charsDecoded < st.deltaData.length then
      some ⟨root, st.deltaData.set st.charsDecoded curr.ch, st.charsDecoded + 1⟩
    else none
  else some ⟨curr, st.deltaData, st.charsDecoded⟩

/-- The loop over the bits of one byte, as `decodeByte`, with the checked body. -/
def decodeByteSafe (root : Node) (totalChars : Nat) (byte : Nat) :
    List Nat → DecodeState → Option DecodeState
  | [], st => some st
  | i :: is, st =>
    if totalChars ≤ st.charsDecoded then some st
    else
      match decodeBitSafe root byte i st with
      | none => none
      | some st1 => decodeByteSafe root totalChars byte is st1

/-- The loop over the payload bytes, as `decodeLoop`, with the checked body. -/
def decodeLoopSafe (root : Node) (totalChars : Nat) :
    List Nat → DecodeState → Option DecodeState
  | [], st => some st
  | byte :: rest, st =>
    match decodeByteSafe root totalChars byte [7, 6, 5, 4, 3, 2, 1, 0] st with
    | none => none
    | some st1 => decodeLoopSafe root totalChars rest st1

/-- Bit `i` of a byte as the decode loop extracts it: `(byte >> i) & 1`. -/
def bitOf (byte i : Nat) : Bool :=
  (byte >>> i) &&& 1 != 0

/-! ## 5. Properties: delta transform and frequency analysis -/

theorem deltaInverseFrom_deltaForwardFrom (xs : List Nat) :
    ∀ prev, prev < 256 → (∀ x ∈ xs, x < 256) →
      deltaInverseFrom prev (deltaForwardFrom prev xs) = xs := by
  induction xs with
  | nil => intro prev _ _; rfl
  | cons x xs ih =>
    intro prev hp hx
    have hx0 : x < 256 := hx x (List.mem_cons_self _ _)
    have e : (prev + (x + 256 - prev) % 256) % 256 = x := by omega
    simp only [deltaForwardFrom, deltaInverseFrom, e]
    rw [ih x hx0 (fun y hy => hx y (List.mem_cons_of_mem _ hy))]

theorem deltaInverse_deltaForward (xs : List Nat) (hx : ∀ x ∈ xs, x < 256) :
    deltaInverse (deltaForward xs) = xs := by
  cases xs with
  | nil => rfl
  | cons x xs =>
    simp only [deltaForward, deltaInverse]
    rw [deltaInverseFrom_deltaForwardFrom xs x (hx x (List.mem_cons_self _ _))
      (fun y hy => hx y (List.mem_cons_of_mem _ hy))]

theorem deltaForwardFrom_length (xs : List Nat) :
    ∀ prev, (deltaForwardFrom prev xs).length = xs.length := by
  induction xs with
  | nil => intro _; rfl
  | cons x xs ih => intro prev; simp [deltaForwardFrom, ih]

theorem deltaForward_length (xs : List Nat) : (deltaForward xs).length = xs.length := by
  cases xs with
  | nil => rfl
  | cons x xs => simp [deltaForward, deltaForwardFrom_length]

theorem deltaForwardFrom_lt (xs : List Nat) :
    ∀ prev, ∀ d ∈ deltaForwardFrom prev xs, d < 256 := by
  induction xs with
  | nil => intro _ d hd; simp [deltaForwardFrom] at hd
  | cons x xs ih =>
    intro prev d hd
    simp only [deltaForwardFrom, List.mem_cons] at hd
    rcases hd with h | h
    · subst h; exact Nat.mod_lt _ (by decide)
    · exact ih x d h

theorem deltaForward_lt (xs : List Nat) (hx : ∀ x ∈ xs, x < 256) :
    ∀ d ∈ deltaForward xs, d < 256 := by
  cases xs with
  | nil => intro d hd; simp [deltaForward] at hd
  | cons x xs =>
    intro d hd
    simp only [deltaForward, List.mem_cons] at hd
    rcases hd with h | h
    · subst h; exact hx _ (List.mem_cons_self _ _)
    · exact deltaForwardFrom_lt xs x d h

theorem deltaForward_ne_nil (xs : List Nat) (h : xs ≠ []) : deltaForward xs ≠ [] := by
  cases xs with
  | nil => exact absurd rfl h
  | cons x xs => simp [deltaForward]

theorem deltaForwardFrom_replicate (b : Nat) (n : Nat) :
    deltaForwardFrom b (List.replicate n b) = List.replicate n 0 := by
  induction n with
  | zero => rfl
  | succ n ih =>
    have e : (b + 256 - b) % 256 = 0 := by omega
    simp only [List.replicate_succ, deltaForwardFrom, e, ih]

theorem countFreq_foldl (l : List Nat) :
    ∀ (fm : Nat → Int) (s : Nat),
      l.foldl (fun fm d => Function.update fm d (fm d + 1)) fm s = fm s + (l.count s : Int) := by
  induction l with
  | nil => intro fm s; simp
  | cons d l ih =>
    intro fm s
    rw [List.foldl_cons, ih]
    by_cases h : d = s
    · subst h
      simp [List.count_cons_self]
      ring
    · have h2 : s ≠ d := fun e => h e.symm
      simp [List.count_cons, Function.update_noteq h2, h]

theorem countFreq_eq (l : List Nat) (s : Nat) : countFreq l s = (l.count s : Int) := by
  unfold countFreq
  rw [countFreq_foldl]
  simp

theorem countFreq_pos_iff (l : List Nat) (s : Nat) : 0 < countFreq l s ↔ s ∈ l := by
  rw [countFreq_eq]
  rw [← List.count_pos_iff]
  omega

theorem countFreq_nonneg (l : List Nat) (s : Nat) : 0 ≤ countFreq l s := by
  rw [countFreq_eq]; omega

theorem foldl_ite_eq_foldl_filter {α β : Type} (p : α → Prop) [DecidablePred p]
    (g : β → α → β) (l : List α) :
    ∀ init : β, l.foldl (fun acc i => if p i then g acc i else acc) init
      = (l.filter (fun i => decide (p i))).foldl g init := by
  induction l with
  | nil => intro _; rfl
  | cons a l ih =>
    intro init
    by_cases h : p a
    · simp [List.filter_cons, h, ih]
    · simp [List.filter_cons, h, ih]

theorem symbols_lt (fm : Nat → Int) : ∀ s ∈ symbols fm, s < 256 := by
  intro s hs
  have := (List.mem_filter.1 hs).1
  exact List.mem_range.1 this

theorem mem_symbols (fm : Nat → Int) (s : Nat) : s ∈ symbols fm ↔ s < 256 ∧ 0 < fm s := by
  simp [symbols, List.mem_filter]

theorem symbols_nodup (fm : Nat → Int) : (symbols fm).Nodup :=
  (List.nodup_range 256).filter _

theorem symbols_sorted (fm : Nat → Int) : (symbols fm).Pairwise (· < ·) :=
  (List.pairwise_lt_range 256).filter _

theorem symbols_length_le (fm : Nat → Int) : (symbols fm).length ≤ 256 := by
  have := List.length_filter_le (fun i => decide (0 < fm i)) (List.range 256)
  simpa [symbols] using this

theorem pushLeaves_eq (fm : Nat → Int) (pq : MinHeap) :
    pushLeaves fm pq
      = (symbols fm).foldl (fun pq i => pq.push (Node.mk i (fm i) Node.null Node.null)) pq := by
  unfold pushLeaves symbols
  exact foldl_ite_eq_foldl_filter (fun i => 0 < fm i) _ _ pq

theorem countMapSize_eq (fm : Nat → Int) : countMapSize fm = ((symbols fm).length : Int) := by
  unfold countMapSize symbols
  rw [foldl_ite_eq_foldl_filter (fun i => 0 < fm i) (fun (m : Int) _ => m + 1)]
  generalize (List.range 256).filter (fun i => decide (0 < fm i)) = l
  have : ∀ (l : List Nat) (m : Int), l.foldl (fun (m : Int) _ => m + 1) m = m + (l.length : Int) := by
    intro l
    induction l with
    | nil => intro m; simp
    | cons a l ih => intro m; rw [List.foldl_cons, ih]; simp; ring
  rw [this]; simp

/-! ## 6. Properties: the priority queue keeps its nodes -/

theorem count_set_add (l : List Node) (k : Nat) (x b : Node) (hk : k < l.length) :
    (l.set k x).count b + (if l[k] = b then 1 else 0)
      = l.count b + (if x = b then 1 else 0) := by
  rw [List.count_set x b l k hk]
  have hmem : l[k] ∈ l := List.getElem_mem hk
  by_cases h1 : l[k] = b
  · have hpos : 0 < l.count b := by
      rw [List.count_pos_iff]; exact h1 ▸ hmem
    by_cases h2 : x = b <;> simp [h1, h2] <;> omega
  · by_cases h2 : x = b <;> simp [h1, h2]

theorem swap_length (a : List Node) (i j : Nat) : (swap a i j).length = a.length := by
  simp [swap]

theorem swap_perm (a : List Node) (i j : Nat) (hi : i < a.length) (hj : j < a.length) :
    (swap a i j).Perm a := by
  rw [List.perm_iff_count]
  intro b
  unfold swap
  simp only [List.getD_eq_getElem a Node.null hi, List.getD_eq_getElem a Node.null hj]
  have hj2 : j < (a.set i a[j]).length := by simpa using hj
  have e1 := count_set_add (a.set i a[j]) j a[i] b hj2
  have e2 := count_set_add a i a[j] b hi
  have e3 : (a.set i a[j])[j] = a[j] := by
    by_cases hij : i = j
    · subst hij; simp
    · simp [List.getElem_set_ne hij]
  rw [e3] at e1
  omega

theorem siftUp_perm (fuel : Nat) :
    ∀ (a : List Node) (i : Nat), i < a.length → (siftUp fuel a i).Perm a := by
  induction fuel with
  | zero => intro a i _; exact List.Perm.refl _
  | succ fuel ih =>
    intro a i hi
    unfold siftUp
    by_cases h0 : 0 < i
    · simp only [h0, if_true]
      split
      · have hp : (i - 1) / 2 < a.length := by omega
        have hs := swap_perm a i ((i - 1) / 2) hi hp
        exact (ih (swap a i ((i - 1) / 2)) ((i - 1) / 2) (by rw [swap_length]; exact hp)).trans hs
      · exact List.Perm.refl _
    · simp [h0]

theorem siftDown_succ (fuel : Nat) (a : List Node) (i : Nat) :
    siftDown (fuel + 1) a i
      = if smallestOf a i ≠ i then siftDown fuel (swap a i (smallestOf a i)) (smallestOf a i)
        else a := rfl

theorem smallestOf_lt (a : List Node) (i : Nat) (hi : i < a.length) :
    smallestOf a i < a.length := by
  unfold smallestOf
  simp only
  split_ifs <;> omega

theorem smallestOf_ge (a : List Node) (i : Nat) : i ≤ smallestOf a i := by
  unfold smallestOf
  simp only
  split_ifs <;> omega

theorem siftDown_perm (fuel : Nat) :
    ∀ (a : List Node) (i : Nat), i < a.length → (siftDown fuel a i).Perm a := by
  induction fuel with
  | zero => intro a i _; exact List.Perm.refl _
  | succ fuel ih =>
    intro a i hi
    rw [siftDown_succ]
    have hs := smallestOf_lt a i hi
    split
    · exact (ih (swap a i (smallestOf a i)) (smallestOf a i)
        (by rw [swap_length]; exact hs)).trans (swap_perm a i (smallestOf a i) hi hs)
    · exact List.Perm.refl _

theorem siftDown_nil (fuel i : Nat) : siftDown fuel [] i = [] := by
  cases fuel with
  | zero => rfl
  | succ fuel => simp [siftDown]

theorem push_perm (h : MinHeap) (x : Node) : (h.push x).array.Perm (x :: h.array) := by
  unfold MinHeap.push
  simp only
  exact (siftUp_perm _ _ _ (by simp)).trans (List.perm_append_singleton x h.array)

theorem push_getSize (h : MinHeap) (x : Node) : (h.push x).getSize = h.getSize + 1 := by
  have := (push_perm h x).length_eq
  simpa [MinHeap.getSize] using this

theorem pop_nil (h : MinHeap) (hh : h.array = []) : h.pop = (Node.null, h) := by
  unfold MinHeap.pop
  rw [hh]

theorem pop_perm (h : MinHeap) (hne : h.array ≠ []) :
    h.array.Perm (h.pop.1 :: h.pop.2.array) := by
  unfold MinHeap.pop
  cases hh : h.array with
  | nil => exact absurd hh hne
  | cons m rest =>
    simp only
    refine List.Perm.cons m ?_
    cases rest with
    | nil => simp [siftDown_nil]
    | cons r rs =>
      have hlast : (m :: r :: rs).getD (r :: rs).length Node.null
          = (r :: rs).getLast (by simp) := by
        rw [List.getD_eq_getElem _ _ (by simp)]
        simp [List.getLast_eq_getElem]
      rw [hlast]
      simp only [List.set_cons_zero]
      have hd : ((r :: rs).getLast (by simp) :: r :: rs).dropLast
          = (r :: rs).getLast (by simp) :: (r :: rs).dropLast := by
        simp [List.dropLast]
      rw [hd]
      have hp := siftDown_perm
        ((r :: rs).getLast (by simp) :: (r :: rs).dropLast).length
        ((r :: rs).getLast (by simp) :: (r :: rs).dropLast) 0 (by simp)
      refine List.Perm.trans ?_ hp.symm
      have := List.dropLast_append_getLast (l := r :: rs) (by simp)
      conv_lhs => rw [← this]
      exact List.perm_append_singleton _ _

theorem pop_getSize (h : MinHeap) (hne : h.array ≠ []) :
    h.pop.2.getSize + 1 = h.getSize := by
  have := (pop_perm h hne).length_eq
  simp [MinHeap.getSize] at this ⊢
  omega

/-- Fuel beyond `i` does not change the result of the sift-up loop started at
slot `i`: the loop has ended by then, because `i` falls in every iteration. -/
theorem siftUp_fuel (fuel : Nat) :
    ∀ (a : List Node) (i k : Nat), i ≤ fuel → siftUp (fuel + k) a i = siftUp fuel a i := by
  induction fuel with
  | zero =>
    intro a i k hi
    have hi0 : i = 0 := by omega
    subst hi0
    cases k with
    | zero => rfl
    | succ k => simp [siftUp]
  | succ fuel ih =>
    intro a i k hi
    have e : fuel + 1 + k = (fuel + k) + 1 := by omega
    rw [e]
    simp only [siftUp]
    split
    · split
      · exact ih _ _ k (by omega)
      · rfl
    · rfl

theorem smallestOf_eq_of_le (a : List Node) (i : Nat) (h : a.length ≤ i) :
    smallestOf a i = i := by
  unfold smallestOf
  simp only
  split_ifs <;> omega

/-- Fuel beyond `size - i` does not change the result of the sift-down loop
started at slot `i`: the loop has ended by then, because `i` grows in every
iteration and stays below `size`. -/
theorem siftDown_fuel (fuel : Nat) :
    ∀ (a : List Node) (i k : Nat), a.length ≤ i + fuel →
      siftDown (fuel + k) a i = siftDown fuel a i := by
  induction fuel with
  | zero =>
    intro a i k h
    cases k with
    | zero => rfl
    | succ k =>
      rw [Nat.zero_add, siftDown_succ, smallestOf_eq_of_le a i (by omega)]
      simp [siftDown]
  | succ fuel ih =>
    intro a i k h
    have e : fuel + 1 + k = (fuel + k) + 1 := by omega
    rw [e, siftDown_succ, siftDown_succ]
    split
    · rename_i hne
      have hge := smallestOf_ge a i
      exact ih _ _ k (by rw [swap_length]; omega)
    · rfl

/-! ## 7. Properties: the tree build -/

theorem isLeaf_mk (c : Nat) (f : Int) (l r : Node) :
    (Node.mk c f l r).isLeaf = true ↔ l = Node.null ∧ r = Node.null := by
  cases l <;> cases r <;> simp [Node.isLeaf, Node.isNull]

theorem full_ne_null (t : Node) (h : t.full) : t ≠ Node.null := by
  intro e; subst e; exact h

theorem leaves_node (c : Nat) (f : Int) (l r : Node) (hl : l ≠ Node.null) :
    leaves (Node.mk c f l r) = leaves l ++ leaves r := by
  have : (Node.mk c f l r).isLeaf = false := by
    cases l with
    | null => exact absurd rfl hl
    | mk _ _ _ _ => simp [Node.isLeaf, Node.isNull]
  simp [leaves, this]

theorem height_node (c : Nat) (f : Int) (l r : Node) (hl : l ≠ Node.null) :
    height (Node.mk c f l r) = 1 + max (height l) (height r) := by
  have : (Node.mk c f l r).isLeaf = false := by
    cases l with
    | null => exact absurd rfl hl
    | mk _ _ _ _ => simp [Node.isLeaf, Node.isNull]
  simp [height, this]

theorem leaves_leafOf (fm : Nat → Int) (i : Nat) : leaves (leafOf fm i) = [i] := by
  simp [leafOf, leaves, Node.isLeaf, Node.isNull]

theorem full_leafOf (fm : Nat → Int) (i : Nat) : (leafOf fm i).full := by
  simp [leafOf, Node.full]

theorem full_height_lt (t : Node) : t.full → height t + 1 ≤ (leaves t).length := by
  induction t with
  | null => intro h; exact absurd h (by simp [Node.full])
  | mk c f l r ihl ihr =>
    intro h
    rcases h with ⟨hl, hr⟩ | ⟨hl, hr⟩
    · subst hl; subst hr
      simp [height, leaves, Node.isLeaf, Node.isNull]
    · have h1 := ihl hl
      have h2 := ihr hr
      rw [height_node c f l r (full_ne_null l hl), leaves_node c f l r (full_ne_null l hl)]
      simp only [List.length_append]
      omega

theorem codesOf_fst (t : Node) : (codesOf t).map Prod.fst = leaves t := by
  induction t with
  | null => rfl
  | mk c f l r ihl ihr =>
    unfold codesOf leaves
    split
    · rfl
    · simp [List.map_append, List.map_map, Function.comp_def, ← ihl, ← ihr]

theorem foldl_push_perm (fm : Nat → Int) (l : List Nat) :
    ∀ pq : MinHeap,
      (l.foldl (fun pq i => pq.push (leafOf fm i)) pq).array.Perm
        (pq.array ++ l.map (leafOf fm)) := by
  induction l with
  | nil => intro pq; simp
  | cons a l ih =>
    intro pq
    rw [List.foldl_cons]
    refine (ih _).trans ?_
    have h1 := push_perm pq (leafOf fm a)
    have h2 : (leafOf fm a :: pq.array).Perm (pq.array ++ [leafOf fm a]) :=
      (List.perm_append_singleton _ _).symm
    have h3 := (h1.trans h2).append_right (l.map (leafOf fm))
    simpa using h3

theorem pushLeaves_perm (fm : Nat → Int) :
    (pushLeaves fm MinHeap.empty).array.Perm ((symbols fm).map (leafOf fm)) := by
  rw [pushLeaves_eq]
  have := foldl_push_perm fm (symbols fm) MinHeap.empty
  simpa [MinHeap.empty, leafOf] using this

theorem pushLeaves_getSize (fm : Nat → Int) :
    (pushLeaves fm MinHeap.empty).getSize = (symbols fm).length := by
  have := (pushLeaves_perm fm).length_eq
  simpa [MinHeap.getSize] using this

theorem flatMap_leaves_leafOf (fm : Nat → Int) (l : List Nat) :
    (l.map (leafOf fm)).flatMap leaves = l := by
  induction l with
  | nil => rfl
  | cons a l ih => simp [List.flatMap_cons, leaves_leafOf, ih]

theorem pushLeaves_forest (fm : Nat → Int) :
    Forest (symbols fm) (pushLeaves fm MinHeap.empty) := by
  have hp := pushLeaves_perm fm
  constructor
  · intro t ht
    have := hp.subset ht
    rcases List.mem_map.1 this with ⟨i, _, rfl⟩
    exact full_leafOf fm i
  · have := hp.flatMap_right leaves
    rw [flatMap_leaves_leafOf] at this
    exact this

theorem mergeLoop_succ (fuel : Nat) (pq : MinHeap) :
    mergeLoop (fuel + 1) pq = if 1 < pq.getSize then mergeLoop fuel (mergeStep pq) else pq := rfl

theorem getSize_ne_nil (pq : MinHeap) (h : 0 < pq.getSize) : pq.array ≠ [] := by
  intro e; simp [MinHeap.getSize, e] at h

theorem mergeStep_getSize (pq : MinHeap) (h : 1 < pq.getSize) :
    (mergeStep pq).getSize + 1 = pq.getSize := by
  have h1 := pop_getSize pq (getSize_ne_nil pq (by omega))
  have h2 := pop_getSize pq.pop.2 (getSize_ne_nil _ (by omega))
  unfold mergeStep
  rw [push_getSize]
  omega

theorem mergeStep_forest (syms : List Nat) (pq : MinHeap) (h : 1 < pq.getSize)
    (hf : Forest syms pq) : Forest syms (mergeStep pq) := by
  have hs1 := pop_getSize pq (getSize_ne_nil pq (by omega))
  have p1 := pop_perm pq (getSize_ne_nil pq (by omega))
  have p2 := pop_perm pq.pop.2 (getSize_ne_nil _ (by omega))
  have p3 := push_perm pq.pop.2.pop.2
    (Node.mk 0 (pq.pop.1.freq + pq.pop.2.pop.1.freq) pq.pop.1 pq.pop.2.pop.1)
  have hall : pq.array.Perm (pq.pop.1 :: pq.pop.2.pop.1 :: pq.pop.2.pop.2.array) :=
    p1.trans (p2.cons _)
  have fl : pq.pop.1.full := hf.1 _ (hall.symm.subset (by simp))
  have fr : pq.pop.2.pop.1.full := hf.1 _ (hall.symm.subset (by simp))
  constructor
  · intro t ht
    have := p3.subset ht
    rcases List.mem_cons.1 this with e | e
    · subst e
      exact Or.inr ⟨fl, fr⟩
    · exact hf.1 _ (hall.symm.subset (by simp [e]))
  · have q1 := p3.flatMap_right leaves
    have q2 := hall.flatMap_right leaves
    refine q1.trans ?_
    refine List.Perm.trans ?_ (q2.symm.trans hf.2)
    simp only [List.flatMap_cons]
    rw [leaves_node _ _ _ _ (full_ne_null _ fl)]
    simp [List.append_assoc]

theorem mergeLoop_spec (syms : List Nat) (fuel : Nat) :
    ∀ pq : MinHeap, pq.getSize ≤ fuel + 1 → 1 ≤ pq.getSize → Forest syms pq →
      Forest syms (mergeLoop fuel pq) ∧ (mergeLoop fuel pq).getSize = 1 := by
  induction fuel with
  | zero =>
    intro pq h1 h2 hf
    exact ⟨hf, by simp only [mergeLoop]; omega⟩
  | succ fuel ih =>
    intro pq h1 h2 hf
    rw [mergeLoop_succ]
    by_cases h : 1 < pq.getSize
    · simp only [h, if_true]
      have hs := mergeStep_getSize pq h
      exact ih (mergeStep pq) (by omega) (by omega) (mergeStep_forest syms pq h hf)
    · simp only [h, if_false]
      exact ⟨hf, by omega⟩

/-- More fuel than the queue size does not change the result of the merge
loop: the loop has ended by then. -/
theorem mergeLoop_fuel (fuel : Nat) :
    ∀ (pq : MinHeap) (k : Nat), pq.getSize ≤ fuel + 1 →
      mergeLoop (fuel + k) pq = mergeLoop fuel pq := by
  induction fuel with
  | zero =>
    intro pq k h
    cases k with
    | zero => rfl
    | succ k =>
      have : ¬ 1 < pq.getSize := by omega
      simp [mergeLoop, this]
  | succ fuel ih =>
    intro pq k h
    have e : fuel + 1 + k = (fuel + k) + 1 := by omega
    rw [e, mergeLoop_succ, mergeLoop_succ]
    by_cases h1 : 1 < pq.getSize
    · simp only [h1, if_true]
      have hs := mergeStep_getSize pq h1
      exact ih (mergeStep pq) k (by omega)
    · simp [h1]

theorem pop_fst (pq : MinHeap) (m : Node) (rest : List Node) (h : pq.array = m :: rest) :
    pq.pop.1 = m := by
  unfold MinHeap.pop
  rw [h]

theorem array_of_getSize_one (pq : MinHeap) (h : pq.getSize = 1) :
    ∃ t, pq.array = [t] := by
  unfold MinHeap.getSize at h
  match hh : pq.array, h with
  | [t], _ => exact ⟨t, rfl⟩

theorem leaves_of_isLeaf (t : Node) (h : t.isLeaf = true) : (leaves t).length = 1 := by
  cases t with
  | null => simp [Node.isLeaf] at h
  | mk c f l r => simp [leaves, h]

/-- What the tree build guarantees about `root` when the table has at least
one positive entry: it is an internal node, its leaves are the symbols of
positive frequency, each once, and no leaf lies deeper than 255 edges. -/
theorem buildTree_spec (fm : Nat → Int) (hne : symbols fm ≠ []) :
    (buildTree fm).isNull = false ∧ (buildTree fm).isLeaf = false
      ∧ (leaves (buildTree fm)).Perm (symbols fm) ∧ height (buildTree fm) ≤ 255 := by
  have hf := pushLeaves_forest fm
  have hsz := pushLeaves_getSize fm
  have hlen := symbols_length_le fm
  have hpos : 0 < (symbols fm).length := List.length_pos.2 hne
  unfold buildTree buildFromHeap
  by_cases h1 : (pushLeaves fm MinHeap.empty).getSize = 1
  · simp only [h1, if_true]
    obtain ⟨t, ht⟩ := array_of_getSize_one _ h1
    rw [pop_fst _ t [] ht]
    have tfull : t.full := hf.1 t (by rw [ht]; simp)
    have tl : (leaves t).Perm (symbols fm) := by
      have := hf.2
      rw [ht] at this
      simpa using this
    have tne := full_ne_null t tfull
    have hh := full_height_lt t tfull
    have hl := tl.length_eq
    refine ⟨rfl, ?_, ?_, ?_⟩
    · cases t with
      | null => exact absurd rfl tne
      | mk _ _ _ _ => simp [Node.isLeaf, Node.isNull]
    · rw [leaves_node _ _ _ _ tne]
      simpa [leaves] using tl
    · rw [height_node _ _ _ _ tne]
      simp only [height]
      omega
  · simp only [h1, if_false]
    have hm := mergeLoop_spec (symbols fm) (pushLeaves fm MinHeap.empty).getSize
      (pushLeaves fm MinHeap.empty) (by omega) (by omega) hf
    obtain ⟨t, ht⟩ := array_of_getSize_one _ hm.2
    rw [pop_fst _ t [] ht]
    have tfull : t.full := hm.1.1 t (by rw [ht]; simp)
    have tl : (leaves t).Perm (symbols fm) := by
      have := hm.1.2
      rw [ht] at this
      simpa using this
    have tne := full_ne_null t tfull
    have hh := full_height_lt t tfull
    have hl := tl.length_eq
    refine ⟨?_, ?_, tl, by omega⟩
    · cases t with
      | null => exact absurd rfl tne
      | mk _ _ _ _ => rfl
    · cases hleaf : t.isLeaf with
      | false => rfl
      | true =>
        have := leaves_of_isLeaf t hleaf
        omega

/-! ## 8. Properties: code generation -/

theorem cstr_all_ne (s : List Nat) : ∀ c ∈ cstr s, c ≠ 0 := by
  intro c hc
  have := List.mem_takeWhile_imp hc
  simpa using this

theorem cstr_append_zero (p rest : List Nat) (hp : ∀ c ∈ p, c ≠ 0) :
    cstr (p ++ 0 :: rest) = p := by
  unfold cstr
  rw [List.takeWhile_append_of_pos (by intro a ha; simpa using hp a ha)]
  simp

theorem cstr_strCopy (dest src : List Nat) : cstr (strCopy dest src) = cstr src := by
  unfold strCopy
  exact cstr_append_zero _ _ (cstr_all_ne src)

theorem cstr_set_zero (cur : List Nat) (d : Nat) (hd : d < cur.length)
    (hp : ∀ c ∈ cur.take d, c ≠ 0) : cstr (cur.set d 0) = cur.take d := by
  rw [List.set_eq_take_append_cons_drop, if_pos hd]
  exact cstr_append_zero _ _ hp

theorem take_succ_set (cur : List Nat) (d x : Nat) (hd : d < cur.length) :
    (cur.set d x).take (d + 1) = cur.take d ++ [x] := by
  rw [List.set_eq_take_append_cons_drop, if_pos hd]
  have hl : (cur.take d).length = d := by simp; omega
  rw [List.take_append_eq_append_take, hl]
  simp

theorem take_set_self (cur : List Nat) (d x : Nat) : (cur.set d x).take d = cur.take d := by
  by_cases hd : d < cur.length
  · rw [List.set_eq_take_append_cons_drop, if_pos hd]
    have hl : (cur.take d).length = d := by simp; omega
    rw [List.take_append_eq_append_take, hl]
    simp
  · rw [List.set_eq_take_append_cons_drop, if_neg hd]

theorem take_of_take_succ (a b : List Nat) (d : Nat)
    (h : a.take (d + 1) = b.take (d + 1)) : a.take d = b.take d := by
  have := congrArg (List.take d) h
  rw [List.take_take, List.take_take] at this
  simpa [Nat.min_eq_left (Nat.le_succ d)] using this

theorem bitChar_ne_zero (b : Bool) : bitChar b ≠ 0 := by
  cases b <;> simp [bitChar]

theorem generateCodes_leaf (c : Nat) (f : Int) (cm : Nat → List Nat) (cur : List Nat) (d : Nat) :
    generateCodes (Node.mk c f Node.null Node.null) cm cur d
      = (Function.update cm c (strCopy (cm c) (cur.set d 0)),
          ((cur.set d 0).set d 48).set d 49) := by
  simp [generateCodes, Node.isLeaf, Node.isNull]

theorem generateCodes_node (c : Nat) (f : Int) (l r : Node) (cm : Nat → List Nat)
    (cur : List Nat) (d : Nat) (h : (Node.mk c f l r).isLeaf = false) :
    generateCodes (Node.mk c f l r) cm cur d
      = generateCodes r (generateCodes l cm (cur.set d 48) (d + 1)).1
          ((generateCodes l cm (cur.set d 48) (d + 1)).2.set d 49) (d + 1) := by
  rw [generateCodes]
  simp [h]

theorem height_node_le (c : Nat) (f : Int) (l r : Node)
    (h : (Node.mk c f l r).isLeaf = false) :
    height l + 1 ≤ height (Node.mk c f l r) ∧ height r + 1 ≤ height (Node.mk c f l r) := by
  simp only [height, h]
  constructor <;> simp <;> omega

/-- What `generateCodes` does to `codeMap` and to the traversal buffer. The
buffer keeps its length and its first `depth` characters; rows of symbols that
are not at a leaf are untouched; and when the leaves carry distinct symbols,
the row of each leaf symbol holds the characters above `depth` followed by the
path to that leaf. -/
theorem generateCodes_spec (t : Node) :
    ∀ (cm : Nat → List Nat) (cur : List Nat) (d : Nat),
      cur.length = 256 → d + height t < 256 →
      (generateCodes t cm cur d).2.length = 256
      ∧ (generateCodes t cm cur d).2.take d = cur.take d
      ∧ (∀ s, s ∉ leaves t → (generateCodes t cm cur d).1 s = cm s)
      ∧ ((leaves t).Nodup → (∀ c ∈ cur.take d, c ≠ 0) →
          ∀ e ∈ codesOf t,
            cstr ((generateCodes t cm cur d).1 e.1) = cur.take d ++ e.2.map bitChar) := by
  induction t with
  | null =>
    intro cm cur d hlen _
    refine ⟨hlen, rfl, fun _ _ => rfl, ?_⟩
    intro _ _ e he
    simp [codesOf] at he
  | mk c f l r ihl ihr =>
    intro cm cur d hlen hd
    by_cases hleaf : (Node.mk c f l r).isLeaf = true
    · obtain ⟨hl, hr⟩ := (isLeaf_mk c f l r).1 hleaf
      subst hl; subst hr
      rw [generateCodes_leaf]
      refine ⟨by simp [hlen], ?_, ?_, ?_⟩
      · simp only [take_set_self]
      · intro s hs
        have : s ≠ c := by
          intro e; apply hs; simp [leaves, Node.isLeaf, Node.isNull, e]
        simp [Function.update_noteq this]
      · intro _ hp e he
        have he2 : e = (c, []) := by
          simpa [codesOf, Node.isLeaf, Node.isNull] using he
        subst he2
        simp only [Function.update_same, cstr_strCopy, List.map_nil, List.append_nil]
        exact cstr_set_zero cur d (by omega) hp
    · have hleaf2 : (Node.mk c f l r).isLeaf = false := by
        cases h : (Node.mk c f l r).isLeaf with
        | false => rfl
        | true => exact absurd h hleaf
      obtain ⟨hhl, hhr⟩ := height_node_le c f l r hleaf2
      rw [generateCodes_node c f l r cm cur d hleaf2]
      have hlv : leaves (Node.mk c f l r) = leaves l ++ leaves r := by
        simp [leaves, hleaf2]
      have hcd : codesOf (Node.mk c f l r)
          = (codesOf l).map (fun e => (e.1, false :: e.2))
            ++ (codesOf r).map (fun e => (e.1, true :: e.2)) := by
        simp [codesOf, hleaf2]
      have hdl : d < cur.length := by omega
      obtain ⟨l1, l2, l3, l4⟩ := ihl cm (cur.set d 48) (d + 1) (by simp [hlen]) (by omega)
      have hdl2 : d < (generateCodes l cm (cur.set d 48) (d + 1)).2.length := by omega
      obtain ⟨r1, r2, r3, r4⟩ := ihr (generateCodes l cm (cur.set d 48) (d + 1)).1
        ((generateCodes l cm (cur.set d 48) (d + 1)).2.set d 49) (d + 1)
        (by simp [l1]) (by omega)
      have tk1 : (List.set cur d 48).take (d + 1) = cur.take d ++ [48] :=
        take_succ_set cur d 48 hdl
      have tk2 : ((generateCodes l cm (cur.set d 48) (d + 1)).2.set d 49).take (d + 1)
          = cur.take d ++ [49] := by
        rw [take_succ_set _ d 49 hdl2, take_of_take_succ _ _ d l2, take_set_self]
      refine ⟨r1, ?_, ?_, ?_⟩
      · rw [take_of_take_succ _ _ d r2, take_set_self, take_of_take_succ _ _ d l2,
          take_set_self]
      · intro s hs
        rw [hlv, List.mem_append, not_or] at hs
        rw [r3 s hs.2, l3 s hs.1]
      · intro hnd hp e he
        rw [hlv, List.nodup_append] at hnd
        obtain ⟨ndl, ndr, hdis⟩ := hnd
        rw [hcd, List.mem_append] at he
        rcases he with he | he
        · obtain ⟨e0, he0, rfl⟩ := List.mem_map.1 he
          have hmem : e0.1 ∈ leaves l := by
            rw [← codesOf_fst]; exact List.mem_map_of_mem _ he0
          have hnr : e0.1 ∉ leaves r := List.disjoint_left.1 hdis hmem
          simp only
          rw [r3 _ hnr]
          rw [l4 ndl (by
            rw [tk1]; intro c hc
            rcases List.mem_append.1 hc with h | h
            · exact hp c h
            · simp at h; omega) e0 he0]
          rw [tk1]
          simp [bitChar]
        · obtain ⟨e0, he0, rfl⟩ := List.mem_map.1 he
          simp only
          rw [r4 ndr (by
            rw [tk2]; intro c hc
            rcases List.mem_append.1 hc with h | h
            · exact hp c h
            · simp at h; omega) e0 he0]
          rw [tk2]
          simp [bitChar]

/-! ## 9. Properties: the bit writer -/

set_option maxRecDepth 100000 in
theorem setBit_byteBits :
    ∀ buf < 256, ∀ cnt < 8,
      (byteBits buf).drop cnt = List.replicate (8 - cnt) false →
      byteBits ((buf ||| (1 <<< (7 - cnt))) % 256)
        = (byteBits buf).take cnt ++ true :: List.replicate (7 - cnt) false := by
  decide!

theorem writerInv_init : WriterInv ⟨[], 0, 0⟩ [] := by
  refine ⟨by decide, by decide, [], rfl, ?_, rfl⟩
  decide

theorem writerInv_putBit (st : BitWriter) (bits : List Bool) (c : Nat)
    (h : WriterInv st bits) : WriterInv (putBit st c) (bits ++ [decide (c = 49)]) := by
  obtain ⟨hc, hb, pending, hpl, hbits, hout⟩ := h
  have htake : (byteBits st.byteBuffer).take st.bitCount = pending := by
    rw [hbits]; exact List.take_left' hpl
  have hdrop : (byteBits st.byteBuffer).drop st.bitCount
      = List.replicate (8 - st.bitCount) false := by
    rw [hbits]; exact List.drop_left' hpl
  have hrep : List.replicate (8 - st.bitCount) false
      = false :: List.replicate (7 - st.bitCount) false := by
    have : 8 - st.bitCount = (7 - st.bitCount) + 1 := by omega
    rw [this, List.replicate_succ]
  -- the new buffer and its bits
  have key : ∃ nb, nb < 256
      ∧ nb = (if c = 49 then (st.byteBuffer ||| (1 <<< (7 - st.bitCount))) % 256
              else st.byteBuffer)
      ∧ byteBits nb = (pending ++ [decide (c = 49)])
          ++ List.replicate (7 - st.bitCount) false := by
    by_cases h49 : c = 49
    · refine ⟨(st.byteBuffer ||| (1 <<< (7 - st.bitCount))) % 256,
        Nat.mod_lt _ (by decide), by simp [h49], ?_⟩
      rw [setBit_byteBits st.byteBuffer hb st.bitCount hc hdrop, htake]
      simp [h49]
    · refine ⟨st.byteBuffer, hb, by simp [h49], ?_⟩
      rw [hbits, hrep]
      simp [h49]
  obtain ⟨nb, hnb, hnbeq, hnbits⟩ := key
  unfold putBit
  simp only [← hnbeq]
  by_cases h8 : st.bitCount + 1 = 8
  · simp only [h8, if_true]
    refine ⟨by show 0 < 8; decide, by show 0 < 256; decide, [], rfl,
      by show byteBits 0 = [] ++ List.replicate (8 - 0) false; decide, ?_⟩
    show (st.out ++ [nb]).flatMap byteBits ++ [] = bits ++ [decide (c = 49)]
    have h7 : 7 - st.bitCount = 0 := by omega
    rw [h7] at hnbits
    simp only [List.replicate_zero, List.append_nil] at hnbits
    rw [List.flatMap_append]
    simp only [List.flatMap_cons, List.flatMap_nil, List.append_nil, hnbits]
    rw [← hout, List.append_assoc]
  · simp only [h8, if_false]
    refine ⟨by show st.bitCount + 1 < 8; omega, hnb, pending ++ [decide (c = 49)],
      by simp [hpl], ?_, ?_⟩
    · show byteBits nb = (pending ++ [decide (c = 49)])
        ++ List.replicate (8 - (st.bitCount + 1)) false
      rw [hnbits]
      have : 8 - (st.bitCount + 1) = 7 - st.bitCount := by omega
      rw [this]
    · show st.out.flatMap byteBits ++ (pending ++ [decide (c = 49)])
        = bits ++ [decide (c = 49)]
      rw [← hout, List.append_assoc]

theorem writerInv_foldl (cs : List Nat) :
    ∀ (st : BitWriter) (bits : List Bool), WriterInv st bits →
      WriterInv (cs.foldl putBit st) (bits ++ cs.map (fun c => decide (c = 49))) := by
  induction cs with
  | nil => intro st bits h; simpa using h
  | cons c cs ih =>
    intro st bits h
    rw [List.foldl_cons]
    have := ih _ _ (writerInv_putBit st bits c h)
    simpa [List.append_assoc] using this

theorem writeBits_eq_foldl (cm : Nat → List Nat) (ds : List Nat) :
    ∀ st : BitWriter,
      writeBits cm ds st = (ds.flatMap (fun ch => cstr (cm ch))).foldl putBit st := by
  induction ds with
  | nil => intro st; rfl
  | cons d ds ih =>
    intro st
    unfold writeBits at ih ⊢
    rw [List.foldl_cons, ih, List.flatMap_cons, List.foldl_append]
    rfl

/-- The bytes that leave the writer, read back bit by bit, are the bits
written followed by fewer than eight zero bits. -/
theorem flushBits_bits (st : BitWriter) (bits : List Bool) (h : WriterInv st bits) :
    ∃ k, k < 8 ∧ (flushBits st).flatMap byteBits = bits ++ List.replicate k false := by
  obtain ⟨hc, _, pending, hpl, hbits, hout⟩ := h
  unfold flushBits
  by_cases h0 : 0 < st.bitCount
  · simp only [h0, if_true]
    refine ⟨8 - st.bitCount, by omega, ?_⟩
    rw [List.flatMap_append]
    simp only [List.flatMap_cons, List.flatMap_nil, List.append_nil, hbits]
    rw [← hout, List.append_assoc]
  · simp only [h0, if_false]
    refine ⟨0, by decide, ?_⟩
    have : pending = [] := by
      apply List.eq_nil_of_length_eq_zero; omega
    rw [← hout, this]
    simp

theorem putBit_out_pre (pre : List Nat) (st : BitWriter) (c : Nat) :
    putBit ⟨pre ++ st.out, st.byteBuffer, st.bitCount⟩ c
      = ⟨pre ++ (putBit st c).out, (putBit st c).byteBuffer, (putBit st c).bitCount⟩ := by
  unfold putBit
  simp only
  split <;> simp

theorem foldl_putBit_out_pre (pre : List Nat) (cs : List Nat) :
    ∀ st : BitWriter,
      cs.foldl putBit ⟨pre ++ st.out, st.byteBuffer, st.bitCount⟩
        = ⟨pre ++ (cs.foldl putBit st).out, (cs.foldl putBit st).byteBuffer,
            (cs.foldl putBit st).bitCount⟩ := by
  induction cs with
  | nil => intro st; rfl
  | cons c cs ih =>
    intro st
    rw [List.foldl_cons, List.foldl_cons, putBit_out_pre, ih]

theorem flushBits_out_pre (pre : List Nat) (st : BitWriter) :
    flushBits ⟨pre ++ st.out, st.byteBuffer, st.bitCount⟩ = pre ++ flushBits st := by
  unfold flushBits
  simp only
  split <;> simp

/-! ## 10. Properties: the decode loop -/

theorem decodeBit_eq (root : Node) (byte i : Nat) (st : DecodeState) :
    decodeBit root byte i st = stepBit root ((byte >>> i) &&& 1 != 0) st := by
  unfold decodeBit stepBit
  by_cases h : (byte >>> i) &&& 1 = 0
  · simp only [h, if_true]
    rfl
  · have hb : ((byte >>> i) &&& 1 != 0) = true := by simpa using h
    simp only [h, if_false, hb, if_true]

theorem decodeByte_eq (root : Node) (n byte : Nat) (is : List Nat) :
    ∀ st : DecodeState,
      decodeByte root n byte is st
        = decodeStream root n (is.map (fun i => (byte >>> i) &&& 1 != 0)) st := by
  induction is with
  | nil => intro st; rfl
  | cons i is ih =>
    intro st
    simp only [decodeByte, List.map_cons, decodeStream, decodeBit_eq]
    split
    · rfl
    · cases stepBit root ((byte >>> i) &&& 1 != 0) st with
      | none => rfl
      | some st1 => exact ih st1

theorem decodeStream_done (root : Node) (n : Nat) (bs : List Bool) (st : DecodeState)
    (h : n ≤ st.charsDecoded) : decodeStream root n bs st = some st := by
  cases bs with
  | nil => rfl
  | cons b bs => simp [decodeStream, h]

theorem decodeStream_append (root : Node) (n : Nat) (xs ys : List Bool) :
    ∀ st : DecodeState,
      decodeStream root n (xs ++ ys) st
        = (decodeStream root n xs st).bind (decodeStream root n ys) := by
  induction xs with
  | nil => intro st; rfl
  | cons b xs ih =>
    intro st
    simp only [List.cons_append, decodeStream]
    by_cases h : n ≤ st.charsDecoded
    · simp [h, decodeStream_done root n ys st h]
    · simp only [h, if_false]
      cases stepBit root b st with
      | none => rfl
      | some st1 => exact ih st1

theorem decodeLoop_eq (root : Node) (n : Nat) (bytes : List Nat) :
    ∀ st : DecodeState,
      decodeLoop root n bytes st = decodeStream root n (bytes.flatMap byteBits) st := by
  induction bytes with
  | nil => intro st; rfl
  | cons b bytes ih =>
    intro st
    rw [List.flatMap_cons, decodeStream_append]
    simp only [decodeLoop, decodeByte_eq]
    change _ = (decodeStream root n (byteBits b) st).bind _
    unfold byteBits
    cases decodeStream root n
      ([7, 6, 5, 4, 3, 2, 1, 0].map (fun i => (b >>> i) &&& 1 != 0)) st with
    | none => rfl
    | some st1 => exact ih st1

theorem codesOf_leaf_eq (t : Node) (h : t.isLeaf = true) : codesOf t = [(t.ch, [])] := by
  cases t with
  | null => simp [Node.isLeaf] at h
  | mk c f l r => simp [codesOf, h, Node.ch]

theorem codesOf_node_eq (c : Nat) (f : Int) (l r : Node)
    (h : (Node.mk c f l r).isLeaf = false) :
    codesOf (Node.mk c f l r)
      = (codesOf l).map (fun e => (e.1, false :: e.2))
        ++ (codesOf r).map (fun e => (e.1, true :: e.2)) := by
  simp [codesOf, h]

theorem isNull_of_codesOf (t : Node) (e : Nat × List Bool) (h : e ∈ codesOf t) :
    t.isNull = false := by
  cases t with
  | null => simp [codesOf] at h
  | mk _ _ _ _ => rfl

theorem decodeStream_child (root : Node) (n : Nat) (t child : Node) (b : Bool)
    (buf : List Nat) (k : Nat) (bs : List Bool) (hk : k < n)
    (hc : child = if b then t.right else t.left) (hnull : child.isNull = false) :
    decodeStream root n (b :: bs) ⟨t, buf, k⟩
      = if child.isLeaf then decodeStream root n bs ⟨root, buf.set k child.ch, k + 1⟩
        else decodeStream root n bs ⟨child, buf, k⟩ := by
  have hk2 : ¬ n ≤ k := by omega
  simp only [decodeStream, hk2, if_false, stepBit, ← hc, hnull]
  by_cases hl : child.isLeaf = true <;> simp [hl]

/-- Walking the path of a leaf from an internal node of the tree emits the
symbol of that leaf and returns to the root. -/
theorem decodeStream_walk (root : Node) (n : Nat) (t : Node) :
    ∀ e ∈ codesOf t, ∀ (buf : List Nat) (k : Nat) (rest : List Bool),
      t.isLeaf = false → k < n →
      decodeStream root n (e.2 ++ rest) ⟨t, buf, k⟩
        = decodeStream root n rest ⟨root, buf.set k e.1, k + 1⟩ := by
  induction t with
  | null => intro e he; simp [codesOf] at he
  | mk c f l r ihl ihr =>
    intro e he buf k rest hleaf hk
    rw [codesOf_node_eq c f l r hleaf, List.mem_append] at he
    rcases he with he | he
    · obtain ⟨e0, he0, rfl⟩ := List.mem_map.1 he
      simp only [List.cons_append]
      rw [decodeStream_child root n (Node.mk c f l r) l false buf k _ hk rfl
        (isNull_of_codesOf l e0 he0)]
      by_cases hl : l.isLeaf = true
      · rw [codesOf_leaf_eq l hl] at he0
        simp only [List.mem_singleton] at he0
        subst he0
        simp [hl]
      · have hl2 : l.isLeaf = false := by
          cases h : l.isLeaf with
          | false => rfl
          | true => exact absurd h hl
        simp only [hl2]
        exact ihl e0 he0 buf k rest hl2 hk
    · obtain ⟨e0, he0, rfl⟩ := List.mem_map.1 he
      simp only [List.cons_append]
      rw [decodeStream_child root n (Node.mk c f l r) r true buf k _ hk rfl
        (isNull_of_codesOf r e0 he0)]
      by_cases hr : r.isLeaf = true
      · rw [codesOf_leaf_eq r hr] at he0
        simp only [List.mem_singleton] at he0
        subst he0
        simp [hr]
      · have hr2 : r.isLeaf = false := by
          cases h : r.isLeaf with
          | false => rfl
          | true => exact absurd h hr
        simp only [hr2]
        exact ihr e0 he0 buf k rest hr2 hk

theorem decodeStream_symbols (root : Node) (n : Nat) (code : Nat → List Bool)
    (hroot : root.isLeaf = false) (ds : List Nat) :
    ∀ (buf : List Nat) (k : Nat) (rest : List Bool),
      (∀ d ∈ ds, (d, code d) ∈ codesOf root) → k + ds.length ≤ n →
      decodeStream root n (ds.flatMap code ++ rest) ⟨root, buf, k⟩
        = decodeStream root n rest ⟨root, storeAt buf k ds, k + ds.length⟩ := by
  induction ds with
  | nil => intro buf k rest _ _; rfl
  | cons d ds ih =>
    intro buf k rest hmem hk
    simp only [List.length_cons] at hk
    rw [List.flatMap_cons, List.append_assoc]
    have := decodeStream_walk root n root (d, code d) (hmem d (List.mem_cons_self _ _))
      buf k (ds.flatMap code ++ rest) hroot (by omega)
    simp only at this
    rw [this, ih (buf.set k d) (k + 1) rest
      (fun x hx => hmem x (List.mem_cons_of_mem _ hx)) (by omega)]
    simp only [storeAt, List.length_cons]
    have e : k + 1 + ds.length = k + (ds.length + 1) := by omega
    rw [e]

theorem storeAt_eq (ds : List Nat) :
    ∀ (buf : List Nat) (k : Nat), k + ds.length ≤ buf.length →
      storeAt buf k ds = buf.take k ++ ds ++ buf.drop (k + ds.length) := by
  induction ds with
  | nil => intro buf k _; simp [storeAt]
  | cons d ds ih =>
    intro buf k hk
    simp only [List.length_cons] at hk
    simp only [storeAt]
    rw [ih (buf.set k d) (k + 1) (by simp; omega)]
    rw [take_succ_set buf k d (by omega)]
    have e : k + 1 + ds.length = k + (ds.length + 1) := by omega
    simp only [List.length_cons, e, List.append_assoc, List.singleton_append]
    congr 2
    rw [List.set_eq_take_append_cons_drop, if_pos (by omega)]
    rw [List.drop_append_eq_append_drop]
    have hl : (buf.take k).length = k := by simp; omega
    rw [hl]
    have e1 : List.drop (k + (ds.length + 1)) (List.take k buf) = [] := by
      apply List.drop_eq_nil_of_le; rw [hl]; omega
    have e2 : k + (ds.length + 1) - k = (ds.length) + 1 := by omega
    rw [e1, e2]
    simp only [List.nil_append, List.drop_succ_cons, List.drop_drop]
    rw [e]

theorem storeAt_full (ds buf : List Nat) (h : buf.length = ds.length) :
    storeAt buf 0 ds = ds := by
  rw [storeAt_eq ds buf 0 (by omega)]
  simp [h]

theorem uninit_length (mem : Nat → Nat) (n : Nat) : (uninit mem n).length = n := by
  simp [uninit]

theorem codeOf_mem (t : Node) (s : Nat) (h : s ∈ leaves t) : (s, codeOf t s) ∈ codesOf t := by
  rw [← codesOf_fst] at h
  obtain ⟨e, he, hes⟩ := List.mem_map.1 h
  unfold codeOf
  cases hf : (codesOf t).find? (fun e => e.1 == s) with
  | none =>
    have := List.find?_eq_none.1 hf e he
    simp [hes] at this
  | some e1 =>
    have h1 := List.find?_some hf
    have h2 := List.mem_of_find?_eq_some hf
    simp only [beq_iff_eq] at h1
    simp only
    rw [← h1]
    exact h2

/-! ## 11. Properties: the container -/

theorem leBytes_length (w : Nat) : ∀ n, (leBytes w n).length = w := by
  induction w with
  | zero => intro _; rfl
  | succ w ih => intro n; simp [leBytes, ih]

theorem ofLE_leBytes (w : Nat) : ∀ n, ofLE (leBytes w n) = n % 256 ^ w := by
  induction w with
  | zero => intro n; simp [leBytes, ofLE, Nat.mod_one]
  | succ w ih =>
    intro n
    simp only [leBytes, ofLE, ih]
    rw [pow_succ, Nat.mul_comm (256 ^ w) 256, Nat.mod_mul]

theorem writeInt_length (w : Nat) (x : Int) : (writeInt w x).length = w :=
  leBytes_length w _

theorem writeInt_of_nat (w n : Nat) (h : n < 2 ^ (8 * w)) :
    writeInt w (n : Int) = leBytes w n := by
  unfold writeInt
  have e : ((n : Int) % (2 : Int) ^ (8 * w)).toNat = n := by
    have : ((n : Int) % (2 : Int) ^ (8 * w)) = ((n % 2 ^ (8 * w) : Nat) : Int) := by
      push_cast; rfl
    rw [this, Int.toNat_ofNat, Nat.mod_eq_of_lt h]
  rw [e]

theorem readInt_writeInt (w n : Nat) (hw : 0 < w) (h : n < 2 ^ (8 * w - 1)) (rest : List Nat) :
    readInt w (writeInt w (n : Int) ++ rest) = some ((n : Int), rest) := by
  have h2 : n < 2 ^ (8 * w) :=
    lt_of_lt_of_le h (Nat.pow_le_pow_right (by decide) (by omega))
  rw [writeInt_of_nat w n h2]
  unfold readInt
  have hl := leBytes_length w n
  have hnot : ¬ (leBytes w n ++ rest).length < w := by simp [hl]
  rw [if_neg hnot]
  have ht : (leBytes w n ++ rest).take w = leBytes w n := List.take_left' hl
  have hd : (leBytes w n ++ rest).drop w = rest := List.drop_left' hl
  rw [ht, hd, ofLE_leBytes]
  have e256 : 256 ^ w = 2 ^ (8 * w) := by
    rw [show (256 : Nat) = 2 ^ 8 by norm_num, ← pow_mul]
  rw [e256, Nat.mod_eq_of_lt h2]
  unfold toSigned
  rw [if_pos h]

theorem writeEntries_eq (fm : Nat → Int) (out : List Nat) :
    writeEntries fm out = out ++ (symbols fm).flatMap (entryBytes fm) := by
  unfold writeEntries
  rw [foldl_ite_eq_foldl_filter (fun i => 0 < fm i)
    (fun out i => out ++ [i % 256] ++ writeInt 8 (fm i))]
  change (symbols fm).foldl _ out = _
  generalize symbols fm = l
  induction l generalizing out with
  | nil => simp
  | cons a l ih =>
    rw [List.foldl_cons, ih, List.flatMap_cons]
    simp [entryBytes, List.append_assoc]

theorem readEntries_entries (fm : Nat → Int) (l : List Nat) :
    ∀ (g : Nat → Int) (rest : List Nat),
      (∀ i ∈ l, i < 256 ∧ 0 ≤ fm i ∧ fm i < 2 ^ 63) →
      readEntries l.length g (l.flatMap (entryBytes fm) ++ rest)
        = some (l.foldl (fun g i => Function.update g i (fm i)) g, rest) := by
  induction l with
  | nil => intro g rest _; rfl
  | cons a l ih =>
    intro g rest h
    obtain ⟨ha, h0, h63⟩ := h a (List.mem_cons_self _ _)
    obtain ⟨n, hn⟩ := Int.eq_ofNat_of_zero_le h0
    have hn63 : n < 2 ^ (8 * 8 - 1) := by
      have : (n : Int) < 2 ^ 63 := hn ▸ h63
      exact_mod_cast this
    simp only [List.length_cons, List.flatMap_cons, entryBytes, List.cons_append, readEntries,
      List.append_assoc]
    rw [hn, readInt_writeInt 8 n (by decide) hn63]
    simp only [Nat.mod_eq_of_lt ha]
    rw [ih _ rest (fun i hi => h i (List.mem_cons_of_mem _ hi))]
    simp [hn]

theorem foldl_update_eq (fm : Nat → Int) (l : List Nat) :
    ∀ (g : Nat → Int) (s : Nat),
      l.foldl (fun g i => Function.update g i (fm i)) g s = if s ∈ l then fm s else g s := by
  induction l with
  | nil => intro g s; simp
  | cons a l ih =>
    intro g s
    rw [List.foldl_cons, ih]
    by_cases h1 : s ∈ l
    · simp [h1]
    · by_cases h2 : s = a
      · subst h2; simp [h1]
      · simp [h1, h2, Function.update_noteq h2]

theorem foldl_update_symbols (fm : Nat → Int) (hz : ∀ s, s ∉ symbols fm → fm s = 0) :
    (symbols fm).foldl (fun g i => Function.update g i (fm i)) (fun _ => 0) = fm := by
  funext s
  rw [foldl_update_eq]
  by_cases h : s ∈ symbols fm
  · simp [h]
  · simp [h, hz s h]

/-- Reading back a header written for the table `fm`: the table, the length
and the rest of the stream are recovered. -/
theorem read_headerOf (fm : Nat → Int) (len : Nat) (rest : List Nat)
    (hfm : ∀ i ∈ symbols fm, fm i < 2 ^ 63) (hlen : len < 2 ^ 63) :
    ∃ rest1 rest2,
      readInt 4 (headerOf fm (len : Int) ++ rest) = some (((symbols fm).length : Int), rest1)
      ∧ readEntries (symbols fm).length (fun _ => 0) rest1
          = some ((symbols fm).foldl (fun g i => Function.update g i (fm i)) (fun _ => 0), rest2)
      ∧ readInt 8 rest2 = some ((len : Int), rest) := by
  refine ⟨(symbols fm).flatMap (entryBytes fm) ++ (writeInt 8 (len : Int) ++ rest),
    writeInt 8 (len : Int) ++ rest, ?_, ?_, ?_⟩
  · unfold headerOf
    rw [List.append_assoc, List.append_assoc]
    rw [readInt_writeInt 4 _ (by decide) (by
      have := symbols_length_le fm
      have : (256 : Nat) < 2 ^ (8 * 4 - 1) := by norm_num
      omega)]
  · refine readEntries_entries fm (symbols fm) _ _ ?_
    intro i hi
    have := (mem_symbols fm i).1 hi
    exact ⟨this.1, le_of_lt this.2, hfm i hi⟩
  · exact readInt_writeInt 8 len (by decide) (by simpa using hlen) rest

/-! ## 12. Properties: `compress` and `decompress` as a whole -/

theorem compress_some (self : HuffmanCompressor) (mem : Nat → Nat) (data : List Nat)
    (hne : data ≠ []) :
    compress self mem (some data)
      = ⟨true,
          some (flushBits (writeBits
            (generateCodes (buildTree (countFreq (deltaForward data))) self.codeMap
              (uninit mem 256) 0).1
            (deltaForward data)
            ⟨writeEntries (countFreq (deltaForward data))
                (writeInt 4 (countMapSize (countFreq (deltaForward data))))
              ++ writeInt 8 (data.length : Int), 0, 0⟩)),
          ⟨countFreq (deltaForward data),
            (generateCodes (buildTree (countFreq (deltaForward data))) self.codeMap
              (uninit mem 256) 0).1,
            buildTree (countFreq (deltaForward data))⟩⟩ := by
  have h0 : ¬ ((data.length : Int) = 0) := by
    intro h
    have : data.length = 0 := by exact_mod_cast h
    exact hne (List.eq_nil_of_length_eq_zero this)
  simp only [compress, h0, if_false, buildTree]

/-- The facts about the delta stream of a non-empty input of bytes and its
frequency table on which the whole-codec properties rest. -/
theorem delta_facts (data : List Nat) (hne : data ≠ []) (hb : ∀ b ∈ data, b < 256) :
    symbols (countFreq (deltaForward data)) ≠ []
    ∧ (∀ d ∈ deltaForward data, d ∈ symbols (countFreq (deltaForward data)))
    ∧ (∀ s, s ∉ symbols (countFreq (deltaForward data)) →
        countFreq (deltaForward data) s = 0)
    ∧ (∀ s, countFreq (deltaForward data) s ≤ (data.length : Int)) := by
  have hmem : ∀ d ∈ deltaForward data, d ∈ symbols (countFreq (deltaForward data)) := by
    intro d hd
    rw [mem_symbols]
    exact ⟨deltaForward_lt data hb d hd, (countFreq_pos_iff _ _).2 hd⟩
  refine ⟨?_, hmem, ?_, ?_⟩
  · have hdne := deltaForward_ne_nil data hne
    obtain ⟨d, hd⟩ := List.exists_mem_of_ne_nil _ hdne
    exact List.ne_nil_of_mem (hmem d hd)
  · intro s hs
    rw [mem_symbols] at hs
    have hnn := countFreq_nonneg (deltaForward data) s
    by_cases hlt : s < 256
    · have : ¬ 0 < countFreq (deltaForward data) s := fun h => hs ⟨hlt, h⟩
      omega
    · have : ¬ 0 < countFreq (deltaForward data) s := by
        rw [countFreq_pos_iff]
        intro h
        exact hlt (deltaForward_lt data hb s h)
      omega
  · intro s
    rw [countFreq_eq, ← deltaForward_length data]
    exact_mod_cast List.count_le_length _ _

/-- After `generateCodes` on the tree built from `fm`, the row of every symbol
of positive frequency holds the characters of that symbol's path, whatever the
rows and the traversal buffer held before. -/
theorem codeMap_row (fm : Nat → Int) (hne : symbols fm ≠ []) (cm0 : Nat → List Nat)
    (mem : Nat → Nat) (s : Nat) (hs : s ∈ symbols fm) :
    cstr ((generateCodes (buildTree fm) cm0 (uninit mem 256) 0).1 s)
      = (codeOf (buildTree fm) s).map bitChar := by
  obtain ⟨_, _, hperm, hh⟩ := buildTree_spec fm hne
  have hg := (generateCodes_spec (buildTree fm) cm0 (uninit mem 256) 0
    (uninit_length mem 256) (by omega)).2.2.2
  have hnd : (leaves (buildTree fm)).Nodup := (hperm.nodup_iff).2 (symbols_nodup fm)
  have hmem : s ∈ leaves (buildTree fm) := hperm.symm.subset hs
  have := hg hnd (by simp) (s, codeOf (buildTree fm) s) (codeOf_mem _ s hmem)
  simpa using this

theorem flatMap_congr_mem {α β : Type} (l : List α) (f g : α → List β)
    (h : ∀ a ∈ l, f a = g a) : l.flatMap f = l.flatMap g := by
  induction l with
  | nil => rfl
  | cons a l ih =>
    rw [List.flatMap_cons, List.flatMap_cons, h a (List.mem_cons_self _ _),
      ih (fun x hx => h x (List.mem_cons_of_mem _ hx))]

/-- On a non-empty input of bytes, `compress` returns `true` and writes the
container `containerOf data`, which is computed from the input alone. -/
theorem compress_eq (self : HuffmanCompressor) (mem : Nat → Nat) (data : List Nat)
    (hne : data ≠ []) (hb : ∀ b ∈ data, b < 256) :
    (compress self mem (some data)).result = true
      ∧ (compress self mem (some data)).output = some (containerOf data) := by
  rw [compress_some self mem data hne]
  refine ⟨rfl, ?_⟩
  obtain ⟨hsne, hmem, _, _⟩ := delta_facts data hne hb
  simp only [Option.some.injEq]
  rw [writeBits_eq_foldl, countMapSize_eq, writeEntries_eq]
  rw [flatMap_congr_mem (deltaForward data) _
    (fun d => (codeOf (buildTree (countFreq (deltaForward data))) d).map bitChar)
    (fun d hd => codeMap_row _ hsne self.codeMap mem d (hmem d hd))]
  have hp := foldl_putBit_out_pre
    (writeInt 4 ((symbols (countFreq (deltaForward data))).length : Int)
      ++ (symbols (countFreq (deltaForward data))).flatMap
          (entryBytes (countFreq (deltaForward data)))
      ++ writeInt 8 (data.length : Int))
    ((deltaForward data).flatMap
      (fun d => (codeOf (buildTree (countFreq (deltaForward data))) d).map bitChar))
    ⟨[], 0, 0⟩
  simp only [List.append_nil] at hp
  rw [hp, flushBits_out_pre]
  rfl

theorem map_bitChar_bits (p : List Bool) :
    (p.map bitChar).map (fun c => decide (c = 49)) = p := by
  induction p with
  | nil => rfl
  | cons b p ih =>
    simp only [List.map_cons, ih]
    cases b <;> simp [bitChar]

theorem map_flatMap_bits (root : Node) (ds : List Nat) :
    (ds.flatMap (fun d => (codeOf root d).map bitChar)).map (fun c => decide (c = 49))
      = ds.flatMap (codeOf root) := by
  induction ds with
  | nil => rfl
  | cons d ds ih =>
    rw [List.flatMap_cons, List.flatMap_cons, List.map_append, map_bitChar_bits, ih]

/-- The payload for a list of symbols, read back bit by bit, is the
concatenation of their codes followed by fewer than eight zero bits. -/
theorem payloadOf_bits (root : Node) (ds : List Nat) :
    ∃ k, k < 8 ∧ (payloadOf root ds).flatMap byteBits
      = ds.flatMap (codeOf root) ++ List.replicate k false := by
  have hw := writerInv_foldl (ds.flatMap (fun d => (codeOf root d).map bitChar))
    ⟨[], 0, 0⟩ [] writerInv_init
  obtain ⟨k, hk, h⟩ := flushBits_bits _ _ hw
  refine ⟨k, hk, ?_⟩
  unfold payloadOf
  rw [h, List.nil_append, map_flatMap_bits]

/-- Decoding the payload written for `ds` with the tree whose leaves carry all
of `ds`, for exactly `ds.length` symbols, fills `deltaData` with `ds`; bytes
that follow the payload are read without effect. -/
theorem decodeLoop_payloadOf (root : Node) (ds : List Nat) (extra : List Nat)
    (mem : Nat → Nat) (hroot : root.isLeaf = false) (hds : ∀ d ∈ ds, d ∈ leaves root) :
    decodeLoop root ds.length (payloadOf root ds ++ extra) ⟨root, uninit mem ds.length, 0⟩
      = some ⟨root, ds, ds.length⟩ := by
  rw [decodeLoop_eq, List.flatMap_append]
  obtain ⟨k, _, hbits⟩ := payloadOf_bits root ds
  rw [hbits, List.append_assoc]
  rw [decodeStream_symbols root ds.length (codeOf root) hroot ds _ 0 _
    (fun d hd => codeOf_mem root d (hds d hd)) (by omega)]
  rw [storeAt_full ds _ (uninit_length mem ds.length)]
  simp only [Nat.zero_add]
  exact decodeStream_done _ _ _ _ (Nat.le_refl _)

/-- Decompressing the container of a non-empty input of bytes, possibly
followed by further bytes, returns `true` and writes the input. -/
theorem decompress_containerOf (self : HuffmanCompressor) (mem : Nat → Nat)
    (data extra : List Nat) (hne : data ≠ []) (hb : ∀ b ∈ data, b < 256)
    (hlen : data.length < 2 ^ 63) :
    ∃ o, decompress self mem (some (containerOf data ++ extra)) = some o
      ∧ o.result = true ∧ o.output = some data := by
  obtain ⟨hsne, hmem, hz, hle⟩ := delta_facts data hne hb
  obtain ⟨hnull, hleaf, hperm, _⟩ := buildTree_spec _ hsne
  have hfm : ∀ i ∈ symbols (countFreq (deltaForward data)),
      countFreq (deltaForward data) i < 2 ^ 63 := by
    intro i _
    have h1 := hle i
    have h2 : (data.length : Int) < 2 ^ 63 := by exact_mod_cast hlen
    omega
  obtain ⟨rest1, rest2, h1, h2, h3⟩ := read_headerOf (countFreq (deltaForward data))
    data.length
    (payloadOf (buildTree (countFreq (deltaForward data))) (deltaForward data) ++ extra)
    hfm hlen
  rw [foldl_update_symbols _ hz] at h2
  have hsz := pushLeaves_getSize (countFreq (deltaForward data))
  have hpos : 0 < (symbols (countFreq (deltaForward data))).length :=
    List.length_pos.2 hsne
  have hsz0 : ¬ (pushLeaves (countFreq (deltaForward data)) MinHeap.empty).getSize = 0 := by
    omega
  have hlpos : ¬ ((data.length : Int) ≤ 0) := by
    have : 0 < data.length := List.length_pos.2 hne
    omega
  have hdec := decodeLoop_payloadOf (buildTree (countFreq (deltaForward data)))
    (deltaForward data) extra mem hleaf
    (fun d hd => hperm.symm.subset (hmem d hd))
  rw [deltaForward_length] at hdec
  have hbt : buildFromHeap (pushLeaves (countFreq (deltaForward data)) MinHeap.empty)
      = buildTree (countFreq (deltaForward data)) := rfl
  have hcont : containerOf data ++ extra
      = headerOf (countFreq (deltaForward data)) (data.length : Int)
        ++ (payloadOf (buildTree (countFreq (deltaForward data))) (deltaForward data)
          ++ extra) := by
    unfold containerOf
    rw [List.append_assoc]
  rw [hcont]
  refine ⟨⟨true, some (deltaInverse (deltaForward data)),
    ⟨countFreq (deltaForward data), self.codeMap,
      buildTree (countFreq (deltaForward data))⟩⟩, ?_, rfl, ?_⟩
  · simp only [decompress, h1, Int.toNat_ofNat, h2, h3, hsz0, if_false, hlpos, hbt, hdec]
  · simp only [deltaInverse_deltaForward data hb]

/-! ## 13. Further lemmas on the header -/

theorem headerOf_entries (fm : Nat → Int) (len : Int) :
    headerOf fm len
      = writeInt 4 ((entriesOf fm).length : Int) ++ (entriesOf fm).flatMap entryPairBytes
        ++ writeInt 8 len := by
  unfold headerOf entriesOf
  rw [List.length_map, List.flatMap_map]
  rfl

theorem symbols_perm_dedup (ds : List Nat) (h : ∀ d ∈ ds, d < 256) :
    (symbols (countFreq ds)).Perm ds.dedup := by
  rw [List.perm_ext_iff_of_nodup (symbols_nodup _) (List.nodup_dedup ds)]
  intro s
  rw [mem_symbols, List.mem_dedup, countFreq_pos_iff]
  exact ⟨fun hs => hs.2, fun hs => ⟨h s hs, hs⟩⟩

theorem sum_countFreq_symbols (ds : List Nat) (h : ∀ d ∈ ds, d < 256) :
    ((symbols (countFreq ds)).map (countFreq ds)).sum = (ds.length : Int) := by
  have hp := (symbols_perm_dedup ds h).map (countFreq ds)
  rw [hp.sum_eq]
  have e : ds.dedup.map (countFreq ds) = (ds.dedup.map (fun x => ds.count x)).map Nat.cast := by
    rw [List.map_map]
    apply List.map_congr_left
    intro a _
    simp [countFreq_eq]
  rw [e, ← Nat.cast_list_sum, List.sum_map_count_dedup_eq_length]

theorem nonzeroEntries_countFreq (ds : List Nat) :
    nonzeroEntries (countFreq ds) = symbols (countFreq ds) := by
  unfold nonzeroEntries symbols
  apply List.filter_congr
  intro i _
  have := countFreq_nonneg ds i
  simp only [decide_eq_decide]
  omega

theorem codesOf_pfx_free (t : Node) :
    (codesOf t).Pairwise (fun a b => ¬ a.2 <+: b.2 ∧ ¬ b.2 <+: a.2) := by
  induction t with
  | null => simp [codesOf]
  | mk c f l r ihl ihr =>
    by_cases hleaf : (Node.mk c f l r).isLeaf = true
    · rw [codesOf_leaf_eq _ hleaf]
      simp
    · have hleaf2 : (Node.mk c f l r).isLeaf = false := by
        cases h : (Node.mk c f l r).isLeaf with
        | false => rfl
        | true => exact absurd h hleaf
      rw [codesOf_node_eq c f l r hleaf2, List.pairwise_append]
      refine ⟨?_, ?_, ?_⟩
      · rw [List.pairwise_map]
        refine ihl.imp ?_
        intro a b hab
        simpa [List.cons_prefix_cons] using hab
      · rw [List.pairwise_map]
        refine ihr.imp ?_
        intro a b hab
        simpa [List.cons_prefix_cons] using hab
      · intro a ha b hb
        obtain ⟨a0, _, rfl⟩ := List.mem_map.1 ha
        obtain ⟨b0, _, rfl⟩ := List.mem_map.1 hb
        simp [List.cons_prefix_cons]

theorem codesOf_nonempty (t : Node) (h : t.isLeaf = false) :
    ∀ e ∈ codesOf t, e.2 ≠ [] := by
  cases t with
  | null => intro e he; simp [codesOf] at he
  | mk c f l r =>
    intro e he
    rw [codesOf_node_eq c f l r h, List.mem_append] at he
    rcases he with he | he <;>
      (obtain ⟨e0, _, rfl⟩ := List.mem_map.1 he; simp)

theorem map_bitChar_isPfx (p q : List Bool) :
    p.map bitChar <+: q.map bitChar ↔ p <+: q := by
  constructor
  · intro h
    have := h.map (fun c => decide (c = 49))
    rwa [map_bitChar_bits, map_bitChar_bits] at this
  · intro h
    exact h.map bitChar

/-! ## 14. The properties of the specification -/

/-- C1 (round trip). For every non-empty sequence `B` of bytes (its length
fitting the `long long` length field), `compress` returns `true` and writes a
container, and `decompress` applied to exactly these container bytes returns
`true` and writes exactly `B`. This holds from any state of the two codec
objects and for any contents of the memory the code leaves uninitialised. -/
theorem compress_decompress_round_trip (self self2 : HuffmanCompressor)
    (mem mem2 : Nat → Nat) (B : List Nat)
    (hne : B ≠ []) (hb : ∀ b ∈ B, b < 256) (hlen : B.length < 2 ^ 63) :
    (compress self mem (some B)).result = true
      ∧ (∃ c, (compress self mem (some B)).output = some c)
      ∧ (decompress self2 mem2 (compress self mem (some B)).output).map
          (fun o => (o.result, o.output)) = some (true, some B) := by
  obtain ⟨hr, ho⟩ := compress_eq self mem B hne hb
  refine ⟨hr, ⟨_, ho⟩, ?_⟩
  obtain ⟨o, h1, h2, h3⟩ := decompress_containerOf self2 mem2 B [] hne hb hlen
  rw [List.append_nil] at h1
  rw [ho, h1]
  simp [h2, h3]

/-- Instance of C1 at the strictly increasing input `[1, 2, 3]`. -/
theorem compress_decompress_round_trip_witness :
    (compress (HuffmanCompressor.init (fun _ => [])) (fun _ => 0) (some [1, 2, 3])).result = true
      ∧ (∃ c, (compress (HuffmanCompressor.init (fun _ => [])) (fun _ => 0)
            (some [1, 2, 3])).output = some c)
      ∧ (decompress (HuffmanCompressor.init (fun _ => [])) (fun _ => 0)
          (compress (HuffmanCompressor.init (fun _ => [])) (fun _ => 0)
            (some [1, 2, 3])).output).map
          (fun o => (o.result, o.output)) = some (true, some [1, 2, 3]) :=
  compress_decompress_round_trip (HuffmanCompressor.init (fun _ => []))
    (HuffmanCompressor.init (fun _ => [])) (fun _ => 0) (fun _ => 0) [1, 2, 3]
    (by decide) (by decide) (by decide)

/-- C2 (delta transform round trip). For every byte sequence `x` of length at
least 1, the inverse delta transform of `decompress` applied to the forward
delta transform of `compress` gives back `x`. -/
theorem delta_round_trip (x : List Nat) (hlen : 1 ≤ x.length) (hb : ∀ b ∈ x, b < 256) :
    deltaInverse (deltaForward x) = x := by
  have _ := hlen
  exact deltaInverse_deltaForward x hb

/-- Instance of C2 at a sequence that wraps around modulo 256. -/
theorem delta_round_trip_witness :
    deltaInverse (deltaForward [200, 3, 255, 0, 7]) = [200, 3, 255, 0, 7] :=
  delta_round_trip [200, 3, 255, 0, 7] (by decide) (by decide)

set_option maxRecDepth 1000000 in
theorem containerOf_fives :
    containerOf [5, 5, 5, 5, 5]
      = [2, 0, 0, 0, 0, 4, 0, 0, 0, 0, 0, 0, 0, 5, 1, 0, 0, 0, 0, 0, 0, 0,
         5, 0, 0, 0, 0, 0, 0, 0, 120] := by
  decide!

set_option maxRecDepth 1000000 in
theorem codeOf_fives :
    codeOf (buildTree (countFreq (deltaForward [5, 5, 5, 5, 5]))) 5 = [false]
      ∧ codeOf (buildTree (countFreq (deltaForward [5, 5, 5, 5, 5]))) 0 = [true] := by
  decide!

/-- C3 (concrete scenario). On the input `[5,5,5,5,5]`, from any codec state:
the delta stream is `[5,0,0,0,0]`; the frequency table left in `freqMap` is
`{0:4, 5:1}`; the code of symbol 5 is `"0"` and the code of symbol 0 is `"1"`;
the container is `distinctSymbolCount = 2`, the entries `(0,4)` and `(5,1)` in
this order, `originalLength = 5` and the single payload byte `0b01111000`
(120); and `decompress` of exactly this container returns `true` and writes
`[5,5,5,5,5]`. -/
theorem concrete_scenario (self self2 : HuffmanCompressor) (mem mem2 : Nat → Nat) :
    deltaForward [5, 5, 5, 5, 5] = [5, 0, 0, 0, 0]
      ∧ (∀ s, (compress self mem (some [5, 5, 5, 5, 5])).self.freqMap s
            = if s = 0 then 4 else if s = 5 then 1 else 0)
      ∧ symbols (compress self mem (some [5, 5, 5, 5, 5])).self.freqMap = [0, 5]
      ∧ cstr ((compress self mem (some [5, 5, 5, 5, 5])).self.codeMap 5) = [48]
      ∧ cstr ((compress self mem (some [5, 5, 5, 5, 5])).self.codeMap 0) = [49]
      ∧ (compress self mem (some [5, 5, 5, 5, 5])).output
          = some (writeInt 4 2 ++ (0 :: writeInt 8 4) ++ (5 :: writeInt 8 1)
              ++ writeInt 8 5 ++ [120])
      ∧ (decompress self2 mem2
            (some (writeInt 4 2 ++ (0 :: writeInt 8 4) ++ (5 :: writeInt 8 1)
              ++ writeInt 8 5 ++ [120]))).map (fun o => (o.result, o.output))
          = some (true, some [5, 5, 5, 5, 5]) := by
  have hne : ([5, 5, 5, 5, 5] : List Nat) ≠ [] := by decide
  have hb : ∀ b ∈ ([5, 5, 5, 5, 5] : List Nat), b < 256 := by decide
  have hbytes : writeInt 4 2 ++ (0 :: writeInt 8 4) ++ (5 :: writeInt 8 1)
      ++ writeInt 8 5 ++ [120] = containerOf [5, 5, 5, 5, 5] := by
    rw [containerOf_fives]; decide
  have hsym : symbols (countFreq (deltaForward [5, 5, 5, 5, 5])) = [0, 5] := by decide
  have hsne : symbols (countFreq (deltaForward [5, 5, 5, 5, 5])) ≠ [] := by
    rw [hsym]; decide
  refine ⟨rfl, ?_, ?_, ?_, ?_, ?_, ?_⟩
  · intro s
    rw [compress_some self mem _ hne]
    simp only [countFreq_eq]
    by_cases h0 : s = 0
    · subst h0; decide
    · by_cases h5 : s = 5
      · subst h5; decide
      · have e : deltaForward [5, 5, 5, 5, 5] = [5, 0, 0, 0, 0] := rfl
        have h0' : ¬ (0 = s) := fun h => h0 h.symm
        have h5' : ¬ (5 = s) := fun h => h5 h.symm
        simp [e, List.count_cons, h0, h5, h0', h5']
  · rw [compress_some self mem _ hne]
    exact hsym
  · rw [compress_some self mem _ hne]
    simp only
    rw [codeMap_row _ hsne self.codeMap mem 5 (by rw [hsym]; decide), codeOf_fives.1]
    rfl
  · rw [compress_some self mem _ hne]
    simp only
    rw [codeMap_row _ hsne self.codeMap mem 0 (by rw [hsym]; decide), codeOf_fives.2]
    rfl
  · rw [hbytes]
    exact (compress_eq self mem _ hne hb).2
  · obtain ⟨o, h1, h2, h3⟩ := decompress_containerOf self2 mem2 [5, 5, 5, 5, 5] [] hne hb
      (by decide)
    rw [List.append_nil] at h1
    rw [hbytes, h1]
    simp [h2, h3]

/-- C4 (empty input rejected). On a zero-length source `compress` returns
`false`, the output file is never opened (nothing is written, neither header
nor payload), and the codec object is left as it was. -/
theorem compress_empty_rejected (self : HuffmanCompressor) (mem : Nat → Nat) :
    (compress self mem (some [])).result = false
      ∧ (compress self mem (some [])).output = none
      ∧ (compress self mem (some [])).self.root = self.root := by
  refine ⟨rfl, rfl, rfl⟩

set_option maxRecDepth 1000000 in
theorem decompress_truncatedContainer (self : HuffmanCompressor) (mem : Nat → Nat) :
    (decompress self mem (some truncatedContainer)).map (fun o => (o.result, o.output))
      = some (true, some [5, 5, 5, 5, 5, 5, 5, 5, (5 + mem 8) % 256]) := by
  rfl

/-- C5 (truncated stream), evaluation at a failing input. The container of
nine bytes `5` whose payload lost its last byte has a well-formed header with
`originalLength = 9`, but only eight symbols can be decoded. `decompress`
returns `true` all the same, and the ninth byte it writes is computed from the
slot of `deltaData` that was never assigned: it is `(5 + mem 8) % 256` for the
indeterminate contents `mem` of the fresh array. -/
theorem decompress_truncated_reports_success (self : HuffmanCompressor) (mem : Nat → Nat) :
    (decompress self mem (some truncatedContainer)).map (fun o => (o.result, o.output))
      = some (true, some [5, 5, 5, 5, 5, 5, 5, 5, (5 + mem 8) % 256]) :=
  decompress_truncatedContainer self mem

/-- C6 (determinism). For every non-empty input `B` of bytes, the value
returned and the container written by `compress` are the same for any two
states `self1`, `self2` of the codec object (`freqMap`, `codeMap` and `root`
left behind by whatever calls came before) and any contents of the
uninitialised traversal buffer; stale `codeMap` rows do not reach the output. -/
theorem compress_deterministic (self1 self2 : HuffmanCompressor) (mem1 mem2 : Nat → Nat)
    (B : List Nat) (hne : B ≠ []) (hb : ∀ b ∈ B, b < 256) :
    (compress self1 mem1 (some B)).result = (compress self2 mem2 (some B)).result
      ∧ (compress self1 mem1 (some B)).output = (compress self2 mem2 (some B)).output := by
  obtain ⟨r1, o1⟩ := compress_eq self1 mem1 B hne hb
  obtain ⟨r2, o2⟩ := compress_eq self2 mem2 B hne hb
  exact ⟨r1.trans r2.symm, o1.trans o2.symm⟩

/-- Instance of C6: a fresh object against the object left behind by an earlier
`compress` of another input, started with stale rows in `codeMap`. -/
theorem compress_deterministic_witness :
    (compress (HuffmanCompressor.init (fun _ => [])) (fun _ => 0) (some [7, 7, 9])).result
        = (compress (compress (HuffmanCompressor.init (fun _ => [49, 49, 48, 0]))
              (fun _ => 1) (some [1, 2, 250])).self (fun _ => 1) (some [7, 7, 9])).result
      ∧ (compress (HuffmanCompressor.init (fun _ => [])) (fun _ => 0) (some [7, 7, 9])).output
        = (compress (compress (HuffmanCompressor.init (fun _ => [49, 49, 48, 0]))
              (fun _ => 1) (some [1, 2, 250])).self (fun _ => 1) (some [7, 7, 9])).output :=
  compress_deterministic (HuffmanCompressor.init (fun _ => []))
    (compress (HuffmanCompressor.init (fun _ => [49, 49, 48, 0]))
      (fun _ => 1) (some [1, 2, 250])).self (fun _ => 0) (fun _ => 1) [7, 7, 9]
    (by decide) (by decide)

/-- C7 (frequency conservation). For every non-empty input `B` of bytes, the
container written by `compress` consists of the entry count, the entries
`entriesOf freqMap`, the `originalLength` field holding `B.length`, and the
payload; and the frequencies of these entries sum to `B.length`. -/
theorem frequency_conservation (self : HuffmanCompressor) (mem : Nat → Nat) (B : List Nat)
    (hne : B ≠ []) (hb : ∀ b ∈ B, b < 256) :
    (compress self mem (some B)).output
        = some (writeInt 4 ((entriesOf (countFreq (deltaForward B))).length : Int)
            ++ (entriesOf (countFreq (deltaForward B))).flatMap entryPairBytes
            ++ writeInt 8 (B.length : Int)
            ++ payloadOf (buildTree (countFreq (deltaForward B))) (deltaForward B))
      ∧ ((entriesOf (countFreq (deltaForward B))).map Prod.snd).sum = (B.length : Int) := by
  constructor
  · rw [(compress_eq self mem B hne hb).2]
    unfold containerOf
    rw [headerOf_entries]
  · unfold entriesOf
    rw [List.map_map]
    have := sum_countFreq_symbols (deltaForward B) (deltaForward_lt B hb)
    rw [deltaForward_length] at this
    exact this

/-- Instance of C7 at the input `[4, 4, 9, 200]`. -/
theorem frequency_conservation_witness :
    (compress (HuffmanCompressor.init (fun _ => [])) (fun _ => 0) (some [4, 4, 9, 200])).output
        = some (writeInt 4 ((entriesOf (countFreq (deltaForward [4, 4, 9, 200]))).length : Int)
            ++ (entriesOf (countFreq (deltaForward [4, 4, 9, 200]))).flatMap entryPairBytes
            ++ writeInt 8 (([4, 4, 9, 200] : List Nat).length : Int)
            ++ payloadOf (buildTree (countFreq (deltaForward [4, 4, 9, 200])))
                (deltaForward [4, 4, 9, 200]))
      ∧ ((entriesOf (countFreq (deltaForward [4, 4, 9, 200]))).map Prod.snd).sum
        = (([4, 4, 9, 200] : List Nat).length : Int) :=
  frequency_conservation (HuffmanCompressor.init (fun _ => [])) (fun _ => 0) [4, 4, 9, 200]
    (by decide) (by decide)

set_option maxRecDepth 1000000 in
theorem truncatedContainer_origin :
    containerOf [5, 5, 5, 5, 5, 5, 5, 5, 5] = truncatedContainer ++ [128] := by
  decide!

theorem symbols_of_nonneg (fm : Nat → Int) (hnn : ∀ i, 0 ≤ fm i) (s : Nat) :
    s ∈ symbols fm ↔ s < 256 ∧ fm s ≠ 0 := by
  rw [mem_symbols]
  have := hnn s
  constructor
  · intro h; exact ⟨h.1, by omega⟩
  · intro h; exact ⟨h.1, by have := h.2; omega⟩

/-- C8 (prefix-free code table). For every frequency table of non-negative
counts with at least one nonzero entry, after the tree build and
`generateCodes` (from any earlier contents of `codeMap` and of the traversal
buffer): every symbol of nonzero frequency sits at exactly one leaf and so is
given exactly one code, the row of `codeMap` for it holds that code, the code is
not empty, and of the codes of two distinct such symbols neither is a prefix of
the other. -/
theorem code_table_unambiguous (fm : Nat → Int) (cm0 : Nat → List Nat) (mem : Nat → Nat)
    (hnn : ∀ i, 0 ≤ fm i) (hex : ∃ s, s < 256 ∧ fm s ≠ 0) :
    (∀ s, s < 256 → fm s ≠ 0 →
        ((codesOf (buildTree fm)).map Prod.fst).count s = 1
        ∧ cstr ((generateCodes (buildTree fm) cm0 (uninit mem 256) 0).1 s)
            = (codeOf (buildTree fm) s).map bitChar
        ∧ cstr ((generateCodes (buildTree fm) cm0 (uninit mem 256) 0).1 s) ≠ [])
      ∧ (∀ s1 s2, s1 < 256 → s2 < 256 → fm s1 ≠ 0 → fm s2 ≠ 0 → s1 ≠ s2 →
          ¬ cstr ((generateCodes (buildTree fm) cm0 (uninit mem 256) 0).1 s1)
              <+: cstr ((generateCodes (buildTree fm) cm0 (uninit mem 256) 0).1 s2)) := by
  obtain ⟨s0, hs0, hf0⟩ := hex
  have hsne : symbols fm ≠ [] :=
    List.ne_nil_of_mem ((symbols_of_nonneg fm hnn s0).2 ⟨hs0, hf0⟩)
  obtain ⟨_, hleaf, hperm, _⟩ := buildTree_spec fm hsne
  have hnd : (leaves (buildTree fm)).Nodup := (hperm.nodup_iff).2 (symbols_nodup fm)
  have hmem : ∀ s, s < 256 → fm s ≠ 0 → s ∈ leaves (buildTree fm) := fun s h1 h2 =>
    hperm.symm.subset ((symbols_of_nonneg fm hnn s).2 ⟨h1, h2⟩)
  have hrow : ∀ s, s < 256 → fm s ≠ 0 →
      cstr ((generateCodes (buildTree fm) cm0 (uninit mem 256) 0).1 s)
        = (codeOf (buildTree fm) s).map bitChar := fun s h1 h2 =>
    codeMap_row fm hsne cm0 mem s ((symbols_of_nonneg fm hnn s).2 ⟨h1, h2⟩)
  constructor
  · intro s h1 h2
    refine ⟨?_, hrow s h1 h2, ?_⟩
    · rw [codesOf_fst]
      exact List.count_eq_one_of_mem hnd (hmem s h1 h2)
    · rw [hrow s h1 h2]
      have := codesOf_nonempty _ hleaf _ (codeOf_mem _ s (hmem s h1 h2))
      simpa using this
  · intro s1 s2 h1 h2 f1 f2 hne
    rw [hrow s1 h1 f1, hrow s2 h2 f2, map_bitChar_isPfx]
    have m1 := codeOf_mem _ s1 (hmem s1 h1 f1)
    have m2 := codeOf_mem _ s2 (hmem s2 h2 f2)
    have hsym : Symmetric (fun a b : Nat × List Bool => ¬ a.2 <+: b.2 ∧ ¬ b.2 <+: a.2) :=
      fun a b h => ⟨h.2, h.1⟩
    have := (codesOf_pfx_free (buildTree fm)).forall hsym m1 m2
      (by intro e; exact hne (congrArg Prod.fst e))
    exact this.1

/-- Instance of C8 at the table of the delta stream `[3, 3, 7]`, for the
symbols 3 and 7. -/
theorem code_table_unambiguous_witness :
    ¬ cstr ((generateCodes (buildTree (countFreq [3, 3, 7])) (fun _ => [49, 0])
          (uninit (fun _ => 1) 256) 0).1 3)
        <+: cstr ((generateCodes (buildTree (countFreq [3, 3, 7])) (fun _ => [49, 0])
          (uninit (fun _ => 1) 256) 0).1 7) :=
  (code_table_unambiguous (countFreq [3, 3, 7]) (fun _ => [49, 0]) (fun _ => 1)
    (countFreq_nonneg [3, 3, 7]) ⟨3, by decide, by decide⟩).2 3 7
    (by decide) (by decide) (by decide) (by decide) (by decide)

/-- C9 (container header layout). For every non-empty input `B` of bytes, the
container written by `compress` is: `distinctSymbolCount`, equal to the number
of entries that follow; the entries, one `(symbol, frequency)` pair each;
`originalLength = B.length`; then the packed payload. The entries are in
strictly ascending symbol order, each has a frequency above zero that is the
count of its symbol in the delta stream, and every symbol of the delta stream
has an entry. -/
theorem header_layout (self : HuffmanCompressor) (mem : Nat → Nat) (B : List Nat)
    (hne : B ≠ []) (hb : ∀ b ∈ B, b < 256) :
    (compress self mem (some B)).output
        = some (writeInt 4 ((entriesOf (countFreq (deltaForward B))).length : Int)
            ++ (entriesOf (countFreq (deltaForward B))).flatMap entryPairBytes
            ++ writeInt 8 (B.length : Int)
            ++ payloadOf (buildTree (countFreq (deltaForward B))) (deltaForward B))
      ∧ ((entriesOf (countFreq (deltaForward B))).map Prod.fst).Pairwise (· < ·)
      ∧ (∀ e ∈ entriesOf (countFreq (deltaForward B)),
          e.1 < 256 ∧ 0 < e.2 ∧ e.2 = ((deltaForward B).count e.1 : Int))
      ∧ (∀ d ∈ deltaForward B, d ∈ (entriesOf (countFreq (deltaForward B))).map Prod.fst) := by
  have hfst : (entriesOf (countFreq (deltaForward B))).map Prod.fst
      = symbols (countFreq (deltaForward B)) := by
    unfold entriesOf
    rw [List.map_map]
    exact List.map_id _
  refine ⟨?_, ?_, ?_, ?_⟩
  · rw [(compress_eq self mem B hne hb).2]
    unfold containerOf
    rw [headerOf_entries]
  · rw [hfst]
    exact symbols_sorted _
  · intro e he
    unfold entriesOf at he
    obtain ⟨i, hi, rfl⟩ := List.mem_map.1 he
    have := (mem_symbols _ i).1 hi
    exact ⟨this.1, this.2, countFreq_eq _ _⟩
  · intro d hd
    rw [hfst]
    exact (delta_facts B hne hb).2.1 d hd

/-- Instance of C9 at the input `[9, 8, 7, 7]`: the entries are in ascending
symbol order. -/
theorem header_layout_witness :
    ((entriesOf (countFreq (deltaForward [9, 8, 7, 7]))).map Prod.fst).Pairwise (· < ·) :=
  (header_layout (HuffmanCompressor.init (fun _ => [])) (fun _ => 0) [9, 8, 7, 7]
    (by decide) (by decide)).2.1

theorem dedup_replicate_succ (n a : Nat) : (List.replicate (n + 1) a).dedup = [a] := by
  induction n with
  | zero => rfl
  | succ n ih =>
    rw [List.replicate_succ, List.dedup_cons_of_mem (by simp), ih]

/-- C10 (degenerate input, delta and table). For every input of `N >= 1`
identical bytes `b`, the delta stream is `b` followed by `N - 1` zeros, and the
frequency table built from it has exactly one nonzero entry (when `b = 0` or
`N = 1`) or exactly two (otherwise). -/
theorem degenerate_delta_table (N b : Nat) (hN : 1 ≤ N) (hb : b < 256) :
    deltaForward (List.replicate N b) = b :: List.replicate (N - 1) 0
      ∧ ((nonzeroEntries (countFreq (deltaForward (List.replicate N b)))).length = 1
          ∨ (nonzeroEntries (countFreq (deltaForward (List.replicate N b)))).length = 2)
      ∧ ((nonzeroEntries (countFreq (deltaForward (List.replicate N b)))).length = 1
          ↔ (b = 0 ∨ N = 1)) := by
  obtain ⟨k, rfl⟩ : ∃ k, N = k + 1 := ⟨N - 1, by omega⟩
  have hd : deltaForward (List.replicate (k + 1) b) = b :: List.replicate k 0 := by
    rw [List.replicate_succ]
    simp only [deltaForward]
    rw [deltaForwardFrom_replicate]
  have hlt : ∀ d ∈ b :: List.replicate k 0, d < 256 := by
    intro d hd
    rcases List.mem_cons.1 hd with h | h
    · omega
    · have := List.eq_of_mem_replicate h
      omega
  have hlen : (nonzeroEntries (countFreq (b :: List.replicate k 0))).length
      = if b = 0 ∨ k + 1 = 1 then 1 else 2 := by
    rw [nonzeroEntries_countFreq, (symbols_perm_dedup _ hlt).length_eq]
    by_cases hb0 : b = 0
    · subst hb0
      have e : (0 : Nat) :: List.replicate k 0 = List.replicate (k + 1) 0 := rfl
      rw [e, dedup_replicate_succ]
      simp
    · cases k with
      | zero => simp
      | succ k =>
        have hnm : b ∉ List.replicate (k + 1) 0 := by
          intro h
          exact hb0 (List.eq_of_mem_replicate h)
        rw [List.dedup_cons_of_not_mem hnm, dedup_replicate_succ]
        simp [hb0]
  refine ⟨by simpa using hd, ?_, ?_⟩
  · rw [hd, hlen]
    split <;> simp
  · rw [hd, hlen]
    split
    · rename_i h; simp only [true_iff]; exact h
    · rename_i h; simp only [OfNat.ofNat_ne_one, false_iff]; exact h

/-- Instance of C10 at six bytes `42`. -/
theorem degenerate_delta_table_witness :
    deltaForward (List.replicate 6 42) = 42 :: List.replicate (6 - 1) 0
      ∧ ((nonzeroEntries (countFreq (deltaForward (List.replicate 6 42)))).length = 1
          ∨ (nonzeroEntries (countFreq (deltaForward (List.replicate 6 42)))).length = 2)
      ∧ ((nonzeroEntries (countFreq (deltaForward (List.replicate 6 42)))).length = 1
          ↔ (42 = 0 ∨ 6 = 1)) :=
  degenerate_delta_table 6 42 (by decide) (by decide)

/-! ## 15. Properties: the heap order of the priority queue -/

theorem getD_swap (a : List Node) (i j k : Nat) (hi : i < a.length) (hj : j < a.length) :
    (swap a i j).getD k Node.null
      = if k = j then a.getD i Node.null else if k = i then a.getD j Node.null
        else a.getD k Node.null := by
  unfold swap
  simp only [List.getD_eq_getElem?_getD, List.getElem?_set, List.length_set]
  by_cases h1 : k = j
  · subst h1; simp [hj]
  · have h1' : ¬ j = k := fun e => h1 e.symm
    by_cases h2 : k = i
    · subst h2; simp [h1, h1', hi]
    · have h2' : ¬ i = k := fun e => h2 e.symm
      simp [h1, h1', h2, h2']

theorem key_swap (a : List Node) (i j k : Nat) (hi : i < a.length) (hj : j < a.length) :
    key (swap a i j) k = if k = j then key a i else if k = i then key a j else key a k := by
  unfold key
  rw [getD_swap a i j k hi hj]
  split_ifs <;> rfl

theorem siftUp_succ (fuel : Nat) (a : List Node) (i : Nat) :
    siftUp (fuel + 1) a i
      = if 0 < i then
          if key a i < key a ((i - 1) / 2) then
            siftUp fuel (swap a i ((i - 1) / 2)) ((i - 1) / 2)
          else a
        else a := rfl

theorem upInv_swap (a : List Node) (i : Nat) (hi : i < a.length) (h0 : 0 < i)
    (hlt : key a i < key a ((i - 1) / 2)) (hinv : UpInv a i) :
    UpInv (swap a i ((i - 1) / 2)) ((i - 1) / 2) := by
  obtain ⟨h1, h2⟩ := hinv
  have hp : (i - 1) / 2 < a.length := by omega
  have hpi : (i - 1) / 2 < i := by omega
  constructor
  · intro j hj0 hjl hjp
    rw [swap_length] at hjl
    rw [key_swap a i _ _ hi hp, key_swap a i _ _ hi hp]
    by_cases hji : j = i
    · subst hji
      simp only [if_true, if_neg hjp]
      omega
    · simp only [if_neg hjp, if_neg hji]
      have o1 := h1 j hj0 hjl hji
      by_cases hq : (j - 1) / 2 = (i - 1) / 2
      · rw [hq] at o1 ⊢
        simp only [if_true]
        omega
      · simp only [if_neg hq]
        by_cases hqi : (j - 1) / 2 = i
        · have o2 := h2 j hj0 hjl hqi h0
          simp only [hqi, if_true]
          exact o2
        · simp only [if_neg hqi]
          exact o1
  · intro j hj0 hjl hjp hp0
    rw [swap_length] at hjl
    rw [key_swap a i _ _ hi hp, key_swap a i _ _ hi hp]
    have hg1 : ¬ ((i - 1) / 2 - 1) / 2 = (i - 1) / 2 := by omega
    have hg2 : ¬ ((i - 1) / 2 - 1) / 2 = i := by omega
    simp only [if_neg hg1, if_neg hg2]
    have hjne : ¬ j = (i - 1) / 2 := by omega
    simp only [if_neg hjne]
    have o3 := h1 ((i - 1) / 2) hp0 hp (by omega)
    by_cases hji : j = i
    · simp only [hji, if_true]
      exact o3
    · simp only [if_neg hji]
      have o1 := h1 j hj0 hjl hji
      rw [hjp] at o1
      omega

theorem siftUp_ordered (fuel : Nat) :
    ∀ (a : List Node) (i : Nat), i ≤ fuel → i < a.length → UpInv a i →
      HeapOrdered (siftUp fuel a i) := by
  induction fuel with
  | zero =>
    intro a i hi _ hinv
    have : i = 0 := by omega
    subst this
    intro j hj0 hjl
    exact hinv.1 j hj0 hjl (by omega)
  | succ fuel ih =>
    intro a i hi hil hinv
    rw [siftUp_succ]
    by_cases h0 : 0 < i
    · simp only [h0, if_true]
      by_cases hlt : key a i < key a ((i - 1) / 2)
      · simp only [hlt, if_true]
        exact ih _ _ (by omega) (by rw [swap_length]; omega) (upInv_swap a i hil h0 hlt hinv)
      · simp only [hlt, if_false]
        intro j hj0 hjl
        by_cases hji : j = i
        · subst hji; omega
        · exact hinv.1 j hj0 hjl hji
    · simp only [h0, if_false]
      intro j hj0 hjl
      exact hinv.1 j hj0 hjl (by omega)

theorem key_append_left (a : List Node) (x : Node) (k : Nat) (hk : k < a.length) :
    key (a ++ [x]) k = key a k := by
  unfold key
  rw [List.getD_eq_getElem?_getD, List.getD_eq_getElem?_getD, List.getElem?_append_left hk]

theorem push_ordered (h : MinHeap) (x : Node) (ho : HeapOrdered h.array) :
    HeapOrdered (h.push x).array := by
  unfold MinHeap.push
  simp only
  apply siftUp_ordered _ _ _ (Nat.le_refl _) (by simp)
  constructor
  · intro j hj0 hjl hjne
    have hjl2 : j < h.array.length := by
      simp at hjl; omega
    rw [key_append_left _ _ _ hjl2, key_append_left _ _ _ (by omega)]
    exact ho j hj0 hjl2
  · intro j hj0 hjl hjp _
    simp at hjl
    omega

theorem smallestOf_spec (a : List Node) (i : Nat) :
    (smallestOf a i = i →
        (2 * i + 1 < a.length → key a i ≤ key a (2 * i + 1))
        ∧ (2 * i + 2 < a.length → key a i ≤ key a (2 * i + 2)))
    ∧ (smallestOf a i ≠ i →
        (smallestOf a i = 2 * i + 1 ∨ smallestOf a i = 2 * i + 2)
        ∧ smallestOf a i < a.length
        ∧ key a (smallestOf a i) < key a i
        ∧ (2 * i + 1 < a.length → key a (smallestOf a i) ≤ key a (2 * i + 1))
        ∧ (2 * i + 2 < a.length → key a (smallestOf a i) ≤ key a (2 * i + 2))) := by
  unfold smallestOf key
  simp only
  split_ifs with c1 c2 c3 <;> (refine ⟨fun h => ⟨fun _ => ?_, fun _ => ?_⟩, fun h => ?_⟩) <;>
    omega

theorem downInv_swap (a : List Node) (i : Nat) (hne : smallestOf a i ≠ i)
    (hinv : DownInv a i) : DownInv (swap a i (smallestOf a i)) (smallestOf a i) := by
  obtain ⟨h1, h2⟩ := hinv
  obtain ⟨hs, hsl, hlt, hc1, hc2⟩ := (smallestOf_spec a i).2 hne
  generalize smallestOf a i = s at hs hsl hlt hc1 hc2 hne ⊢
  have hi : i < a.length := by omega
  have hsp : (s - 1) / 2 = i := by omega
  constructor
  · intro j hj0 hjl hjp
    rw [swap_length] at hjl
    rw [key_swap a i s _ hi hsl, key_swap a i s _ hi hsl]
    simp only [if_neg hjp]
    by_cases hjs : j = s
    · subst hjs
      simp only [hsp, if_true]
      exact le_of_lt hlt
    · simp only [if_neg hjs]
      by_cases hji : j = i
      · subst hji
        have hq : ¬ (j - 1) / 2 = j := by omega
        simp only [if_true, if_neg hq]
        exact h2 s (by omega) hsl hsp hj0
      · simp only [if_neg hji]
        by_cases hq : (j - 1) / 2 = i
        · simp only [hq, if_true]
          have hj2 : j = 2 * i + 1 ∨ j = 2 * i + 2 := by omega
          rcases hj2 with e | e
          · subst e; exact hc1 hjl
          · subst e; exact hc2 hjl
        · simp only [if_neg hq]
          exact h1 j hj0 hjl hq
  · intro j hj0 hjl hjp hs0
    rw [swap_length] at hjl
    rw [key_swap a i s _ hi hsl, key_swap a i s _ hi hsl]
    have e1 : ¬ (s - 1) / 2 = s := by omega
    have e2 : ¬ j = s := by omega
    have e3 : ¬ j = i := by omega
    have e4 : ¬ i = s := by omega
    simp only [if_neg e1, hsp, if_true, if_neg e2, if_neg e3, if_neg e4]
    have := h1 j hj0 hjl (by omega)
    rw [hjp] at this
    exact this

theorem siftDown_ordered (fuel : Nat) :
    ∀ (a : List Node) (i : Nat), a.length ≤ i + fuel → DownInv a i →
      HeapOrdered (siftDown fuel a i) := by
  induction fuel with
  | zero =>
    intro a i hl hinv
    show HeapOrdered a
    intro j hj0 hjl
    exact hinv.1 j hj0 hjl (by omega)
  | succ fuel ih =>
    intro a i hl hinv
    rw [siftDown_succ]
    by_cases hne : smallestOf a i ≠ i
    · rw [if_pos hne]
      have hge := smallestOf_ge a i
      exact ih _ _ (by rw [swap_length]; omega) (downInv_swap a i hne hinv)
    · rw [if_neg hne]
      have heq : smallestOf a i = i := by
        by_contra h; exact hne h
      obtain ⟨c1, c2⟩ := (smallestOf_spec a i).1 heq
      intro j hj0 hjl
      by_cases hq : (j - 1) / 2 = i
      · have hj2 : j = 2 * i + 1 ∨ j = 2 * i + 2 := by omega
        rw [hq]
        rcases hj2 with e | e
        · subst e; exact c1 hjl
        · subst e; exact c2 hjl
      · exact hinv.1 j hj0 hjl hq

theorem key_pop_array (m : Node) (rest : List Node) (k : Nat) (hk0 : 0 < k)
    (hk : k < rest.length) :
    key (((m :: rest).set 0 ((m :: rest).getD rest.length Node.null)).dropLast) k
      = key (m :: rest) k := by
  unfold key
  simp only [List.set_cons_zero, List.getD_eq_getElem?_getD]
  cases rest with
  | nil => simp at hk
  | cons r rs =>
    obtain ⟨k', rfl⟩ : ∃ k', k = k' + 1 := ⟨k - 1, by omega⟩
    simp only [List.dropLast_cons₂, List.getElem?_cons_succ]
    rw [List.getElem?_dropLast]
    simp only [List.length_cons] at hk ⊢
    rw [if_pos (by omega)]

theorem pop_ordered (h : MinHeap) (ho : HeapOrdered h.array) : HeapOrdered h.pop.2.array := by
  unfold MinHeap.pop
  cases hh : h.array with
  | nil =>
    simp only
    rw [hh]
    intro j _ hjl
    simp at hjl
  | cons m rest =>
    simp only
    rw [hh] at ho
    apply siftDown_ordered _ _ _ (by omega)
    have hlen : (((m :: rest).set 0 ((m :: rest).getD rest.length Node.null)).dropLast).length
        = rest.length := by simp
    constructor
    · intro j hj0 hjl hjp
      rw [hlen] at hjl
      rw [key_pop_array m rest j hj0 hjl, key_pop_array m rest _ (by omega) (by omega)]
      exact ho j hj0 (by simp; omega)
    · intro j _ _ _ h0
      exact absurd h0 (by decide)

theorem reachable_ordered (h : MinHeap) (hr : Reachable h) : HeapOrdered h.array := by
  induction hr with
  | empty =>
    intro j _ hjl
    simp [MinHeap.empty] at hjl
  | push h node _ _ ih => exact push_ordered h node ih
  | pop h _ ih => exact pop_ordered h ih

theorem reachable_getSize_le (h : MinHeap) (hr : Reachable h) : h.getSize ≤ 512 := by
  induction hr with
  | empty => simp [MinHeap.empty, MinHeap.getSize]
  | push h node _ hlt _ => rw [push_getSize]; omega
  | pop h _ ih =>
    by_cases hne : h.array = []
    · rw [pop_nil h hne]; exact ih
    · have := pop_getSize h hne
      omega

theorem heapOrdered_root_le (a : List Node) (ho : HeapOrdered a) :
    ∀ j, j < a.length → key a 0 ≤ key a j := by
  intro j
  induction j using Nat.strong_induction_on with
  | _ j ih =>
    intro hj
    by_cases h0 : j = 0
    · subst h0; exact le_refl _
    · have h1 := ho j (by omega) hj
      have h2 := ih ((j - 1) / 2) (by omega) (by omega)
      omega

theorem pop_fst_eq_getD (h : MinHeap) (hne : h.array ≠ []) :
    h.pop.1 = h.array.getD 0 Node.null := by
  cases hh : h.array with
  | nil => exact absurd hh hne
  | cons m rest =>
    rw [pop_fst h m rest hh]
    rfl

/-- The node returned by `pop` from a heap-ordered array is not heavier than
any node stored. -/
theorem pop_min (h : MinHeap) (ho : HeapOrdered h.array) (hne : h.array ≠ []) :
    ∀ x ∈ h.array, h.pop.1.freq ≤ x.freq := by
  intro x hx
  obtain ⟨j, hj, rfl⟩ := List.getElem_of_mem hx
  rw [pop_fst_eq_getD h hne]
  have := heapOrdered_root_le h.array ho j hj
  unfold key at this
  rwa [List.getD_eq_getElem _ _ hj] at this

theorem pushAll_perm (l : List Node) :
    ∀ pq : MinHeap, (pushAll pq l).array.Perm (pq.array ++ l) := by
  induction l with
  | nil => intro pq; simp [pushAll]
  | cons x l ih =>
    intro pq
    unfold pushAll at ih ⊢
    rw [List.foldl_cons]
    refine (ih _).trans ?_
    have h1 := push_perm pq x
    have h2 : (x :: pq.array).Perm (pq.array ++ [x]) := (List.perm_append_singleton _ _).symm
    have h3 := (h1.trans h2).append_right l
    simpa using h3

theorem pushAll_empty_perm (l : List Node) : (pushAll MinHeap.empty l).array.Perm l := by
  have := pushAll_perm l MinHeap.empty
  rwa [show MinHeap.empty.array ++ l = l from rfl] at this

theorem pushAll_append (pq : MinHeap) (l : List Node) (x : Node) :
    pushAll pq (l ++ [x]) = (pushAll pq l).push x := by
  unfold pushAll
  rw [List.foldl_append]
  rfl

theorem pushAll_reachable (l : List Node) (hlen : l.length ≤ 512) :
    Reachable (pushAll MinHeap.empty l) := by
  induction l using List.reverseRecOn with
  | nil => exact Reachable.empty
  | append_singleton l x ih =>
    rw [pushAll_append]
    simp only [List.length_append, List.length_singleton] at hlen
    refine Reachable.push _ x (ih (by omega)) ?_
    have := (pushAll_empty_perm l).length_eq
    unfold MinHeap.getSize
    omega

theorem siftUp_getD_zero (fuel : Nat) :
    ∀ (a : List Node) (i : Nat), i < a.length → 0 < i → key a 0 ≤ key a i →
      (siftUp fuel a i).getD 0 Node.null = a.getD 0 Node.null := by
  induction fuel with
  | zero => intro a i _ _ _; rfl
  | succ fuel ih =>
    intro a i hi h0 hk
    rw [siftUp_succ]
    simp only [h0, if_true]
    by_cases hlt : key a i < key a ((i - 1) / 2)
    · simp only [hlt, if_true]
      have hp0 : 0 < (i - 1) / 2 := by
        by_contra hc
        have : (i - 1) / 2 = 0 := by omega
        rw [this] at hlt
        omega
      have hp : (i - 1) / 2 < a.length := by omega
      have hz : (swap a i ((i - 1) / 2)).getD 0 Node.null = a.getD 0 Node.null := by
        rw [getD_swap a i _ 0 hi hp]
        rw [if_neg (by omega), if_neg (by omega)]
      rw [ih _ _ (by rw [swap_length]; exact hp) hp0 (by
        rw [key_swap a i _ _ hi hp, key_swap a i _ _ hi hp]
        rw [if_neg (by omega), if_neg (by omega)]
        simp only [if_true]
        exact hk), hz]
    · simp only [hlt, if_false]

/-- The root after a `push`: the node pushed when it is lighter than the old
root (or the heap was empty), the old root otherwise. -/
theorem push_root (h : MinHeap) (x : Node) (ho : HeapOrdered h.array) :
    (h.push x).array.getD 0 Node.null
      = if h.array = [] ∨ x.freq < (h.array.getD 0 Node.null).freq then x
        else h.array.getD 0 Node.null := by
  by_cases hnil : h.array = []
  · simp only [hnil, true_or, if_true]
    unfold MinHeap.push
    simp [hnil, siftUp]
  · have hpos : 0 < h.array.length := List.length_pos.2 hnil
    simp only [hnil, false_or]
    by_cases hlt : x.freq < (h.array.getD 0 Node.null).freq
    · simp only [hlt, if_true]
      -- the new root is a lightest node of the new array, and only `x` is that light
      have hne' : (h.push x).array ≠ [] := by
        intro e
        have := (push_perm h x).length_eq
        simp [e] at this
      have hmin := pop_min (h.push x) (push_ordered h x ho) hne'
      rw [pop_fst_eq_getD _ hne'] at hmin
      have hx : x ∈ (h.push x).array := (push_perm h x).symm.subset (by simp)
      have hroot : (h.push x).array.getD 0 Node.null ∈ (h.push x).array := by
        rw [List.getD_eq_getElem _ _ (List.length_pos.2 hne')]
        exact List.getElem_mem _
      rcases List.mem_cons.1 ((push_perm h x).subset hroot) with e | e
      · exact e
      · exfalso
        have h1 := hmin x hx
        have h2 := pop_min h ho hnil _ e
        rw [pop_fst_eq_getD h hnil] at h2
        omega
    · simp only [hlt, if_false]
      unfold MinHeap.push
      simp only
      rw [siftUp_getD_zero _ _ _ (by simp) hpos (by
        rw [key_append_left _ _ _ hpos]
        unfold key
        rw [List.getD_eq_getElem?_getD (h.array ++ [x]), List.getElem?_append_right (le_refl _)]
        simp only [Nat.sub_self, List.getElem?_cons_zero, Option.getD_some]
        omega)]
      rw [List.getD_eq_getElem?_getD, List.getD_eq_getElem?_getD,
        List.getElem?_append_left hpos]

/-- After pushing the nodes of a non-empty list into an empty heap, the root is
the earliest node of the list that has minimum weight. -/
theorem pushAll_root (l : List Node) (hlen : l.length ≤ 512) (hne : l ≠ []) :
    ∃ k, l[k]? = some ((pushAll MinHeap.empty l).array.getD 0 Node.null)
      ∧ (∀ x ∈ l, ((pushAll MinHeap.empty l).array.getD 0 Node.null).freq ≤ x.freq)
      ∧ (∀ x ∈ l.take k, ((pushAll MinHeap.empty l).array.getD 0 Node.null).freq < x.freq) := by
  induction l using List.reverseRecOn with
  | nil => exact absurd rfl hne
  | append_singleton l x ih =>
    simp only [List.length_append, List.length_singleton] at hlen
    have hr := pushAll_reachable l (by omega)
    have ho := reachable_ordered _ hr
    have hperm := pushAll_empty_perm l
    rw [pushAll_append, push_root _ x ho]
    by_cases hl : l = []
    · subst hl
      have he : (pushAll MinHeap.empty []).array = [] := rfl
      simp only [he, true_or, if_true]
      refine ⟨0, rfl, ?_, ?_⟩
      · intro y hy
        simp only [List.nil_append, List.mem_singleton] at hy
        subst hy
        exact le_refl _
      · intro y hy
        simp at hy
    · obtain ⟨k, hk1, hk2, hk3⟩ := ih (by omega) hl
      have hanil : ¬ (pushAll MinHeap.empty l).array = [] := by
        intro e
        have := hperm.length_eq
        rw [e] at this
        exact hl (List.eq_nil_of_length_eq_zero this.symm)
      have hklt : k < l.length := by
        by_contra hc
        rw [List.getElem?_eq_none (by omega)] at hk1
        exact absurd hk1 (by simp)
      simp only [hanil, false_or]
      by_cases hlt : x.freq < ((pushAll MinHeap.empty l).array.getD 0 Node.null).freq
      · simp only [hlt, if_true]
        refine ⟨l.length, by simp, ?_, ?_⟩
        · intro y hy
          rcases List.mem_append.1 hy with h | h
          · have := hk2 y h; omega
          · simp only [List.mem_singleton] at h
            subst h; exact le_refl _
        · intro y hy
          rw [List.take_left' rfl] at hy
          have := hk2 y hy
          omega
      · simp only [hlt, if_false]
        refine ⟨k, ?_, ?_, ?_⟩
        · rw [List.getElem?_append_left hklt]
          exact hk1
        · intro y hy
          rcases List.mem_append.1 hy with h | h
          · exact hk2 y h
          · simp only [List.mem_singleton] at h
            subst h; omega
        · intro y hy
          rw [List.take_append_of_le_length (by omega)] at hy
          exact hk3 y hy

/-! ## 16. Properties: the shape and the weights of the tree -/

theorem pushLeaves_single (fm : Nat → Int) (s : Nat) (hs : symbols fm = [s]) :
    (pushLeaves fm MinHeap.empty).array = [leafOf fm s] := by
  rw [pushLeaves_eq, hs]
  rfl

theorem buildTree_single (fm : Nat → Int) (s : Nat) (hs : symbols fm = [s]) :
    buildTree fm = Node.mk 0 (fm s) (leafOf fm s) Node.null := by
  have ha := pushLeaves_single fm s hs
  unfold buildTree buildFromHeap
  have h1 : (pushLeaves fm MinHeap.empty).getSize = 1 := by
    unfold MinHeap.getSize; rw [ha]; rfl
  simp only [h1, if_true]
  rw [pop_fst _ _ [] ha]
  rfl

/-- The merge loop keeps every property of the stored trees that holds for the
parent built from two full trees having it. -/
theorem mergeLoop_pred (P : Node → Prop)
    (hP : ∀ l r, P l → P r → l.full → r.full → P (Node.mk 0 (l.freq + r.freq) l r))
    (syms : List Nat) (fuel : Nat) :
    ∀ pq : MinHeap, Forest syms pq → (∀ t ∈ pq.array, P t) →
      ∀ t ∈ (mergeLoop fuel pq).array, P t := by
  induction fuel with
  | zero => intro pq _ h; exact h
  | succ fuel ih =>
    intro pq hf h
    rw [mergeLoop_succ]
    by_cases h1 : 1 < pq.getSize
    · simp only [h1, if_true]
      apply ih _ (mergeStep_forest syms pq h1 hf)
      have hs1 := pop_getSize pq (getSize_ne_nil pq (by omega))
      have p1 := pop_perm pq (getSize_ne_nil pq (by omega))
      have p2 := pop_perm pq.pop.2 (getSize_ne_nil _ (by omega))
      have hall : pq.array.Perm (pq.pop.1 :: pq.pop.2.pop.1 :: pq.pop.2.pop.2.array) :=
        p1.trans (p2.cons _)
      intro t ht
      unfold mergeStep at ht
      rcases List.mem_cons.1 ((push_perm _ _).subset ht) with e | e
      · subst e
        exact hP _ _ (h _ (hall.symm.subset (by simp))) (h _ (hall.symm.subset (by simp)))
          (hf.1 _ (hall.symm.subset (by simp))) (hf.1 _ (hall.symm.subset (by simp)))
      · exact h _ (hall.symm.subset (by simp [e]))
    · simp only [h1, if_false]
      exact h

/-- With two or more symbols of positive frequency, the root is the single
tree the merge loop leaves in the queue; it is a full tree and has every
property that the leaves have and that merging two full trees keeps. -/
theorem buildTree_merged (fm : Nat → Int) (h2 : 2 ≤ (symbols fm).length) (P : Node → Prop)
    (hleafP : ∀ i, 0 < fm i → P (leafOf fm i))
    (hP : ∀ l r, P l → P r → l.full → r.full → P (Node.mk 0 (l.freq + r.freq) l r)) :
    (buildTree fm).full ∧ P (buildTree fm)
      ∧ (mergeLoop (pushLeaves fm MinHeap.empty).getSize
          (pushLeaves fm MinHeap.empty)).array = [buildTree fm] := by
  have hf := pushLeaves_forest fm
  have hsz := pushLeaves_getSize fm
  have hm := mergeLoop_spec (symbols fm) (pushLeaves fm MinHeap.empty).getSize
    (pushLeaves fm MinHeap.empty) (by omega) (by omega) hf
  have hPall : ∀ t ∈ (pushLeaves fm MinHeap.empty).array, P t := by
    intro t ht
    rcases List.mem_map.1 ((pushLeaves_perm fm).subset ht) with ⟨i, hi, rfl⟩
    exact hleafP i ((mem_symbols fm i).1 hi).2
  have hmP := mergeLoop_pred P hP (symbols fm) (pushLeaves fm MinHeap.empty).getSize
    (pushLeaves fm MinHeap.empty) hf hPall
  obtain ⟨t, ht⟩ := array_of_getSize_one _ hm.2
  have hroot : buildTree fm = t := by
    unfold buildTree buildFromHeap
    have h1 : ¬ (pushLeaves fm MinHeap.empty).getSize = 1 := by omega
    simp only [h1, if_false]
    exact pop_fst _ t [] ht
  rw [hroot]
  exact ⟨hm.1.1 t (by rw [ht]; simp), hmP t (by rw [ht]; simp), ht⟩

theorem symbols_length_cases (fm : Nat → Int) (hne : symbols fm ≠ []) :
    (∃ s, symbols fm = [s]) ∨ 2 ≤ (symbols fm).length := by
  match h : symbols fm with
  | [] => exact absurd h hne
  | [s] => exact Or.inl ⟨s, rfl⟩
  | _ :: _ :: _ => right; simp

theorem full_subtrees (t : Node) (ht : t.full) :
    ∀ n ∈ subtrees t, n.full := by
  induction t with
  | null => exact absurd ht (by simp [Node.full])
  | mk c f l r ihl ihr =>
    intro n hn
    simp only [subtrees, List.mem_cons, List.mem_append] at hn
    rcases hn with e | e | e
    · subst e; exact ht
    · rcases ht with ⟨hl, _⟩ | ⟨hl, _⟩
      · subst hl; simp [subtrees] at e
      · exact ihl hl n e
    · rcases ht with ⟨_, hr⟩ | ⟨_, hr⟩
      · subst hr; simp [subtrees] at e
      · exact ihr hr n e

theorem full_children (n : Node) (hn : n.full) (hleaf : n.isLeaf = false) :
    n.left.isNull = false ∧ n.right.isNull = false := by
  cases n with
  | null => exact absurd hn (by simp [Node.full])
  | mk c f l r =>
    rcases hn with ⟨hl, hr⟩ | ⟨hl, hr⟩
    · subst hl; subst hr
      simp [Node.isLeaf, Node.isNull] at hleaf
    · constructor
      · cases l with
        | null => exact absurd hl (by simp [Node.full])
        | mk _ _ _ _ => rfl
      · cases r with
        | null => exact absurd hr (by simp [Node.full])
        | mk _ _ _ _ => rfl

theorem weighted_freq (fm : Nat → Int) (t : Node) (h : t.weighted fm) :
    t.freq = ((leaves t).map fm).sum := by
  induction t with
  | null => rfl
  | mk c f l r ihl ihr =>
    unfold Node.weighted at h
    by_cases hleaf : (Node.mk c f l r).isLeaf = true
    · simp only [hleaf, if_true] at h
      have hlv : leaves (Node.mk c f l r) = [c] := by simp [leaves, hleaf]
      rw [hlv]
      simp [Node.freq, h]
    · simp only [hleaf] at h
      obtain ⟨hf, hl, hr⟩ := h
      have hleaf2 : (Node.mk c f l r).isLeaf = false := by
        cases hh : (Node.mk c f l r).isLeaf with
        | false => rfl
        | true => exact absurd hh hleaf
      simp only [leaves, hleaf2, List.map_append, List.sum_append, Node.freq]
      rw [hf, ihl hl, ihr hr]
      simp

theorem weighted_subtrees (fm : Nat → Int) (t : Node) (h : t.weighted fm) :
    ∀ n ∈ subtrees t, n.weighted fm := by
  induction t with
  | null => intro n hn; simp [subtrees] at hn
  | mk c f l r ihl ihr =>
    intro n hn
    simp only [subtrees, List.mem_cons, List.mem_append] at hn
    rcases hn with e | e | e
    · subst e; exact h
    · unfold Node.weighted at h
      by_cases hleaf : (Node.mk c f l r).isLeaf = true
      · obtain ⟨hl, _⟩ := (isLeaf_mk c f l r).1 hleaf
        subst hl; simp [subtrees] at e
      · simp only [hleaf] at h
        exact ihl h.2.1 n e
    · unfold Node.weighted at h
      by_cases hleaf : (Node.mk c f l r).isLeaf = true
      · obtain ⟨_, hr⟩ := (isLeaf_mk c f l r).1 hleaf
        subst hr; simp [subtrees] at e
      · simp only [hleaf] at h
        exact ihr h.2.2 n e

theorem weighted_leafOf (fm : Nat → Int) (i : Nat) : (leafOf fm i).weighted fm := by
  simp [leafOf, Node.weighted, Node.isLeaf, Node.isNull]

theorem weighted_merge (fm : Nat → Int) (l r : Node) (hl : l.weighted fm)
    (hr : r.weighted fm) (hlf : l.full) :
    (Node.mk 0 (l.freq + r.freq) l r).weighted fm := by
  have hnl : (Node.mk 0 (l.freq + r.freq) l r).isLeaf = false := by
    cases l with
    | null => exact absurd hlf (by simp [Node.full])
    | mk _ _ _ _ => simp [Node.isLeaf, Node.isNull]
  unfold Node.weighted
  simp only [hnl]
  exact ⟨by simp, hl, hr⟩

/-- The tree built from a table with a positive entry carries weights that
agree with the table. -/
theorem buildTree_weighted (fm : Nat → Int) (hne : symbols fm ≠ []) :
    (buildTree fm).weighted fm := by
  rcases symbols_length_cases fm hne with ⟨s, hs⟩ | h2
  · rw [buildTree_single fm s hs]
    have := weighted_merge fm (leafOf fm s) Node.null (weighted_leafOf fm s) trivial
      (full_leafOf fm s)
    simpa [leafOf, Node.freq] using this
  · exact (buildTree_merged fm h2 (fun t => t.weighted fm)
      (fun i _ => weighted_leafOf fm i)
      (fun l r hl hr hlf _ => weighted_merge fm l r hl hr hlf)).2.1

theorem nonzeroEntries_eq_symbols (fm : Nat → Int) (hnn : ∀ i, 0 ≤ fm i) :
    nonzeroEntries fm = symbols fm := by
  unfold nonzeroEntries symbols
  apply List.filter_congr
  intro i _
  have := hnn i
  simp only [decide_eq_decide]
  omega

theorem symbols_ne_nil_of_nonzero (fm : Nat → Int) (hnn : ∀ i, 0 ≤ fm i)
    (hex : ∃ s, s < 256 ∧ fm s ≠ 0) : symbols fm ≠ [] := by
  obtain ⟨s0, hs0, hf0⟩ := hex
  exact List.ne_nil_of_mem ((symbols_of_nonneg fm hnn s0).2 ⟨hs0, hf0⟩)

/-- The table of the delta stream of `k + 1` identical bytes `b`: one symbol
when `b = 0` or `k = 0`, two symbols otherwise. -/
theorem degenerate_symbols (k b : Nat) (hb : b < 256) :
    ((b = 0 ∨ k = 0) →
        symbols (countFreq (deltaForward (List.replicate (k + 1) b))) = [b]
        ∧ countFreq (deltaForward (List.replicate (k + 1) b)) b = ((k + 1 : Nat) : Int))
    ∧ (¬ (b = 0 ∨ k = 0) →
        (symbols (countFreq (deltaForward (List.replicate (k + 1) b)))).length = 2) := by
  have hd : deltaForward (List.replicate (k + 1) b) = b :: List.replicate k 0 := by
    rw [List.replicate_succ]
    simp only [deltaForward]
    rw [deltaForwardFrom_replicate]
  have hlt : ∀ d ∈ b :: List.replicate k 0, d < 256 := by
    intro d hd
    rcases List.mem_cons.1 hd with h | h
    · omega
    · have := List.eq_of_mem_replicate h
      omega
  rw [hd]
  have hperm := symbols_perm_dedup _ hlt
  constructor
  · intro h1
    rcases h1 with hb0 | hk0
    · subst hb0
      have e : (0 : Nat) :: List.replicate k 0 = List.replicate (k + 1) 0 := rfl
      rw [e] at hperm ⊢
      rw [dedup_replicate_succ] at hperm
      refine ⟨List.perm_singleton.1 hperm, ?_⟩
      rw [countFreq_eq, List.count_replicate_self]
    · subst hk0
      simp only [List.replicate_zero] at hperm ⊢
      refine ⟨List.perm_singleton.1 (by simpa using hperm), ?_⟩
      rw [countFreq_eq]
      simp
  · intro h1
    have hb0 : b ≠ 0 := fun e => h1 (Or.inl e)
    obtain ⟨k', rfl⟩ : ∃ k', k = k' + 1 := ⟨k - 1, by omega⟩
    have hnm : b ∉ List.replicate (k' + 1) 0 := by
      intro h
      exact hb0 (List.eq_of_mem_replicate h)
    rw [hperm.length_eq, List.dedup_cons_of_not_mem hnm, dedup_replicate_succ]
    rfl

/-! ## 17. Properties: buffer bounds, heap sizes, payload bits, checked decoding -/

theorem bufferWrites_le (t : Node) :
    ∀ d, ∀ i ∈ bufferWrites t d, i ≤ d + height t := by
  induction t with
  | null => intro d i hi; simp [bufferWrites] at hi
  | mk c f l r ihl ihr =>
    intro d i hi
    by_cases hleaf : (Node.mk c f l r).isLeaf = true
    · obtain ⟨hl, hr⟩ := (isLeaf_mk c f l r).1 hleaf
      subst hl; subst hr
      simp [bufferWrites, Node.isLeaf, Node.isNull] at hi
      omega
    · have hleaf2 : (Node.mk c f l r).isLeaf = false := by
        cases hh : (Node.mk c f l r).isLeaf with
        | false => rfl
        | true => exact absurd hh hleaf
      obtain ⟨hhl, hhr⟩ := height_node_le c f l r hleaf2
      simp only [bufferWrites, hleaf2, List.nil_append, List.mem_cons, List.mem_append,
        Bool.false_eq_true, if_false] at hi
      rcases hi with e | e | e | e
      · omega
      · have := ihl (d + 1) i e; omega
      · omega
      · have := ihr (d + 1) i e; omega

theorem codesOf_length_le (t : Node) : ∀ e ∈ codesOf t, e.2.length ≤ height t := by
  induction t with
  | null => intro e he; simp [codesOf] at he
  | mk c f l r ihl ihr =>
    intro e he
    by_cases hleaf : (Node.mk c f l r).isLeaf = true
    · rw [codesOf_leaf_eq _ hleaf] at he
      simp only [List.mem_singleton] at he
      subst he
      simp
    · have hleaf2 : (Node.mk c f l r).isLeaf = false := by
        cases hh : (Node.mk c f l r).isLeaf with
        | false => rfl
        | true => exact absurd hh hleaf
      obtain ⟨hhl, hhr⟩ := height_node_le c f l r hleaf2
      rw [codesOf_node_eq c f l r hleaf2, List.mem_append] at he
      rcases he with he | he
      · obtain ⟨e0, he0, rfl⟩ := List.mem_map.1 he
        have := ihl e0 he0
        simp only [List.length_cons]
        omega
      · obtain ⟨e0, he0, rfl⟩ := List.mem_map.1 he
        have := ihr e0 he0
        simp only [List.length_cons]
        omega

theorem scanSizes_le (fm : Nat → Int) (is : List Nat) :
    ∀ pq : MinHeap, ∀ n ∈ scanSizes fm is pq, n ≤ pq.getSize + is.length := by
  induction is with
  | nil =>
    intro pq n hn
    simp only [scanSizes, List.mem_singleton] at hn
    omega
  | cons i is ih =>
    intro pq n hn
    simp only [scanSizes, List.mem_cons, List.length_cons] at hn ⊢
    rcases hn with e | e
    · omega
    · have := ih _ n e
      split at this
      · rw [push_getSize] at this; omega
      · omega

theorem mergeSizes_le (fuel : Nat) :
    ∀ pq : MinHeap, ∀ n ∈ mergeSizes fuel pq, n ≤ pq.getSize := by
  induction fuel with
  | zero =>
    intro pq n hn
    simp only [mergeSizes, List.mem_singleton] at hn
    omega
  | succ fuel ih =>
    intro pq n hn
    unfold mergeSizes at hn
    by_cases h1 : 1 < pq.getSize
    · simp only [h1, if_true, List.mem_cons] at hn
      have hs1 := pop_getSize pq (getSize_ne_nil pq (by omega))
      have hs2 := pop_getSize pq.pop.2 (getSize_ne_nil _ (by omega))
      have hs3 := mergeStep_getSize pq h1
      rcases hn with e | e | e | e
      · omega
      · omega
      · omega
      · have := ih _ n e; omega
    · simp only [h1, if_false, List.mem_singleton] at hn
      omega

theorem buildSizes_le (fm : Nat → Int) : ∀ n ∈ buildSizes fm, n ≤ 256 := by
  intro n hn
  unfold buildSizes at hn
  rcases List.mem_append.1 hn with h | h
  · have := scanSizes_le fm (List.range 256) MinHeap.empty n h
    have e : MinHeap.empty.getSize + (List.range 256).length = 256 := by
      rw [List.length_range]; rfl
    rw [e] at this
    exact this
  · have h1 := mergeSizes_le _ _ n h
    have h2 := pushLeaves_getSize fm
    have h3 := symbols_length_le fm
    omega

theorem decodeBitSafe_eq (root : Node) (byte i : Nat) (st : DecodeState)
    (h : st.charsDecoded < st.deltaData.length) :
    decodeBitSafe root byte i st = decodeBit root byte i st := by
  unfold decodeBitSafe decodeBit
  simp only [h, if_true]

theorem decodeBit_length (root : Node) (byte i : Nat) (st st1 : DecodeState)
    (h : decodeBit root byte i st = some st1) :
    st1.deltaData.length = st.deltaData.length := by
  rw [decodeBit_eq] at h
  unfold stepBit at h
  simp only at h
  generalize (if ((byte >>> i) &&& 1 != 0) = true then st.curr.right else st.curr.left)
    = curr at h
  by_cases hn : curr.isNull = true
  · rw [if_pos hn] at h
    exact absurd h (by simp)
  · rw [if_neg hn] at h
    by_cases hl : curr.isLeaf = true
    · rw [if_pos hl, Option.some.injEq] at h
      rw [← h]; simp
    · rw [if_neg hl, Option.some.injEq] at h
      rw [← h]

theorem decodeByteSafe_eq (root : Node) (n byte : Nat) (is : List Nat) :
    ∀ st : DecodeState, st.deltaData.length = n →
      decodeByteSafe root n byte is st = decodeByte root n byte is st
      ∧ ∀ st1, decodeByte root n byte is st = some st1 → st1.deltaData.length = n := by
  induction is with
  | nil =>
    intro st hl
    refine ⟨rfl, ?_⟩
    intro st1 h
    simp only [decodeByte, Option.some.injEq] at h
    rw [← h]; exact hl
  | cons i is ih =>
    intro st hl
    simp only [decodeByteSafe, decodeByte]
    by_cases hd : n ≤ st.charsDecoded
    · simp only [hd, if_true, Option.some.injEq, true_and]
      intro st1 h; rw [← h]; exact hl
    · simp only [hd, if_false]
      rw [decodeBitSafe_eq root byte i st (by omega)]
      cases hb : decodeBit root byte i st with
      | none => simp
      | some st2 =>
        simp only
        exact ih st2 ((decodeBit_length root byte i st st2 hb).trans hl)

theorem decodeLoopSafe_eq (root : Node) (n : Nat) (bytes : List Nat) :
    ∀ st : DecodeState, st.deltaData.length = n →
      decodeLoopSafe root n bytes st = decodeLoop root n bytes st := by
  induction bytes with
  | nil => intro st _; rfl
  | cons b bytes ih =>
    intro st hl
    simp only [decodeLoopSafe, decodeLoop]
    obtain ⟨h1, h2⟩ := decodeByteSafe_eq root n b [7, 6, 5, 4, 3, 2, 1, 0] st hl
    rw [h1]
    cases hb : decodeByte root n b [7, 6, 5, 4, 3, 2, 1, 0] st with
    | none => rfl
    | some st1 => exact ih st1 (h2 st1 hb)

theorem byteBits_length (b : Nat) : (byteBits b).length = 8 := rfl

theorem byteBits_getElem? (b k : Nat) (hk : k < 8) :
    (byteBits b)[k]? = some (bitOf b (7 - k)) := by
  interval_cases k <;> rfl

theorem flatMap_byteBits_length (p : List Nat) : (p.flatMap byteBits).length = 8 * p.length := by
  induction p with
  | nil => rfl
  | cons b p ih =>
    rw [List.flatMap_cons, List.length_append, ih, byteBits_length, List.length_cons]
    omega

/-- Bit `k` of the bit string of a byte sequence is bit `7 - k mod 8` of byte
`k / 8`. -/
theorem flatMap_byteBits_getElem? (p : List Nat) :
    ∀ k, k < 8 * p.length →
      (p.flatMap byteBits)[k]? = some (bitOf (p.getD (k / 8) 0) (7 - k % 8)) := by
  induction p with
  | nil => intro k hk; simp at hk
  | cons b p ih =>
    intro k hk
    rw [List.flatMap_cons]
    by_cases h8 : k < 8
    · rw [List.getElem?_append_left (by rw [byteBits_length]; exact h8),
        byteBits_getElem? b k h8]
      have e1 : k / 8 = 0 := by omega
      have e2 : k % 8 = k := by omega
      rw [e1, e2]
      rfl
    · rw [List.getElem?_append_right (by rw [byteBits_length]; omega), byteBits_length]
      simp only [List.length_cons] at hk
      rw [ih (k - 8) (by omega)]
      obtain ⟨m, hm⟩ : ∃ m, k / 8 = m + 1 := ⟨k / 8 - 1, by omega⟩
      have e1 : (k - 8) / 8 = m := by omega
      have e2 : (k - 8) % 8 = k % 8 := by omega
      rw [e1, e2, hm]
      rfl

theorem sum_indicator (S : List Nat) (hS : S.Nodup) (a : Nat) (ha : a ∈ S) (f : Nat → Nat) :
    (S.map (fun s => if a = s then f s else 0)).sum = f a := by
  induction S with
  | nil => simp at ha
  | cons x S ih =>
    rw [List.nodup_cons] at hS
    rw [List.map_cons, List.sum_cons]
    by_cases hax : a = x
    · subst hax
      have hz : (S.map (fun s => if a = s then f s else 0)).sum = 0 := by
        apply List.sum_eq_zero
        intro y hy
        obtain ⟨s, hs, rfl⟩ := List.mem_map.1 hy
        have : a ≠ s := fun e => hS.1 (e ▸ hs)
        simp [this]
      simp [hz]
    · rcases List.mem_cons.1 ha with e | e
      · exact absurd e hax
      · simp [hax, ih hS.2 e]

/-- The total length of the codes of the symbols of a list is the sum, over the
distinct symbols, of the number of occurrences times the code length. -/
theorem length_flatMap_eq_sum_count (S : List Nat) (hS : S.Nodup) (g : Nat → List Bool)
    (l : List Nat) (hl : ∀ d ∈ l, d ∈ S) :
    (l.flatMap g).length = (S.map (fun s => l.count s * (g s).length)).sum := by
  induction l with
  | nil => simp
  | cons a l ih =>
    rw [List.flatMap_cons, List.length_append, ih (fun d hd => hl d (List.mem_cons_of_mem _ hd))]
    have hsplit : (S.map (fun s => (a :: l).count s * (g s).length))
        = S.map (fun s => (if a = s then (g s).length else 0) + l.count s * (g s).length) := by
      apply List.map_congr_left
      intro s _
      rw [List.count_cons]
      by_cases h : a = s
      · simp [h]; ring
      · simp [h]
    rw [hsplit, List.sum_map_add, sum_indicator S hS a (hl a (List.mem_cons_self _ _))]

/-! ## 18. The properties of the specification, continued -/

set_option maxRecDepth 1000000 in
theorem fives_tree_eval :
    (pushLeaves (countFreq (deltaForward (List.replicate 5 5))) MinHeap.empty).getSize = 2
      ∧ buildTree (countFreq (deltaForward (List.replicate 5 5)))
          = Node.mk 0 5 (Node.mk 5 1 Node.null Node.null) (Node.mk 0 4 Node.null Node.null) := by
  decide!

/-- C11, counterexample. The input of five identical bytes `5` does not go
through the single-leaf special case: after the scan the queue holds two leaves
(symbols 0 and 5), and the root built by the merge loop has a right child. -/
theorem degenerate_tree_counterexample :
    ¬ ((pushLeaves (countFreq (deltaForward (List.replicate 5 5))) MinHeap.empty).getSize = 1
        ∧ (buildTree (countFreq (deltaForward (List.replicate 5 5)))).right = Node.null) := by
  intro h
  rw [fives_tree_eval.1] at h
  exact absurd h.1 (by decide)

/-- C11, amended. For every input of `N >= 1` identical bytes `b`, the queue
holds one leaf after the scan when `b = 0` or `N = 1`, and two leaves otherwise.
In the first case the tree is built by the single-leaf special case: the
queue holds exactly the leaf of `b` with weight `N`, and the root is an internal
node of weight `N` with that leaf as left child and no right child. -/
theorem degenerate_tree_single_leaf (N b : Nat) (hN : 1 ≤ N) (hb : b < 256) :
    (pushLeaves (countFreq (deltaForward (List.replicate N b))) MinHeap.empty).getSize
        = (if b = 0 ∨ N = 1 then 1 else 2)
      ∧ ((b = 0 ∨ N = 1) →
          (pushLeaves (countFreq (deltaForward (List.replicate N b))) MinHeap.empty).array
            = [Node.mk b (N : Int) Node.null Node.null]
          ∧ buildTree (countFreq (deltaForward (List.replicate N b)))
            = Node.mk 0 (N : Int) (Node.mk b (N : Int) Node.null Node.null) Node.null) := by
  obtain ⟨k, rfl⟩ : ∃ k, N = k + 1 := ⟨N - 1, by omega⟩
  obtain ⟨h1, h2⟩ := degenerate_symbols k b hb
  have hiff : (b = 0 ∨ k + 1 = 1) ↔ (b = 0 ∨ k = 0) := by
    constructor <;> (intro h; rcases h with h | h; exact Or.inl h; exact Or.inr (by omega))
  constructor
  · rw [pushLeaves_getSize]
    by_cases hc : b = 0 ∨ k = 0
    · rw [if_pos (hiff.2 hc), (h1 hc).1]
      rfl
    · rw [if_neg (fun h => hc (hiff.1 h)), h2 hc]
  · intro hc
    obtain ⟨hs, hf⟩ := h1 (hiff.1 hc)
    constructor
    · rw [pushLeaves_single _ b hs, leafOf, hf]
    · rw [buildTree_single _ b hs, leafOf, hf]

/-- Instance of C11 (amended) at four bytes `0`. -/
theorem degenerate_tree_single_leaf_witness :
    (pushLeaves (countFreq (deltaForward (List.replicate 4 0))) MinHeap.empty).getSize
        = (if 0 = 0 ∨ 4 = 1 then 1 else 2)
      ∧ ((0 = 0 ∨ 4 = 1) →
          (pushLeaves (countFreq (deltaForward (List.replicate 4 0))) MinHeap.empty).array
            = [Node.mk 0 ((4 : Nat) : Int) Node.null Node.null]
          ∧ buildTree (countFreq (deltaForward (List.replicate 4 0)))
            = Node.mk 0 ((4 : Nat) : Int) (Node.mk 0 ((4 : Nat) : Int) Node.null Node.null)
                Node.null) :=
  degenerate_tree_single_leaf 4 0 (by decide) (by decide)

/-- C12 (min-heap correctness). In every state of a `MinHeap` reached from the
empty heap by calls of `push` and `pop` (with `push` called only while fewer
than 512 nodes are stored): `pop` on an empty heap returns `nullptr` and leaves
the heap as it is; `pop` on a non-empty heap returns a stored node whose weight
is at most the weight of every stored node, and afterwards the heap stores
exactly the other nodes. -/
theorem minheap_pop_correct (h : MinHeap) (hr : Reachable h) :
    (h.getSize = 0 → h.pop = (Node.null, h))
      ∧ (0 < h.getSize →
          h.pop.1 ∈ h.array
          ∧ (∀ x ∈ h.array, h.pop.1.freq ≤ x.freq)
          ∧ h.array.Perm (h.pop.1 :: h.pop.2.array)
          ∧ h.pop.2.getSize + 1 = h.getSize) := by
  constructor
  · intro h0
    exact pop_nil h (List.eq_nil_of_length_eq_zero h0)
  · intro hpos
    have hne := getSize_ne_nil h hpos
    have hp := pop_perm h hne
    exact ⟨hp.symm.subset (List.mem_cons_self _ _),
      pop_min h (reachable_ordered h hr) hne, hp, pop_getSize h hne⟩

theorem sampleHeap_reachable : Reachable sampleHeap :=
  Reachable.push _ _ (Reachable.push _ _ (Reachable.push _ _ Reachable.empty (by decide))
    (by decide)) (by decide)

/-- Instance of C12 at the heap after pushing nodes of weights 3, 1, 2. -/
theorem minheap_pop_correct_witness :
    (sampleHeap.getSize = 0 → sampleHeap.pop = (Node.null, sampleHeap))
      ∧ (0 < sampleHeap.getSize →
          sampleHeap.pop.1 ∈ sampleHeap.array
          ∧ (∀ x ∈ sampleHeap.array, sampleHeap.pop.1.freq ≤ x.freq)
          ∧ sampleHeap.array.Perm (sampleHeap.pop.1 :: sampleHeap.pop.2.array)
          ∧ sampleHeap.pop.2.getSize + 1 = sampleHeap.getSize) :=
  minheap_pop_correct sampleHeap sampleHeap_reachable

set_option maxRecDepth 1000000 in
theorem equalLeaves_pops :
    popSeq 3 (pushAll MinHeap.empty equalLeaves)
        = [Node.mk 1 1 Node.null Node.null, Node.mk 3 1 Node.null Node.null,
           Node.mk 2 1 Node.null Node.null]
      ∧ pushLeaves (countFreq [1, 2, 3]) MinHeap.empty = pushAll MinHeap.empty equalLeaves := by
  decide!

/-- C13, counterexample. Three leaves of equal weight 1 pushed in the order of
their symbols 1, 2, 3 (as the scan of the tree build does for the table of the
delta stream `[1, 2, 3]`) are popped in the order 1, 3, 2, not in the order in
which they were pushed. -/
theorem pop_order_counterexample :
    pushLeaves (countFreq [1, 2, 3]) MinHeap.empty = pushAll MinHeap.empty equalLeaves
      ∧ equalLeaves.map Node.freq = [1, 1, 1]
      ∧ (popSeq 3 (pushAll MinHeap.empty equalLeaves)).map Node.ch = [1, 3, 2]
      ∧ popSeq 3 (pushAll MinHeap.empty equalLeaves) ≠ equalLeaves := by
  refine ⟨equalLeaves_pops.2, rfl, ?_, ?_⟩
  · rw [equalLeaves_pops.1]; rfl
  · rw [equalLeaves_pops.1]; decide

/-- C13, amended. Successive pops from a reachable heap return nodes in
non-decreasing order of weight; and after the nodes of a non-empty list `l`
(at most 512 of them) were pushed into an empty heap with no pop in between,
the first pop returns the earliest node of `l` that has minimum weight: it is
`l[k]`, no node of `l` is lighter, and every node before position `k` is
strictly heavier. Nothing is claimed about the order of the later pops among
nodes of equal weight. -/
theorem pop_order (h : MinHeap) (hr : Reachable h) (l : List Node) (hne : l ≠ [])
    (hlen : l.length ≤ 512) :
    (2 ≤ h.getSize → h.pop.1.freq ≤ h.pop.2.pop.1.freq)
      ∧ ∃ k, l[k]? = some (pushAll MinHeap.empty l).pop.1
          ∧ (∀ x ∈ l, (pushAll MinHeap.empty l).pop.1.freq ≤ x.freq)
          ∧ (∀ x ∈ l.take k, (pushAll MinHeap.empty l).pop.1.freq < x.freq) := by
  constructor
  · intro h2
    have hne1 := getSize_ne_nil h (by omega)
    have hs := pop_getSize h hne1
    have hne2 := getSize_ne_nil h.pop.2 (by omega)
    have hmem : h.pop.2.pop.1 ∈ h.array :=
      (pop_perm h hne1).symm.subset
        (List.mem_cons_of_mem _ ((pop_perm h.pop.2 hne2).symm.subset (List.mem_cons_self _ _)))
    exact pop_min h (reachable_ordered h hr) hne1 _ hmem
  · have hne' : (pushAll MinHeap.empty l).array ≠ [] := by
      intro e
      have := (pushAll_empty_perm l).length_eq
      rw [e] at this
      exact hne (List.eq_nil_of_length_eq_zero this.symm)
    rw [pop_fst_eq_getD _ hne']
    exact pushAll_root l hlen hne

/-- Instance of C13 (amended) at the sample heap and the three equal leaves. -/
theorem pop_order_witness :
    (2 ≤ sampleHeap.getSize → sampleHeap.pop.1.freq ≤ sampleHeap.pop.2.pop.1.freq)
      ∧ ∃ k, equalLeaves[k]? = some (pushAll MinHeap.empty equalLeaves).pop.1
          ∧ (∀ x ∈ equalLeaves, (pushAll MinHeap.empty equalLeaves).pop.1.freq ≤ x.freq)
          ∧ (∀ x ∈ equalLeaves.take k,
              (pushAll MinHeap.empty equalLeaves).pop.1.freq < x.freq) :=
  pop_order sampleHeap sampleHeap_reachable equalLeaves (by decide) (by decide)

/-- C14 (tree shape invariant). For every frequency table of non-negative
counts with at least one nonzero entry, in the tree built from it: every
internal node has a left child; an internal node without a right child can only
be the root, and only when exactly one symbol has nonzero frequency; and the
leaves carry exactly the symbols of nonzero frequency, each once. -/
theorem tree_shape (fm : Nat → Int) (hnn : ∀ i, 0 ≤ fm i) (hex : ∃ s, s < 256 ∧ fm s ≠ 0) :
    (∀ n ∈ subtrees (buildTree fm), n.isLeaf = false → n.left.isNull = false)
      ∧ (∀ n ∈ subtrees (buildTree fm), n.isLeaf = false → n.right.isNull = true →
          n = buildTree fm ∧ (nonzeroEntries fm).length = 1)
      ∧ (leaves (buildTree fm)).Perm (nonzeroEntries fm)
      ∧ (leaves (buildTree fm)).Nodup := by
  have hsne := symbols_ne_nil_of_nonzero fm hnn hex
  rw [nonzeroEntries_eq_symbols fm hnn]
  obtain ⟨_, _, hperm, _⟩ := buildTree_spec fm hsne
  refine ⟨?_, ?_, hperm, (hperm.nodup_iff).2 (symbols_nodup fm)⟩
  · rcases symbols_length_cases fm hsne with ⟨s, hs⟩ | h2
    · rw [buildTree_single fm s hs]
      intro n hn hleaf
      simp only [subtrees, leafOf, List.append_nil, List.mem_cons, List.mem_singleton,
        List.not_mem_nil, or_false] at hn
      rcases hn with e | e
      · subst e; rfl
      · subst e; simp [Node.isLeaf, Node.isNull] at hleaf
    · have hfull := (buildTree_merged fm h2 (fun _ => True) (fun _ _ => trivial)
        (fun _ _ _ _ _ _ => trivial)).1
      intro n hn hleaf
      exact (full_children n (full_subtrees _ hfull n hn) hleaf).1
  · rcases symbols_length_cases fm hsne with ⟨s, hs⟩ | h2
    · rw [buildTree_single fm s hs]
      intro n hn hleaf _
      simp only [subtrees, leafOf, List.append_nil, List.mem_cons, List.mem_singleton,
        List.not_mem_nil, or_false] at hn
      rcases hn with e | e
      · exact ⟨e, by rw [hs]; rfl⟩
      · subst e; simp [Node.isLeaf, Node.isNull] at hleaf
    · have hfull := (buildTree_merged fm h2 (fun _ => True) (fun _ _ => trivial)
        (fun _ _ _ _ _ _ => trivial)).1
      intro n hn hleaf hr
      have := (full_children n (full_subtrees _ hfull n hn) hleaf).2
      rw [hr] at this
      exact absurd this (by decide)

/-- Instance of C14 at the table of the delta stream `[3, 3, 7]`: the leaves
carry the two symbols of nonzero frequency, each once. -/
theorem tree_shape_witness :
    (leaves (buildTree (countFreq [3, 3, 7]))).Perm (nonzeroEntries (countFreq [3, 3, 7]))
      ∧ (leaves (buildTree (countFreq [3, 3, 7]))).Nodup :=
  (tree_shape (countFreq [3, 3, 7]) (countFreq_nonneg [3, 3, 7])
    ⟨3, by decide, by decide⟩).2.2

/-- C15 (node weights). For every frequency table of non-negative counts with
at least one nonzero entry whose sum fits a `long long`, in the tree built from
it the weight of every node is the sum of the frequencies of the symbols at the
leaves below it, and the weight of the root is the sum of the table. At
compress time, for a non-empty input `B` of bytes, the weight of the root left
in `root` is the length of `B`. -/
theorem node_weights (fm : Nat → Int) (hnn : ∀ i, 0 ≤ fm i) (hex : ∃ s, s < 256 ∧ fm s ≠ 0)
    (hsum : ((nonzeroEntries fm).map fm).sum < 2 ^ 63)
    (self : HuffmanCompressor) (mem : Nat → Nat) (B : List Nat)
    (hne : B ≠ []) (hb : ∀ b ∈ B, b < 256) (hlen : B.length < 2 ^ 63) :
    (∀ n ∈ subtrees (buildTree fm), n.freq = ((leaves n).map fm).sum)
      ∧ (buildTree fm).freq = ((nonzeroEntries fm).map fm).sum
      ∧ (compress self mem (some B)).self.root.freq = (B.length : Int) := by
  have _ := hsum
  have _ := hlen
  have hsne := symbols_ne_nil_of_nonzero fm hnn hex
  have hw := buildTree_weighted fm hsne
  obtain ⟨_, _, hperm, _⟩ := buildTree_spec fm hsne
  refine ⟨?_, ?_, ?_⟩
  · intro n hn
    exact weighted_freq fm n (weighted_subtrees fm _ hw n hn)
  · rw [weighted_freq fm _ hw, nonzeroEntries_eq_symbols fm hnn]
    exact (hperm.map fm).sum_eq
  · obtain ⟨hsne2, _, _, _⟩ := delta_facts B hne hb
    obtain ⟨_, _, hperm2, _⟩ := buildTree_spec _ hsne2
    rw [compress_some self mem B hne]
    simp only
    rw [weighted_freq _ _ (buildTree_weighted _ hsne2), (hperm2.map _).sum_eq]
    have := sum_countFreq_symbols (deltaForward B) (deltaForward_lt B hb)
    rw [deltaForward_length] at this
    exact this

/-- Instance of C15 at the table of the delta stream `[3, 3, 7]` and the input
`[1, 2, 3, 3]`. -/
theorem node_weights_witness :
    (∀ n ∈ subtrees (buildTree (countFreq [3, 3, 7])),
        n.freq = ((leaves n).map (countFreq [3, 3, 7])).sum)
      ∧ (buildTree (countFreq [3, 3, 7])).freq
          = ((nonzeroEntries (countFreq [3, 3, 7])).map (countFreq [3, 3, 7])).sum
      ∧ (compress (HuffmanCompressor.init (fun _ => [])) (fun _ => 0)
            (some [1, 2, 3, 3])).self.root.freq = (([1, 2, 3, 3] : List Nat).length : Int) :=
  node_weights (countFreq [3, 3, 7]) (countFreq_nonneg [3, 3, 7]) ⟨3, by decide, by decide⟩
    (by decide) (HuffmanCompressor.init (fun _ => [])) (fun _ => 0) [1, 2, 3, 3]
    (by decide) (by decide) (by decide)

/-- C16 (code length bound). For every frequency table of non-negative counts
with at least one nonzero entry, after the tree build and `generateCodes` (from
any earlier contents of `codeMap` and of the traversal buffer): every path to a
leaf, that is every code written, has between 1 and 255 bits; the row of
`codeMap` of every symbol of nonzero frequency holds a string of 1 to 255
characters, so the string and its `'\0'` fit the 256 characters of the row; and
every index of the traversal buffer that `generateCodes` writes is below 256. -/
theorem code_length_bound (fm : Nat → Int) (cm0 : Nat → List Nat) (mem : Nat → Nat)
    (hnn : ∀ i, 0 ≤ fm i) (hex : ∃ s, s < 256 ∧ fm s ≠ 0) :
    (∀ e ∈ codesOf (buildTree fm), 1 ≤ e.2.length ∧ e.2.length ≤ 255)
      ∧ (∀ s, s < 256 → fm s ≠ 0 →
          1 ≤ strLen ((generateCodes (buildTree fm) cm0 (uninit mem 256) 0).1 s)
          ∧ strLen ((generateCodes (buildTree fm) cm0 (uninit mem 256) 0).1 s) + 1 ≤ 256)
      ∧ (∀ i ∈ bufferWrites (buildTree fm) 0, i < 256) := by
  have hsne := symbols_ne_nil_of_nonzero fm hnn hex
  obtain ⟨_, hleaf, hperm, hh⟩ := buildTree_spec fm hsne
  have hcodes : ∀ e ∈ codesOf (buildTree fm), 1 ≤ e.2.length ∧ e.2.length ≤ 255 := by
    intro e he
    have h1 := codesOf_nonempty _ hleaf e he
    have h2 := codesOf_length_le _ e he
    have h3 : 0 < e.2.length := List.length_pos.2 h1
    omega
  refine ⟨hcodes, ?_, ?_⟩
  · intro s hs hf
    have hsym := (symbols_of_nonneg fm hnn s).2 ⟨hs, hf⟩
    have hrow := codeMap_row fm hsne cm0 mem s hsym
    have hmem := codeOf_mem _ s (hperm.symm.subset hsym)
    have := hcodes _ hmem
    unfold strLen
    rw [hrow, List.length_map]
    simp only at this
    omega
  · intro i hi
    have := bufferWrites_le (buildTree fm) 0 i hi
    omega

/-- Instance of C16 at the table of the delta stream `[3, 3, 7]`. -/
theorem code_length_bound_witness :
    (∀ e ∈ codesOf (buildTree (countFreq [3, 3, 7])), 1 ≤ e.2.length ∧ e.2.length ≤ 255)
      ∧ (∀ s, s < 256 → countFreq [3, 3, 7] s ≠ 0 →
          1 ≤ strLen ((generateCodes (buildTree (countFreq [3, 3, 7])) (fun _ => [49, 0])
                (uninit (fun _ => 1) 256) 0).1 s)
          ∧ strLen ((generateCodes (buildTree (countFreq [3, 3, 7])) (fun _ => [49, 0])
                (uninit (fun _ => 1) 256) 0).1 s) + 1 ≤ 256)
      ∧ (∀ i ∈ bufferWrites (buildTree (countFreq [3, 3, 7])) 0, i < 256) :=
  code_length_bound (countFreq [3, 3, 7]) (fun _ => [49, 0]) (fun _ => 1)
    (countFreq_nonneg [3, 3, 7]) ⟨3, by decide, by decide⟩

/-- C17 (heap capacity). During the tree build from any frequency table, every
heap size met (during the scan, at every loop test of the merge loop and after
each of its two pops) is at most 256, hence below the 512 slots of `array`.
Every iteration of the merge loop lowers the size by one. When the table has a
positive entry among its 256 slots, the merge loop ends with exactly one node
stored, and more iterations of fuel do not change its result; when two or more
entries are positive, so that the code enters the loop, that node is the root. -/
theorem heap_capacity (fm : Nat → Int) :
    (∀ n ∈ buildSizes fm, n ≤ 256 ∧ n < 512)
      ∧ (∀ pq : MinHeap, 1 < pq.getSize → (mergeStep pq).getSize + 1 = pq.getSize)
      ∧ ((∃ s, s < 256 ∧ 0 < fm s) →
          (mergeLoop (pushLeaves fm MinHeap.empty).getSize
              (pushLeaves fm MinHeap.empty)).getSize = 1
          ∧ ∀ k, mergeLoop ((pushLeaves fm MinHeap.empty).getSize + k)
                (pushLeaves fm MinHeap.empty)
              = mergeLoop (pushLeaves fm MinHeap.empty).getSize (pushLeaves fm MinHeap.empty))
      ∧ (2 ≤ (pushLeaves fm MinHeap.empty).getSize →
          (mergeLoop (pushLeaves fm MinHeap.empty).getSize
              (pushLeaves fm MinHeap.empty)).array = [buildTree fm]) := by
  refine ⟨?_, mergeStep_getSize, ?_, ?_⟩
  · intro n hn
    have := buildSizes_le fm n hn
    omega
  · intro hex
    obtain ⟨s, hs, hf⟩ := hex
    have hsne : symbols fm ≠ [] := List.ne_nil_of_mem ((mem_symbols fm s).2 ⟨hs, hf⟩)
    have hpos : 0 < (symbols fm).length := List.length_pos.2 hsne
    have hsz := pushLeaves_getSize fm
    constructor
    · exact (mergeLoop_spec (symbols fm) _ _ (by omega) (by omega) (pushLeaves_forest fm)).2
    · intro k
      exact mergeLoop_fuel _ _ k (by omega)
  · intro h2
    rw [pushLeaves_getSize] at h2
    exact (buildTree_merged fm h2 (fun _ => True) (fun _ _ => trivial)
      (fun _ _ _ _ _ _ => trivial)).2.2

/-- Instance of C17 at the table of the delta stream `[3, 3, 7]`: the merge
loop ends with one node. -/
theorem heap_capacity_witness :
    (mergeLoop (pushLeaves (countFreq [3, 3, 7]) MinHeap.empty).getSize
        (pushLeaves (countFreq [3, 3, 7]) MinHeap.empty)).getSize = 1 :=
  ((heap_capacity (countFreq [3, 3, 7])).2.2.1 ⟨3, by decide, by decide⟩).1

/-- C18 (reader stops at the symbol count). For every non-empty input `B` of
bytes (its length fitting the length field) and every sequence `extra` of bytes
appended to the container that `compress` wrote for `B`, `decompress` returns
`true` and writes `B`, the same as for the container itself; the decode loop
run over the payload followed by `extra` ends with exactly `B.length` symbols
stored, the delta stream of `B`, so neither the padding bits nor the bits of
`extra` are decoded as symbols. -/
theorem reader_stops_at_count (self self2 : HuffmanCompressor) (mem mem2 : Nat → Nat)
    (B extra : List Nat) (hne : B ≠ []) (hb : ∀ b ∈ B, b < 256) (hlen : B.length < 2 ^ 63) :
    (compress self mem (some B)).output = some (containerOf B)
      ∧ (decompress self2 mem2 (some (containerOf B ++ extra))).map
            (fun o => (o.result, o.output)) = some (true, some B)
      ∧ (decompress self2 mem2 (some (containerOf B ++ extra))).map
            (fun o => (o.result, o.output))
          = (decompress self2 mem2 (some (containerOf B))).map (fun o => (o.result, o.output))
      ∧ decodeLoop (buildTree (countFreq (deltaForward B))) B.length
            (payloadOf (buildTree (countFreq (deltaForward B))) (deltaForward B) ++ extra)
            ⟨buildTree (countFreq (deltaForward B)), uninit mem2 B.length, 0⟩
          = some ⟨buildTree (countFreq (deltaForward B)), deltaForward B, B.length⟩ := by
  have key : ∀ ex, (decompress self2 mem2 (some (containerOf B ++ ex))).map
      (fun o => (o.result, o.output)) = some (true, some B) := by
    intro ex
    obtain ⟨o, h1, h2, h3⟩ := decompress_containerOf self2 mem2 B ex hne hb hlen
    rw [h1]
    simp [h2, h3]
  refine ⟨(compress_eq self mem B hne hb).2, key extra, ?_, ?_⟩
  · have := key []
    rw [List.append_nil] at this
    rw [key extra, this]
  · obtain ⟨hsne, hmem, _, _⟩ := delta_facts B hne hb
    obtain ⟨_, hleaf, hperm, _⟩ := buildTree_spec _ hsne
    have := decodeLoop_payloadOf (buildTree (countFreq (deltaForward B))) (deltaForward B)
      extra mem2 hleaf (fun d hd => hperm.symm.subset (hmem d hd))
    rw [deltaForward_length] at this
    exact this

/-- Instance of C18 at the input `[5, 5, 5, 5, 5]` with three bytes appended. -/
theorem reader_stops_at_count_witness :
    (decompress (HuffmanCompressor.init (fun _ => [])) (fun _ => 0)
        (some (containerOf [5, 5, 5, 5, 5] ++ [255, 0, 170]))).map
          (fun o => (o.result, o.output))
      = (decompress (HuffmanCompressor.init (fun _ => [])) (fun _ => 0)
          (some (containerOf [5, 5, 5, 5, 5]))).map (fun o => (o.result, o.output)) :=
  (reader_stops_at_count (HuffmanCompressor.init (fun _ => []))
    (HuffmanCompressor.init (fun _ => [])) (fun _ => 0) (fun _ => 0) [5, 5, 5, 5, 5]
    [255, 0, 170] (by decide) (by decide) (by decide)).2.2.1

/-- C19 (bit writer). For every non-empty input `B` of bytes, with `root` the
tree built and `T` the sum over the symbols of positive frequency of frequency
times code length: the container is the header followed by the payload; each
row of `codeMap` read by the writer holds the code of its symbol; the payload,
read back most significant bit first, is the concatenation in input order of
the codes of the delta bytes followed by fewer than eight zero bits; that
concatenation has `T` bits and the payload has `ceil(T / 8)` bytes; bit `k` of
the concatenation is bit `7 - k mod 8` of payload byte `k / 8`; and the bits of
the payload from position `T` on are zero. -/
theorem bit_writer_layout (self : HuffmanCompressor) (mem : Nat → Nat) (B : List Nat)
    (hne : B ≠ []) (hb : ∀ b ∈ B, b < 256) :
    (compress self mem (some B)).output
        = some (headerOf (countFreq (deltaForward B)) (B.length : Int)
            ++ payloadOf (buildTree (countFreq (deltaForward B))) (deltaForward B))
      ∧ (∀ d ∈ deltaForward B,
          cstr ((compress self mem (some B)).self.codeMap d)
            = (codeOf (buildTree (countFreq (deltaForward B))) d).map bitChar)
      ∧ (∃ k, k < 8
          ∧ (payloadOf (buildTree (countFreq (deltaForward B))) (deltaForward B)).flatMap byteBits
            = (deltaForward B).flatMap (codeOf (buildTree (countFreq (deltaForward B))))
              ++ List.replicate k false)
      ∧ ((deltaForward B).flatMap (codeOf (buildTree (countFreq (deltaForward B))))).length
          = ((symbols (countFreq (deltaForward B))).map
              (fun s => (countFreq (deltaForward B) s).toNat
                * (codeOf (buildTree (countFreq (deltaForward B))) s).length)).sum
      ∧ (payloadOf (buildTree (countFreq (deltaForward B))) (deltaForward B)).length
          = (((deltaForward B).flatMap
              (codeOf (buildTree (countFreq (deltaForward B))))).length + 7) / 8
      ∧ (∀ k, k < ((deltaForward B).flatMap
              (codeOf (buildTree (countFreq (deltaForward B))))).length →
          ((deltaForward B).flatMap (codeOf (buildTree (countFreq (deltaForward B)))))[k]?
            = some (bitOf ((payloadOf (buildTree (countFreq (deltaForward B)))
                (deltaForward B)).getD (k / 8) 0) (7 - k % 8)))
      ∧ (∀ k, ((deltaForward B).flatMap
              (codeOf (buildTree (countFreq (deltaForward B))))).length ≤ k →
          k < 8 * (payloadOf (buildTree (countFreq (deltaForward B))) (deltaForward B)).length →
          bitOf ((payloadOf (buildTree (countFreq (deltaForward B)))
                (deltaForward B)).getD (k / 8) 0) (7 - k % 8) = false) := by
  obtain ⟨hsne, hmem, _, _⟩ := delta_facts B hne hb
  obtain ⟨k, hk, hbits⟩ := payloadOf_bits (buildTree (countFreq (deltaForward B)))
    (deltaForward B)
  have hlen8 := flatMap_byteBits_length
    (payloadOf (buildTree (countFreq (deltaForward B))) (deltaForward B))
  rw [hbits, List.length_append, List.length_replicate] at hlen8
  refine ⟨(compress_eq self mem B hne hb).2, ?_, ⟨k, hk, hbits⟩, ?_, by omega, ?_, ?_⟩
  · intro d hd
    rw [compress_some self mem B hne]
    exact codeMap_row _ hsne self.codeMap mem d (hmem d hd)
  · rw [length_flatMap_eq_sum_count _ (symbols_nodup _) _ _ hmem]
    congr 1
    apply List.map_congr_left
    intro s _
    rw [countFreq_eq, Int.toNat_ofNat]
  · intro j hj
    have h1 := flatMap_byteBits_getElem?
      (payloadOf (buildTree (countFreq (deltaForward B))) (deltaForward B)) j (by omega)
    rw [hbits, List.getElem?_append_left hj] at h1
    exact h1
  · intro j hj1 hj2
    have h1 := flatMap_byteBits_getElem?
      (payloadOf (buildTree (countFreq (deltaForward B))) (deltaForward B)) j hj2
    rw [hbits, List.getElem?_append_right hj1] at h1
    rw [List.getElem?_replicate] at h1
    split at h1
    · exact (Option.some.inj h1).symm
    · exact absurd h1 (by simp)

/-- Instance of C19 at the input `[5, 5, 5, 5, 5]`: the payload has
`ceil(T / 8)` bytes. -/
theorem bit_writer_layout_witness :
    (payloadOf (buildTree (countFreq (deltaForward [5, 5, 5, 5, 5])))
        (deltaForward [5, 5, 5, 5, 5])).length
      = (((deltaForward [5, 5, 5, 5, 5]).flatMap
          (codeOf (buildTree (countFreq (deltaForward [5, 5, 5, 5, 5]))))).length + 7) / 8 :=
  (bit_writer_layout (HuffmanCompressor.init (fun _ => [])) (fun _ => 0) [5, 5, 5, 5, 5]
    (by decide) (by decide)).2.2.2.2.1

/-- C20 (decode walk safety). For every non-empty input `B` of bytes (its
length fitting the length field), on the container that `compress` wrote the
decode loop of `decompress`, run with the store into `deltaData` checked against
the array bound, ends without following a `nullptr` and without a store outside
the array, having stored exactly the delta stream of `B`; it agrees with the
unchecked loop, and `decompress` returns `true` and writes `B`. This includes
the inputs with a single distinct delta symbol, whose root has no right
child. -/
theorem decode_walk_safe (self self2 : HuffmanCompressor) (mem mem2 : Nat → Nat)
    (B : List Nat) (hne : B ≠ []) (hb : ∀ b ∈ B, b < 256) (hlen : B.length < 2 ^ 63) :
    (compress self mem (some B)).output
        = some (headerOf (countFreq (deltaForward B)) (B.length : Int)
            ++ payloadOf (buildTree (countFreq (deltaForward B))) (deltaForward B))
      ∧ decodeLoopSafe (buildTree (countFreq (deltaForward B))) B.length
            (payloadOf (buildTree (countFreq (deltaForward B))) (deltaForward B))
            ⟨buildTree (countFreq (deltaForward B)), uninit mem2 B.length, 0⟩
          = some ⟨buildTree (countFreq (deltaForward B)), deltaForward B, B.length⟩
      ∧ decodeLoop (buildTree (countFreq (deltaForward B))) B.length
            (payloadOf (buildTree (countFreq (deltaForward B))) (deltaForward B))
            ⟨buildTree (countFreq (deltaForward B)), uninit mem2 B.length, 0⟩
          = some ⟨buildTree (countFreq (deltaForward B)), deltaForward B, B.length⟩
      ∧ (decompress self2 mem2 (compress self mem (some B)).output).map
            (fun o => (o.result, o.output)) = some (true, some B) := by
  obtain ⟨hsne, hmem, _, _⟩ := delta_facts B hne hb
  obtain ⟨_, hleaf, hperm, _⟩ := buildTree_spec _ hsne
  have hdec := decodeLoop_payloadOf (buildTree (countFreq (deltaForward B))) (deltaForward B)
    [] mem2 hleaf (fun d hd => hperm.symm.subset (hmem d hd))
  rw [deltaForward_length, List.append_nil] at hdec
  have ho := (compress_eq self mem B hne hb).2
  refine ⟨ho, ?_, hdec, ?_⟩
  · rw [decodeLoopSafe_eq _ _ _ _ (uninit_length mem2 B.length)]
    exact hdec
  · obtain ⟨o, h1, h2, h3⟩ := decompress_containerOf self2 mem2 B [] hne hb hlen
    rw [List.append_nil] at h1
    rw [ho, h1]
    simp [h2, h3]

/-- Instance of C20 at the input `[0, 0, 0]`, whose delta stream has the single
symbol 0 and whose root has no right child. -/
theorem decode_walk_safe_witness :
    decodeLoopSafe (buildTree (countFreq (deltaForward [0, 0, 0])))
        ([0, 0, 0] : List Nat).length
        (payloadOf (buildTree (countFreq (deltaForward [0, 0, 0]))) (deltaForward [0, 0, 0]))
        ⟨buildTree (countFreq (deltaForward [0, 0, 0])),
          uninit (fun _ => 9) ([0, 0, 0] : List Nat).length, 0⟩
      = some ⟨buildTree (countFreq (deltaForward [0, 0, 0])), deltaForward [0, 0, 0],
          ([0, 0, 0] : List Nat).length⟩ :=
  (decode_walk_safe (HuffmanCompressor.init (fun _ => []))
    (HuffmanCompressor.init (fun _ => [])) (fun _ => 0) (fun _ => 9) [0, 0, 0]
    (by decide) (by decide) (by decide)).2.1

end DSAProject
